import Mathlib

/-!
Verification development for the HierarchyTrix ordering solvers.

The Python sources are shallowly embedded into Lean:
* pure helper functions become Lean functions,
* `dict` position maps become `Option Nat`-valued lookup functions
  (a Python `KeyError` is modelled by `none` propagating outward),
* the random shuffles of the heuristic are an explicit oracle parameter
  `rng : Nat → List NodeId → List NodeId` consumed in call order,
* the Gurobi sub-solver of the hybrid is an explicit oracle giving the
  score function used to sort a sibling group (or `none` for an engine
  failure), and the exact ILP is modelled by its constraint system over
  0/1 assignments.
-/

namespace HTrix

abbrev NodeId := String

/-- All ordered pairs `(l[i], l[j])` with `i < j`, in the order the Python
double loop `for i ...: for j ...: if i >= j: continue` visits them. -/
def offDiagPairs : List α → List (α × α)
  | [] => []
  | e :: es => es.map (fun f => (e, f)) ++ offDiagPairs es

/-- Python's `{node: idx for idx, node in enumerate(layout)}` read back at `x`:
the index of the last occurrence of `x` (later assignments overwrite), `none`
when `x` does not occur. -/
def dictPos (layout : List NodeId) (x : NodeId) : Option Nat :=
  match layout with
  | [] => none
  | y :: ys =>
    match dictPos ys x with
    | some i => some (i + 1)
    | none => if y = x then some 0 else none

/-- Python's `layout.index(x)`: first occurrence, `none` models `ValueError`. -/
def pyIndex (layout : List NodeId) (x : NodeId) : Option Nat :=
  match layout with
  | [] => none
  | y :: ys => if y = x then some 0 else (pyIndex ys x).map (· + 1)

/-- The eight interleaving patterns of `count_crossings_fast`
(heuristic_solver.py, lines 158-167), in source order. -/
def crossPattern (u1p v1p u2p v2p : Nat) : Bool :=
  (u1p < u2p && u2p < v1p && v1p < v2p) ||
  (u1p < v2p && v2p < v1p && v1p < u2p) ||
  (v1p < u2p && u2p < u1p && u1p < v2p) ||
  (v1p < v2p && v2p < u1p && u1p < u2p) ||
  (u2p < u1p && u1p < v2p && v2p < v1p) ||
  (u2p < v1p && v1p < v2p && v2p < u1p) ||
  (v2p < u1p && u1p < u2p && u2p < v1p) ||
  (v2p < v1p && v1p < u2p && u2p < u1p)

/-- The eight patterns of `calculate_crossings` (hybrid_solver.py,
lines 482-489), in source order. -/
def crossPatternH (u1p v1p u2p v2p : Nat) : Bool :=
  (u1p < u2p && u2p < v1p && v1p < v2p) ||
  (u1p < v2p && v2p < v1p && v1p < u2p) ||
  (u2p < u1p && u1p < v2p && v2p < v1p) ||
  (u2p < v1p && v1p < v2p && v2p < u1p) ||
  (v1p < u2p && u2p < u1p && u1p < v2p) ||
  (v1p < v2p && v2p < u1p && u1p < u2p) ||
  (v2p < u1p && u1p < u2p && u2p < v1p) ||
  (v2p < v1p && v1p < u2p && u2p < u1p)

/-- The crossing test of a pair of edges under a position map, skipping the
pair when an endpoint is missing (as `calculate_crossings` does). -/
def crossPairH (pos : NodeId → Option Nat) (e1 e2 : NodeId × NodeId) : Bool :=
  match pos e1.1, pos e1.2, pos e2.1, pos e2.2 with
  | some a, some b, some c, some d => crossPatternH a b c d
  | _, _, _, _ => false

/-- `calculate_crossings` of hybrid_solver.py (total: missing endpoints are
skipped with `continue`). -/
def calculate_crossings (layout : List NodeId) (edges : List (NodeId × NodeId)) : Nat :=
  (offDiagPairs edges).countP (fun p => crossPairH (dictPos layout) p.1 p.2)

/-- The crossing test of a pair of edges under a position map, with the
pattern list of `count_crossings_fast`. -/
def crossPairF (pos : NodeId → Option Nat) (e1 e2 : NodeId × NodeId) : Bool :=
  match pos e1.1, pos e1.2, pos e2.1, pos e2.2 with
  | some a, some b, some c, some d => crossPattern a b c d
  | _, _, _, _ => false

/-- `count_crossings_fast` of heuristic_solver.py.  The Python function raises
`KeyError` when an edge endpoint is absent from the layout; that is the
`none` result. -/
def count_crossings_fast (layout : List NodeId) (edges : List (NodeId × NodeId)) :
    Option Nat :=
  if edges.all (fun e => ((dictPos layout) e.1).isSome && ((dictPos layout) e.2).isSome) then
    some ((offDiagPairs edges).countP (fun p => crossPairF (dictPos layout) p.1 p.2))
  else none


/-- Swapping the two endpoints of an edge: the "representational artifact"
direction of a bottom edge. -/
def swapEdge (e : α × α) : α × α := (e.2, e.1)

/-- Two edges are the same up to endpoint direction. -/
def SwapRel (e f : α × α) : Prop := e = f ∨ e = swapEdge f

/-- Code-point lexicographic comparison of character lists: what Python's
string `<` computes. -/
def charListLt : List Char → List Char → Bool
  | [], [] => false
  | [], _ :: _ => true
  | _ :: _, [] => false
  | c :: cs, d :: ds =>
    if c.toNat < d.toNat then true
    else if d.toNat < c.toNat then false
    else charListLt cs ds

/-- Strict Python string comparison (code-point lexicographic, as `sorted` uses). -/
def strLtB (s t : NodeId) : Bool := charListLt s.data t.data

/-- Stable insertion: `x` is placed before the first element not strictly
below it, so equal keys keep their original relative order (Python's
`sorted` is stable). -/
def insertLt (lt : α → α → Bool) (x : α) : List α → List α
  | [] => [x]
  | y :: ys => if lt y x then y :: insertLt lt x ys else x :: y :: ys

/-- Stable sort with a strict comparison, modelling Python's `sorted`. -/
def pySort (lt : α → α → Bool) : List α → List α
  | [] => []
  | x :: xs => insertLt lt x (pySort lt xs)

/-- The graph model shared by the heuristic and hybrid solvers: the node ids in
document order, the `parent` attribute, and the bottom-edge list as the
loader collected it. -/
structure HGraph where
  nodes : List NodeId
  parentOf : NodeId → Option NodeId
  bottomEdges : List (NodeId × NodeId)

/-- The top edges `(parent n, n)` reconstructed from the `parent` attributes
(heuristic_solver.py lines 56-63 and 88-97). -/
def topEdges (g : HGraph) : List (NodeId × NodeId) :=
  g.nodes.filterMap (fun c => (g.parentOf c).map (fun p => (p, c)))

/-- `[v for u, v in top_edges if u == node]`. -/
def childrenOf (g : HGraph) (node : NodeId) : List NodeId :=
  (topEdges g).filterMap (fun e => if e.1 = node then some e.2 else none)

/-- `sorted(children)` in the DFS of `build_initial_layout`. -/
def sortedChildren (g : HGraph) (node : NodeId) : List NodeId :=
  pySort strLtB (childrenOf g node)

/-- The recursive `dfs` of `build_initial_layout`, with the `(layout, visited)`
state explicit.  The fuel only bounds the recursion depth; `nodes.length + 1`
is enough for every acyclic parent map. -/
def dfsGo (g : HGraph) : Nat → NodeId → List NodeId × List NodeId → List NodeId × List NodeId
  | 0, _, st => st
  | fuel + 1, node, (layout, visited) =>
    if node ∈ visited then (layout, visited)
    else (sortedChildren g node).foldl (fun st c => dfsGo g fuel c st)
      (layout ++ [node], visited ++ [node])

/-- `build_initial_layout` of heuristic_solver.py: DFS from the id-sorted
roots, then the unvisited nodes appended in document order. -/
def build_initial_layout (g : HGraph) : List NodeId :=
  let roots := g.nodes.filter (fun n => (g.parentOf n).isNone)
  let st := (pySort strLtB roots).foldl (fun st r => dfsGo g (g.nodes.length + 1) r st)
    ([], [])
  st.1 ++ g.nodes.filter (fun n => !(decide (n ∈ st.2)))

/-- Reference pre-order of the subtree below `v` (specification helper used to
state what the DFS computes; fueled like the DFS). -/
def preAux (g : HGraph) : Nat → NodeId → List NodeId
  | 0, _ => []
  | fuel + 1, v => v :: (sortedChildren g v).flatMap (preAux g fuel)

/-- The stabilised pre-order of the subtree below `v`. -/
def preList (g : HGraph) (v : NodeId) : List NodeId :=
  preAux g (g.nodes.length + 1) v

/-- `u` lies in the subtree of `v` of the parent forest (reflexive). -/
inductive Desc (g : HGraph) : NodeId → NodeId → Prop
  | refl (v : NodeId) : Desc g v v
  | step {v p c : NodeId} : Desc g v p → g.parentOf c = some p → Desc g v c

/-- Validity of an input graph as the spec demands it (well-formed ids,
resolvable parents, acyclic parent map, known edge endpoints).  Acyclicity is
witnessed by a depth function, which for a genuinely valid document can always
be chosen below the node count. -/
structure ValidGraph (g : HGraph) : Prop where
  nodesNodup : g.nodes.Nodup
  parentMem : ∀ c ∈ g.nodes, ∀ p, g.parentOf c = some p → p ∈ g.nodes
  depthEx : ∃ d : NodeId → Nat,
    (∀ c ∈ g.nodes, ∀ p, g.parentOf c = some p → d c = d p + 1) ∧
    (∀ v ∈ g.nodes, d v < g.nodes.length)
  bottomMem : ∀ e ∈ g.bottomEdges, e.1 ∈ g.nodes ∧ e.2 ∈ g.nodes

/-- Threading of `apply_sibling_order_fast`: walk the window, replace group
members by the next element of `new_order` (`none` models the `StopIteration`
of an exhausted iterator). -/
def threadOrder (siblings : List NodeId) : List NodeId → List NodeId → Option (List NodeId)
  | [], _ => some []
  | n :: rest, ord =>
    if n ∈ siblings then
      match ord with
      | [] => none
      | o :: os => (threadOrder siblings rest os).map (fun nb => o :: nb)
    else (threadOrder siblings rest ord).map (fun nb => n :: nb)

/-- `apply_sibling_order_fast` of heuristic_solver.py. -/
def apply_sibling_order_fast (cur siblings : List NodeId) (minPos maxPos : Nat)
    (newOrder : List NodeId) : Option (List NodeId) :=
  (threadOrder siblings ((cur.take (maxPos + 1)).drop minPos) newOrder).map
    (fun nb => cur.take minPos ++ nb ++ cur.drop (maxPos + 1))

/-- `find_cluster_block`: the contiguous slice spanned by the group
(`none` models `list.index` raising on a missing member). -/
def find_cluster_block (cur siblings : List NodeId) : Option (List NodeId) := do
  let idxs ← siblings.mapM (pyIndex cur)
  match idxs with
  | [] => none
  | i :: is2 =>
    some ((cur.take (is2.foldl Nat.max i + 1)).drop (is2.foldl Nat.min i))

/-- `get_leaf_descendants` (fueled; `none` models Python's recursion limit,
never reached on acyclic inputs). -/
def get_leaf_descendants (g : HGraph) : Nat → NodeId → Option (List NodeId)
  | 0, _ => none
  | fuel + 1, node =>
    (childrenOf g node).foldl
      (fun acc child =>
        match acc with
        | none => none
        | some leaves =>
          if childrenOf g child = [] then some (leaves ++ [child])
          else (get_leaf_descendants g fuel child).map (fun l => leaves ++ l))
      (some [])

/-- Positions of bottom-edge neighbours of `node` (`compute_barycenter`'s
`connected_positions`; `none` models a `KeyError`). -/
def neighborPositions (pos : NodeId → Option Nat) (bottom : List (NodeId × NodeId))
    (node : NodeId) : Option (List Nat) :=
  bottom.foldlM
    (fun l e => do
      let l1 ← if e.1 = node then (pos e.2).map (fun i => l ++ [i]) else some l
      if e.2 = node then (pos e.1).map (fun i => l1 ++ [i]) else some l1)
    []

/-- `compute_barycenter`: the mean of the neighbour positions as an exact
unnormalized fraction `(sum, count)` (the Python float division is exact on
the small integers that occur here, so ordering by the fraction is ordering
by the float), else the node's own position as `(pos, 1)`. -/
def compute_barycenter (pos : NodeId → Option Nat) (bottom : List (NodeId × NodeId))
    (node : NodeId) : Option (Nat × Nat) := do
  let ps ← neighborPositions pos bottom node
  match ps with
  | [] => (pos node).map (fun i => (i, 1))
  | _ => some (ps.foldl (· + ·) 0, ps.length)

/-- The strict order of two exact fractions with positive denominators:
`a/b < c/d  ↔  a*d < c*b`, the comparison Python's float sort performs. -/
def fracLt (a b : Nat × Nat) : Bool := decide (a.1 * b.2 < b.1 * a.2)

/-- `barycenter_ordering`: stable sort of the group by barycenter key. -/
def barycenter_ordering (siblings cur : List NodeId) (bottom : List (NodeId × NodeId)) :
    Option (List NodeId) := do
  let keyed ← siblings.mapM
    (fun s => (compute_barycenter (pyIndex cur) bottom s).map (fun k => (s, k)))
  some ((pySort (fun a b => fracLt a.2 b.2) keyed).map (·.1))

/-- Bottom-edge degree of a node. -/
def bottom_degree (bottom : List (NodeId × NodeId)) (node : NodeId) : Nat :=
  bottom.countP (fun e => decide (e.1 = node) || decide (e.2 = node))

/-- `connectivity_ordering`: stable sort by bottom degree, descending. -/
def connectivity_ordering (siblings : List NodeId) (bottom : List (NodeId × NodeId)) :
    List NodeId :=
  pySort (fun a b => decide (bottom_degree bottom b < bottom_degree bottom a)) siblings

/-- `new_order[i:i+bs] = reversed(block)` on a copy of the list. -/
def reverseSlice (l : List α) (i bs : Nat) : List α :=
  l.take i ++ ((l.drop i).take bs).reverse ++ l.drop (i + bs)

/-- The local block inversions (strategy 4). -/
def localInversions (siblings : List NodeId) : List (List NodeId) :=
  if 3 < siblings.length then
    (List.range' 2 (min siblings.length 5 - 2)).flatMap
      (fun bs => (List.range (siblings.length - bs + 1)).map
        (fun i => reverseSlice siblings i bs))
  else []

/-- A candidate reordering together with the window it is threaded into, as
`optimize_multi_strategy` dispatches on the strategy name. -/
inductive Strat
  | sdefault (ord : List NodeId)
  | scluster (block : List NodeId) (ord : List NodeId)
  | sleafdesc (ld : List NodeId) (ord : List NodeId)

/-- Candidate layout of one strategy (lines 413-423 of heuristic_solver.py). -/
def evalStrat (cur siblings : List NodeId) (minPos maxPos : Nat) :
    Strat → Option (List NodeId)
  | .sdefault ord => apply_sibling_order_fast cur siblings minPos maxPos ord
  | .scluster block ord =>
    match block with
    | [] => none
    | b0 :: bs => do
      let mc ← pyIndex cur b0
      let lastb ← (b0 :: bs).getLast?
      let xc ← pyIndex cur lastb
      apply_sibling_order_fast cur block mc xc ord
  | .sleafdesc ld ord => do
    let idxs ← ld.mapM (pyIndex cur)
    match idxs with
    | [] => none
    | i :: is2 =>
      apply_sibling_order_fast cur ld (is2.foldl Nat.min i) (is2.foldl Nat.max i) ord

/-- `verify_top_page_planarity_fast`. -/
def verify_top_page_planarity_fast (top : List (NodeId × NodeId)) (layout : List NodeId) :
    Option Bool :=
  (count_crossings_fast layout top).map (fun c => decide (c = 0))

/-- The evaluation loop over the strategy list: keep the strictly best planar
candidate (lines 404-433). -/
def evalStrategies (top bottom : List (NodeId × NodeId)) (cur siblings : List NodeId)
    (minPos maxPos : Nat) (strats : List Strat) (baseCross : Nat) :
    Option (Option (List NodeId × Nat)) :=
  strats.foldl
    (fun acc strat =>
      match acc with
      | none => none
      | some best =>
        match evalStrat cur siblings minPos maxPos strat with
        | none => none
        | some newLayout =>
          match verify_top_page_planarity_fast top newLayout with
          | none => none
          | some false => some best
          | some true =>
            match count_crossings_fast newLayout bottom with
            | none => none
            | some nc =>
              if nc < (match best with | some b => b.2 | none => baseCross)
              then some (some (newLayout, nc))
              else some best)
    (some none)

/-- One iteration of the per-group `while improved` loop: build the strategy
list, evaluate it, return the accepted `(layout, crossings)` if any, plus the
advanced shuffle counter. -/
def groupIteration (g : HGraph) (top bottom : List (NodeId × NodeId))
    (rng : Nat → List NodeId → List NodeId) (parent : NodeId) (siblings : List NodeId)
    (minPos maxPos : Nat) (cur : List NodeId) (ctr : Nat) :
    Option (Option (List NodeId × Nat) × Nat) := do
  let currentOrder := ((cur.take (maxPos + 1)).drop minPos).filter
    (fun n => decide (n ∈ siblings))
  let baseCross ← count_crossings_fast cur bottom
  let s1 : List Strat := [.sdefault currentOrder.reverse]
  let cblock ← find_cluster_block cur siblings
  let s2 : List Strat :=
    if siblings.length < cblock.length then [.scluster cblock cblock.reverse] else []
  let ld ← get_leaf_descendants g (g.nodes.length + 1) parent
  let s3 : List Strat := if 1 < ld.length then [.sleafdesc ld ld.reverse] else []
  let s4 : List Strat := (localInversions siblings).map .sdefault
  let bary ← barycenter_ordering siblings cur bottom
  let s5 : List Strat := [.sdefault bary]
  let s6 : List Strat := [.sdefault (connectivity_ordering siblings bottom)]
  let s7 : List Strat :=
    if siblings.length ≤ 6 then
      (List.range 5).map (fun k => Strat.sdefault (rng (ctr + k) currentOrder))
    else []
  let ctr2 := if siblings.length ≤ 6 then ctr + 5 else ctr
  let res ← evalStrategies top bottom cur siblings minPos maxPos
    (s1 ++ s2 ++ s3 ++ s4 ++ s5 ++ s6 ++ s7) baseCross
  some (res, ctr2)

/-- The per-group `while improved` loop.  The fuel only bounds the number of
iterations; since every accepted move strictly decreases the bottom crossing
count, `baseCross + 1` iterations always suffice (proved below). -/
def groupLoop (g : HGraph) (top bottom : List (NodeId × NodeId))
    (rng : Nat → List NodeId → List NodeId) (parent : NodeId) (siblings : List NodeId)
    (minPos maxPos : Nat) : Nat → List NodeId → Nat → Option (List NodeId × Nat)
  | 0, _, _ => none
  | fuel + 1, cur, ctr =>
    match groupIteration g top bottom rng parent siblings minPos maxPos cur ctr with
    | none => none
    | some (none, ctr2) => some (cur, ctr2)
    | some (some (bl, _), ctr2) =>
      groupLoop g top bottom rng parent siblings minPos maxPos fuel bl ctr2

/-- `sibling_groups`: internal nodes with at least two children, in node
order. -/
def sibling_groups (g : HGraph) : List (NodeId × List NodeId) :=
  g.nodes.filterMap
    (fun n => if 1 < (childrenOf g n).length then some (n, childrenOf g n) else none)

/-- The crossing score of one group in `find_problematic_sibling_groups`. -/
def group_score (pos : NodeId → Option Nat) (bottom : List (NodeId × NodeId))
    (siblings : List NodeId) : Option Nat :=
  if bottom.all (fun e => !(decide (e.1 ∈ siblings) || decide (e.2 ∈ siblings)) ||
      ((pos e.1).isSome && (pos e.2).isSome)) then
    some ((offDiagPairs bottom).countP
      (fun pr => (decide (pr.1.1 ∈ siblings) || decide (pr.1.2 ∈ siblings)) &&
        ((decide (pr.2.1 ∈ siblings) || decide (pr.2.2 ∈ siblings)) &&
          crossPairF pos pr.1 pr.2)))
  else none

/-- `find_problematic_sibling_groups`: groups scored under the current layout,
stably sorted by score descending, truncated to `top_n`, zero scores
dropped. -/
def find_problematic_sibling_groups (g : HGraph) (cur : List NodeId)
    (bottom : List (NodeId × NodeId)) (topN : Nat) :
    Option (List (NodeId × List NodeId)) := do
  let scored ← (sibling_groups g).mapM
    (fun pr => (group_score (dictPos cur) bottom pr.2).map (fun s => (pr, s)))
  some (((pySort (fun a b => decide (b.2 < a.2)) scored).take topN).filterMap
    (fun pr => if 0 < pr.2 then some pr.1 else none))

/-- Processing of one sibling group inside `optimize_multi_strategy`
(lines 344-444): skip trivial or untouched groups, then run the while loop
with the window fixed before it. -/
def processGroup (g : HGraph) (top bottom : List (NodeId × NodeId))
    (rng : Nat → List NodeId → List NodeId) (st : List NodeId × Nat)
    (pr : NodeId × List NodeId) : Option (List NodeId × Nat) :=
  if pr.2.length < 2 then some st
  else if !(bottom.any (fun e => decide (e.1 ∈ pr.2) || decide (e.2 ∈ pr.2))) then some st
  else do
    let idxs ← pr.2.mapM (pyIndex st.1)
    match idxs with
    | [] => none
    | i :: is2 => do
      let baseCross ← count_crossings_fast st.1 bottom
      groupLoop g top bottom rng pr.1 pr.2 (is2.foldl Nat.min i) (is2.foldl Nat.max i)
        (baseCross + 1) st.1 st.2

/-- `optimize_multi_strategy`. -/
def optimize_multi_strategy (g : HGraph) (rng : Nat → List NodeId → List NodeId)
    (top bottom : List (NodeId × NodeId)) (layout : List NodeId) :
    Option (List NodeId) := do
  let _ ← count_crossings_fast layout bottom
  let groups := sibling_groups g
  let probl ← find_problematic_sibling_groups g layout bottom (min 10 groups.length)
  let allGroups := probl ++ groups.filter (fun pr => !(probl.any (fun q => q.1 == pr.1)))
  let res ← allGroups.foldlM (processGroup g top bottom rng) (layout, 0)
  some res.1

/-- `solve_layout_for_graph_heuristic` over an already-built graph model.  The
result is the FULL layout (the Python function returns `final_layout`, not the
leaf subsequence); `none` models an uncaught exception. -/
def solve_layout_for_graph_heuristic (g : HGraph)
    (rng : Nat → List NodeId → List NodeId) : Option (List NodeId) :=
  let layout := build_initial_layout g
  if layout = [] then some []
  else do
    let _ ← count_crossings_fast layout (topEdges g)
    let _ ← count_crossings_fast layout g.bottomEdges
    let final ← optimize_multi_strategy g rng (topEdges g) g.bottomEdges layout
    let _ ← count_crossings_fast final (topEdges g)
    let _ ← count_crossings_fast final g.bottomEdges
    some final

/-- The computed-leaf notion over the reconstructed graph: a node of the
graph with no top-edge children (what the exact solver's `leaf_nodes` and the
spec's "leaf" mean). -/
def isLeafB (g : HGraph) (n : NodeId) : Bool :=
  decide (n ∈ g.nodes) && decide (childrenOf g n = [])

/-- `[node for node in layout if node in leaf_nodes]` with the computed leaf
set. -/
def leafFilter (g : HGraph) (layout : List NodeId) : List NodeId :=
  layout.filter (isLeafB g)

/-- The hybrid's `has_children` (hybrid_solver.py lines 51-54), computed
BEFORE `solve_layout_for_graph_heuristic` reconstructs the top edges: the
loader adds every parent link with type `top` and then every input edge with
type `bottom`, and `nx.DiGraph.add_edge` on an existing edge overwrites its
attributes — so a parent link that an input edge duplicates does not count.
`rawEdges` is the document's edge list as loaded. -/
def staleHasChildren (g : HGraph) (rawEdges : List (NodeId × NodeId))
    (n : NodeId) : Bool :=
  g.nodes.any (fun c => decide (g.parentOf c = some n) && !(decide ((n, c) ∈ rawEdges)))

/-- Membership in the hybrid's `leaf_nodes = set(G.nodes()) - has_children`
(hybrid_solver.py lines 50-56): the STALE leaf set, computed on the
pre-reconstruction edge types. -/
def isLeafStaleB (g : HGraph) (rawEdges : List (NodeId × NodeId)) (n : NodeId) : Bool :=
  decide (n ∈ g.nodes) && !(staleHasChildren g rawEdges n)

/-- `[node for node in layout if node in leaf_nodes]` with the hybrid's stale
leaf set. -/
def staleLeafFilter (g : HGraph) (rawEdges : List (NodeId × NodeId))
    (layout : List NodeId) : List NodeId :=
  layout.filter (isLeafStaleB g rawEdges)

/-- `leaf_sibling_groups` of hybrid_solver.py: nodes with more than one leaf
child.  The children come from the top edges as reconstructed by the
heuristic call just before, but the leaf filter uses the STALE `leaf_nodes`
set computed at load time. -/
def leaf_sibling_groups (g : HGraph) (rawEdges : List (NodeId × NodeId)) :
    List (NodeId × List NodeId) :=
  g.nodes.filterMap (fun n =>
    let lc := (childrenOf g n).filter (isLeafStaleB g rawEdges)
    if 1 < lc.length then some (n, lc) else none)

/-- `calculate_local_crossings` of hybrid_solver.py: crossings among edges
whose endpoints all lie in the `[startPos, endPos]` window. -/
def calculate_local_crossings (layout : List NodeId) (edges : List (NodeId × NodeId))
    (startPos endPos : Nat) : Nat :=
  let pos := fun x => (dictPos ((layout.take (endPos + 1)).drop startPos) x).map
    (fun i => i + startPos)
  (offDiagPairs edges).countP (fun p => crossPairH pos p.1 p.2)

/-- Number of endpoints of the two edges that lie in the group, as a set
(`common_leaves` in `optimize_leaf_sibling_group`). -/
def commonLeafCount (s : List NodeId) (e1 e2 : NodeId × NodeId) : Nat :=
  (([e1.1, e1.2, e2.1, e2.2].filter (fun x => decide (x ∈ s))).dedup).length

/-- `optimize_leaf_sibling_group` of hybrid_solver.py, with the Gurobi result
abstracted by `score?`: `none` models an engine failure or non-usable status
(the inner `except`/status check, returning with the layout untouched), and
`some score` yields the leaf order the code extracts by sorting the group by
score, descending, stably.  The result is the updated layout; a `none` result
models an exception raised before the `try` block (a missing position). -/
def optimize_leaf_sibling_group (top bottom : List (NodeId × NodeId))
    (score? : Option (NodeId → Nat)) (layout : List NodeId)
    (positions : NodeId → Option Nat) (leafSiblings : List NodeId) :
    Option (List NodeId) := do
  let sibPos ← leafSiblings.mapM positions
  match sibPos with
  | [] => none
  | i :: is2 =>
    let startPos := is2.foldl Nat.min i
    let endPos := is2.foldl Nat.max i
    let currentBlock := (layout.take (endPos + 1)).drop startPos
    let currentLeafOrder := currentBlock.filter (fun n => decide (n ∈ leafSiblings))
    if currentLeafOrder.length ≤ 1 then some layout
    else
      match score? with
      | none => some layout
      | some score =>
        let affected := bottom.filter
          (fun e => decide (e.1 ∈ leafSiblings) || decide (e.2 ∈ leafSiblings))
        let pairsCreated := (offDiagPairs affected).countP
          (fun pr => decide (2 ≤ commonLeafCount leafSiblings pr.1 pr.2))
        if pairsCreated = 0 then some layout
        else
          let optimizedLeafOrder :=
            pySort (fun a b => decide (score b < score a)) leafSiblings
          if optimizedLeafOrder = currentLeafOrder then some layout
          else
            match threadOrder leafSiblings currentBlock optimizedLeafOrder with
            | none => some layout
            | some newBlock =>
              let layout2 := layout.take startPos ++ newBlock ++ layout.drop (endPos + 1)
              if calculate_crossings layout2 top = 0 then
                if calculate_local_crossings layout2 bottom startPos endPos <
                    calculate_local_crossings layout bottom startPos endPos
                then some layout2
                else some layout
              else some layout

/-- `solve_layout_for_graph_hybrid` over the graph model plus the raw input
edge list (needed because the function filters with the stale `leaf_nodes`
set computed before top-edge reconstruction).  The outer `try` catches every
exception and returns `[]`, so the result is a plain list: the stale-leaf
subsequence of either the improved layout (kept only when top-planar and
strictly better) or the heuristic layout. -/
def solve_layout_for_graph_hybrid (g : HGraph) (rawEdges : List (NodeId × NodeId))
    (rng : Nat → List NodeId → List NodeId)
    (oracle : Nat → Option (NodeId → Nat)) : List NodeId :=
  match solve_layout_for_graph_heuristic g rng with
  | none => []
  | some [] => []
  | some hl =>
    let top := topEdges g
    let bottom := g.bottomEdges
    let hbottom := calculate_crossings hl bottom
    if 0 < calculate_crossings hl top then staleLeafFilter g rawEdges hl
    else if leaf_sibling_groups g rawEdges = [] then staleLeafFilter g rawEdges hl
    else
      match (leaf_sibling_groups g rawEdges).enum.foldlM
          (fun cur pr => optimize_leaf_sibling_group top bottom (oracle pr.1) cur
            (dictPos cur) pr.2.2) hl with
      | none => []
      | some optimized =>
        if calculate_crossings optimized top = 0 ∧
            calculate_crossings optimized bottom < hbottom
        then staleLeafFilter g rawEdges optimized
        else staleLeafFilter g rawEdges hl

/-- A raw node of the JSON document (`id`, `parent`, `type` keys). -/
structure RawNode where
  id : NodeId
  parent : Option NodeId
  type : String
deriving DecidableEq

/-- A graph document: `nodes` and `edges` arrays. -/
structure InputDoc where
  nodes : List RawNode
  edges : List (NodeId × NodeId)

/-- Duplicate removal keeping first occurrences (a NetworkX graph keeps the
first insertion position of a node or edge). -/
def dedupFirstAux [DecidableEq α] (seen : List α) : List α → List α
  | [] => []
  | x :: xs =>
    if x ∈ seen then dedupFirstAux seen xs else x :: dedupFirstAux (x :: seen) xs

def dedupFirst [DecidableEq α] (l : List α) : List α := dedupFirstAux [] l

/-- The `parent` attribute of the node dict: last assignment wins, `none` for
an unknown id (also for ids that only appear as edge endpoints). -/
def docParent (doc : InputDoc) (x : NodeId) : Option NodeId :=
  match (doc.nodes.filter (fun n => n.id == x)).getLast? with
  | some n => n.parent
  | none => none

/-- The node list of the built DiGraph: document order, then implicit nodes
created by edge insertions. -/
def docNodeIds (doc : InputDoc) : List NodeId :=
  dedupFirst (doc.nodes.map (·.id) ++ doc.edges.flatMap (fun e => [e.1, e.2]))

/-- Bottom edges after the heuristic's top-edge reconstruction: the input
edges that do not coincide with a parent link, grouped by source adjacency
(the iteration order of `G.edges`; no downstream computation depends on this
order). -/
def serverBottomEdges (doc : InputDoc) : List (NodeId × NodeId) :=
  (docNodeIds doc).flatMap (fun u =>
    (dedupFirst doc.edges).filter
      (fun e => decide (e.1 = u) && !(decide (docParent doc e.2 = some e.1))))

/-- The graph model the server-side heuristic run works on (`dict_to_nx_graph`
followed by the heuristic's reconstruction of top edges; the hybrid's own
loader yields the same model). -/
def graphOfDoc (doc : InputDoc) : HGraph :=
  { nodes := docNodeIds doc
    parentOf := docParent doc
    bottomEdges := serverBottomEdges doc }

/-- The `has_cycle` walk of `validate_graph_structure` (fueled; the walk adds
a node to `visited` at every step, so `ids.length + 1` steps always decide). -/
def has_cycle_aux (pm : NodeId → Option NodeId) : Nat → NodeId → List NodeId → Bool
  | 0, _, _ => false
  | fuel + 1, nid, visited =>
    match pm nid with
    | none => false
    | some p => if p ∈ visited then true else has_cycle_aux pm fuel p (p :: visited)

/-- `validate_graph_structure` of server.py (the checks in source order;
`false` = the upload is rejected as an invalid structure). -/
def validate_graph_structure (doc : InputDoc) : Bool :=
  let ids := doc.nodes.map (·.id)
  (doc.nodes.all (fun n =>
      match n.parent with | none => true | some p => decide (p ∈ ids))) &&
  (ids.all (fun nid =>
      !(has_cycle_aux (docParent doc) (ids.length + 1) nid [nid]))) &&
  (doc.nodes.all (fun n => !(n.type == "cluster") ||
      doc.nodes.any (fun m =>
        match m.parent with
        | some p => p == n.id && !(p == "")
        | none => false))) &&
  (doc.edges.all (fun e => decide (e.1 ∈ ids) && decide (e.2 ∈ ids)))

/-- The `input` method of `/api/order`: ids of the nodes DECLARED `leaf`, in
document order, with the fallback to all ids; `none` is the error response. -/
def input_order (doc : InputDoc) : Option (List NodeId) :=
  let node_order := (doc.nodes.filter (fun n => n.type == "leaf")).map (·.id)
  if node_order = [] then
    if doc.nodes = [] then none else some (doc.nodes.map (·.id))
  else some node_order

/-- `generate_order` for the heuristic method: the layout joined by blanks,
`none` when the solver raised or returned an empty layout. -/
def generate_order_heuristic (doc : InputDoc)
    (rng : Nat → List NodeId → List NodeId) : Option String :=
  match solve_layout_for_graph_heuristic (graphOfDoc doc) rng with
  | none => none
  | some [] => none
  | some l => some (String.intercalate " " l)

/-- The solver branch of `get_order` for the heuristic method: serve from the
cache if present, otherwise solve, and cache exactly the non-empty results.
The pair is (response, cache state afterwards); a `none` response is the
error reply. -/
def get_order_heuristic (doc : InputDoc) (cached : Option String)
    (rng : Nat → List NodeId → List NodeId) : Option String × Option String :=
  match cached with
  | some s => (some s, some s)
  | none =>
    match generate_order_heuristic doc rng with
    | some s => (some s, some s)
    | none => (none, none)

/-- All ordered triples `(l[i], l[j], l[k])`, `i < j < k`, as
`itertools.combinations(nodes, 3)` enumerates them. -/
def offDiagTriples : List α → List (α × α × α)
  | [] => []
  | e :: es => (offDiagPairs es).map (fun p => (e, p.1, p.2)) ++ offDiagTriples es

/-- The data of the exact ILP after loading: node list and the ordered pairs
carrying type `top` resp. `bottom` (an input edge equal to a parent link
overwrites it, so such a pair is bottom here). -/
structure ILPInstance where
  nodes : List NodeId
  topPairs : List (NodeId × NodeId)
  bottomPairs : List (NodeId × NodeId)

/-- A 0/1 assignment to the ILP variables. -/
structure ILPAssign where
  x : NodeId → NodeId → Bool
  cvar : (NodeId × NodeId) → (NodeId × NodeId) → Bool

/-- One transitivity inequality `x[a,b] + x[b,c] ≤ x[a,c] + 1` over 0/1
values (`addTransitivityConstr`). -/
def transOk (x : NodeId → NodeId → Bool) (a b c : NodeId) : Bool :=
  !(x a b && x b c && !(x a c))

/-- The three transitivity inequalities the hybrid's restricted ILP adds per
3-combination (hybrid_solver.py lines 206-211). -/
def hybridTransTriple (x : NodeId → NodeId → Bool) (u v w : NodeId) : Bool :=
  transOk x u v w && (transOk x u w v && transOk x v u w)

/-- The six transitivity inequalities `addTransitivityConstr` of the exact
solver asserts per 3-subset (ILP_solver.py lines 117-132). -/
def exactTransTriple (x : NodeId → NodeId → Bool) (u v w : NodeId) : Bool :=
  transOk x u v w && (transOk x u w v && (transOk x v u w && (transOk x v w u &&
    (transOk x w u v && transOk x w v u))))

/-- The two edges share an endpoint (then `addCrossingConstr` adds nothing). -/
def sharesEndpoint (e1 e2 : NodeId × NodeId) : Bool :=
  decide (e1.1 = e2.1) || decide (e1.1 = e2.2) ||
    decide (e1.2 = e2.1) || decide (e1.2 = e2.2)

/-- The eight crossing inequalities of `addCrossingConstr`:
`x[·,·] + x[·,·] + x[·,·] ≤ 2 + c` over 0/1 values, in source order. -/
def crossConstr (x : NodeId → NodeId → Bool) (e1 e2 : NodeId × NodeId)
    (cv : Bool) : Bool :=
  if sharesEndpoint e1 e2 then true
  else
    let a := e1.1; let b := e1.2; let c := e2.1; let d := e2.2
    !(x a c && x c b && x b d && !cv) &&
    (!(x b c && x c a && x a d && !cv) &&
    (!(x a d && x d b && x b c && !cv) &&
    (!(x b d && x d a && x a c && !cv) &&
    (!(x c a && x a d && x d b && !cv) &&
    (!(x c b && x b d && x d a && !cv) &&
    (!(x d a && x a c && x c b && !cv) &&
    (!(x d b && x b c && x c a && !cv))))))))

/-- Feasibility of an assignment for the exact solver's constraint system
(antisymmetry, tree fixing, the six transitivity constraints per 3-subset,
the crossing inequalities for same-page pairs, and zero top crossings). -/
def Feasible (inst : ILPInstance) (σ : ILPAssign) : Prop :=
  (∀ pr ∈ offDiagPairs inst.nodes, σ.x pr.1 pr.2 = !(σ.x pr.2 pr.1)) ∧
  (∀ e ∈ inst.topPairs, σ.x e.1 e.2 = true) ∧
  (∀ tr ∈ offDiagTriples inst.nodes,
    exactTransTriple σ.x tr.1 tr.2.1 tr.2.2 = true) ∧
  (∀ pr ∈ offDiagPairs inst.topPairs,
    crossConstr σ.x pr.1 pr.2 (σ.cvar pr.1 pr.2) = true) ∧
  (∀ pr ∈ offDiagPairs inst.bottomPairs,
    crossConstr σ.x pr.1 pr.2 (σ.cvar pr.1 pr.2) = true) ∧
  (∀ pr ∈ offDiagPairs inst.topPairs, σ.cvar pr.1 pr.2 = false)

/-- The ILP objective: the number of bottom-bottom crossing variables set. -/
def objVal (inst : ILPInstance) (σ : ILPAssign) : Nat :=
  (offDiagPairs inst.bottomPairs).countP (fun pr => σ.cvar pr.1 pr.2)

/-- Decoding of a solved assignment: the topological order of the tournament
`u → v iff x[u,v]`; on a feasible assignment the tournament is a strict total
order and the topological order is the unique sorted listing. -/
def decode_order (inst : ILPInstance) (σ : ILPAssign) : List NodeId :=
  pySort (fun u v => σ.x u v) inst.nodes

/-- The crossing count of an order through index positions (what the crossing
counter computes when every endpoint is present). -/
def orderCross (L : List NodeId) (E : List (NodeId × NodeId)) : Nat :=
  (offDiagPairs E).countP (fun pr => crossPattern (L.indexOf pr.1.1) (L.indexOf pr.1.2)
    (L.indexOf pr.2.1) (L.indexOf pr.2.2))

/-- Orders satisfying the invariants the ILP encodes: a permutation of the
nodes, every top pair in parent-before-child orientation (I1), and no two top
pairs interleaved (I2 stated, as the spec's equivalence allows, through
top-page planarity). -/
def OrderInClass (inst : ILPInstance) (L : List NodeId) : Prop :=
  L.Perm inst.nodes ∧ (∀ e ∈ inst.topPairs, L.indexOf e.1 < L.indexOf e.2) ∧
  orderCross L inst.topPairs = 0

/-- The canonical assignment of an order: `x` from index comparison, `c` the
exact crossing indicator. -/
def assignOfOrder (L : List NodeId) : ILPAssign :=
  { x := fun u v => decide (L.indexOf u < L.indexOf v)
    cvar := fun e1 e2 => crossPattern (L.indexOf e1.1) (L.indexOf e1.2)
      (L.indexOf e2.1) (L.indexOf e2.2) }

/-- Leaf extraction of the ILP solver: nodes without top-typed out-edges. -/
def ilpLeafFilter (inst : ILPInstance) (l : List NodeId) : List NodeId :=
  l.filter (fun n => !(inst.topPairs.any (fun e => decide (e.1 = n))))

/-- The loop body of `get_leaf_descendants`, named for reasoning. -/
def gldStep (g : HGraph) (fuel : Nat) (acc : Option (List NodeId)) (child : NodeId) :
    Option (List NodeId) :=
  match acc with
  | none => none
  | some leaves =>
    if childrenOf g child = [] then some (leaves ++ [child])
    else (get_leaf_descendants g fuel child).map (fun l => leaves ++ l)

/-- The loop body of `evalStrategies`, named for reasoning. -/
def esStep (top bottom : List (NodeId × NodeId)) (cur siblings : List NodeId)
    (minPos maxPos : Nat) (baseCross : Nat)
    (acc : Option (Option (List NodeId × Nat))) (strat : Strat) :
    Option (Option (List NodeId × Nat)) :=
  match acc with
  | none => none
  | some best =>
    match evalStrat cur siblings minPos maxPos strat with
    | none => none
    | some newLayout =>
      match verify_top_page_planarity_fast top newLayout with
      | none => none
      | some false => some best
      | some true =>
        match count_crossings_fast newLayout bottom with
        | none => none
        | some nc =>
          if nc < (match best with | some b => b.2 | none => baseCross)
          then some (some (newLayout, nc))
          else some best

/-- The ordering-variable constraint system of the hybrid's restricted ILP:
antisymmetry per pair and three transitivity constraints per 3-subset. -/
def hybridOrderFeasible (leaves : List NodeId) (x : NodeId → NodeId → Bool) : Prop :=
  (∀ pr ∈ offDiagPairs leaves, x pr.1 pr.2 = !(x pr.2 pr.1)) ∧
  (∀ tr ∈ offDiagTriples leaves, hybridTransTriple x tr.1 tr.2.1 tr.2.2 = true)

/-- The ordering-variable constraint system of the exact solver: antisymmetry
per pair and all six transitivity constraints per 3-subset. -/
def exactOrderFeasible (leaves : List NodeId) (x : NodeId → NodeId → Bool) : Prop :=
  (∀ pr ∈ offDiagPairs leaves, x pr.1 pr.2 = !(x pr.2 pr.1)) ∧
  (∀ tr ∈ offDiagTriples leaves, exactTransTriple x tr.1 tr.2.1 tr.2.2 = true)

/-- `k`-fold iteration of the parent map, the spec's notion of a parent chain:
`parentIter doc k v` is the `k`-th ancestor of `v`, `none` when the chain
leaves the documented parents.  A parent cycle through `v` is
`parentIter doc (k+1) v = some v`. -/
def parentIter (doc : InputDoc) : Nat → NodeId → Option NodeId
  | 0, v => some v
  | k + 1, v =>
    match docParent doc v with
    | none => none
    | some p => parentIter doc k p

/-- All ways of inserting `x` into a list (auxiliary enumerator used to
quantify over the finitely many orders of a concrete node set). -/
def insertsEverywhere (x : α) : List α → List (List α)
  | [] => [[x]]
  | y :: ys => (x :: y :: ys) :: (insertsEverywhere x ys).map (y :: ·)

/-- All permutations of a list, by structural recursion (so that a finite
quantification over orders evaluates). -/
def allPerms : List α → List (List α)
  | [] => [[]]
  | x :: xs => (allPerms xs).flatMap (insertsEverywhere x)

/-- A star instance: root `A` with four leaf children and two interleaved
bottom edges (concrete witness input). -/
def gW : HGraph :=
  { nodes := ["A", "b", "c", "d", "e"]
    parentOf := fun x => if x = "A" then none else some "A"
    bottomEdges := [("b", "d"), ("c", "e")] }

/-- A two-node instance: root `a` with one leaf `b` (the heuristic returns
the full layout, including the internal `a`). -/
def g2c : HGraph :=
  { nodes := ["a", "b"]
    parentOf := fun x => if x = "b" then some "a" else none
    bottomEdges := [] }

/-- The stale-window instance: `r` over `p` and `z`, `p` over `a` and `c`,
`c` over `x` and `y`, with bottom edges that make the optimizer accept a
move shifting the group `[a, c]` out of its precomputed window. -/
def g10c : HGraph :=
  { nodes := ["r", "p", "a", "c", "x", "y", "z"]
    parentOf := fun v =>
      if v = "p" then some "r" else if v = "a" then some "p"
      else if v = "c" then some "p" else if v = "x" then some "c"
      else if v = "y" then some "c" else if v = "z" then some "r" else none
    bottomEdges := [("a", "x"), ("a", "y"), ("y", "c")] }

/-- A document whose `type` attributes lie about leafness: `b` is the only
actual leaf but no node is declared `leaf`. -/
def doc7 : InputDoc :=
  { nodes := [⟨"a", none, "root"⟩, ⟨"b", some "a", "node"⟩], edges := [] }

/-- A document with accurate `type` attributes: cluster `a`, leaves `b`,
`c`. -/
def doc7w : InputDoc :=
  { nodes := [⟨"a", none, "cluster"⟩, ⟨"b", some "a", "leaf"⟩, ⟨"c", some "a", "leaf"⟩]
    edges := [] }

/-- A document whose parent mapping is the 2-cycle `a ↔ b`. -/
def doc8 : InputDoc :=
  { nodes := [⟨"a", some "b", "node"⟩, ⟨"b", some "a", "node"⟩], edges := [] }

/-- The exact-ILP instance of the leaf-count gap: path clusters `r–a–x` and
`r–b–y` with bottom edges `(a,b)` and `(x,y)`. -/
def inst4 : ILPInstance :=
  { nodes := ["r", "a", "x", "b", "y"]
    topPairs := [("r", "a"), ("a", "x"), ("r", "b"), ("b", "y")]
    bottomPairs := [("a", "b"), ("x", "y")] }

/-- The divergence instance for the hybrid's stale leaf set: root `r` with one
child `a`, and the input document carries a bottom edge `(r, a)` that exactly
duplicates the parent link.  The loader turns the parent link `bottom`, so at
`leaf_nodes`-computation time `r` has no `top` out-edge; the heuristic then
flips the link back to `top`.  The duplicated edge is dropped from the
crossing-relevant bottom set (the exact loader excludes it), so
`bottomEdges = []` while `rawEdges = [(r, a)]`. -/
def gdup : HGraph :=
  { nodes := ["r", "a"]
    parentOf := fun x => if x = "a" then some "r" else none
    bottomEdges := [] }

-- ===================== THEOREMS =====================

theorem crossPatternH_eq (a b c d : Nat) : crossPatternH a b c d = crossPattern a b c d := by
  simp only [crossPattern, crossPatternH]
  ac_rfl

theorem crossPattern_swap1 (a b c d : Nat) : crossPattern b a c d = crossPattern a b c d := by
  simp only [crossPattern]
  ac_rfl

theorem crossPattern_swap2 (a b c d : Nat) : crossPattern a b d c = crossPattern a b c d := by
  simp only [crossPattern]
  ac_rfl

/-- The eight patterns are exactly the interleaving condition on the sorted
endpoint indices. -/
theorem crossPattern_iff_interleave (a b c d : Nat) :
    crossPattern a b c d = true ↔
      (min a b < min c d ∧ min c d < max a b ∧ max a b < max c d) ∨
      (min c d < min a b ∧ min a b < max c d ∧ max c d < max a b) := by
  simp only [crossPattern, Bool.or_eq_true, Bool.and_eq_true, decide_eq_true_eq]
  omega

theorem crossPairF_swap_left (pos : NodeId → Option Nat) (e1 e2 : NodeId × NodeId) :
    crossPairF pos (swapEdge e1) e2 = crossPairF pos e1 e2 := by
  simp only [crossPairF, swapEdge]
  rcases pos e1.1 with _ | a <;> rcases pos e1.2 with _ | b <;>
    rcases pos e2.1 with _ | c <;> rcases pos e2.2 with _ | d <;>
    simp [crossPattern_swap1]

theorem crossPairF_swap_right (pos : NodeId → Option Nat) (e1 e2 : NodeId × NodeId) :
    crossPairF pos e1 (swapEdge e2) = crossPairF pos e1 e2 := by
  simp only [crossPairF, swapEdge]
  rcases pos e1.1 with _ | a <;> rcases pos e1.2 with _ | b <;>
    rcases pos e2.1 with _ | c <;> rcases pos e2.2 with _ | d <;>
    simp [crossPattern_swap2]

theorem crossPairH_swap_left (pos : NodeId → Option Nat) (e1 e2 : NodeId × NodeId) :
    crossPairH pos (swapEdge e1) e2 = crossPairH pos e1 e2 := by
  simp only [crossPairH, swapEdge]
  rcases pos e1.1 with _ | a <;> rcases pos e1.2 with _ | b <;>
    rcases pos e2.1 with _ | c <;> rcases pos e2.2 with _ | d <;>
    simp [crossPatternH_eq, crossPattern_swap1]

theorem crossPairH_swap_right (pos : NodeId → Option Nat) (e1 e2 : NodeId × NodeId) :
    crossPairH pos e1 (swapEdge e2) = crossPairH pos e1 (e2.1, e2.2) := by
  simp only [crossPairH, swapEdge]
  rcases pos e1.1 with _ | a <;> rcases pos e1.2 with _ | b <;>
    rcases pos e2.1 with _ | c <;> rcases pos e2.2 with _ | d <;>
    simp [crossPatternH_eq, crossPattern_swap2]

theorem crossPairF_congr (pos : NodeId → Option Nat) (e1 f1 e2 f2 : NodeId × NodeId)
    (h1 : SwapRel e1 f1) (h2 : SwapRel e2 f2) :
    crossPairF pos e1 e2 = crossPairF pos f1 f2 := by
  rcases h1 with rfl | h1 <;> rcases h2 with rfl | h2
  · rfl
  · rw [h2, crossPairF_swap_right]
  · rw [h1, crossPairF_swap_left]
  · rw [h1, h2, crossPairF_swap_left, crossPairF_swap_right]

theorem crossPairH_congr (pos : NodeId → Option Nat) (e1 f1 e2 f2 : NodeId × NodeId)
    (h1 : SwapRel e1 f1) (h2 : SwapRel e2 f2) :
    crossPairH pos e1 e2 = crossPairH pos f1 f2 := by
  rcases h1 with rfl | h1 <;> rcases h2 with rfl | h2
  · rfl
  · rw [h2, crossPairH_swap_right]
  · rw [h1, crossPairH_swap_left]
  · rw [h1, h2, crossPairH_swap_left, crossPairH_swap_right]

theorem countP_congr_forall2 {R : α → α → Prop} {p q : α → Bool} {l1 l2 : List α}
    (h : List.Forall₂ R l1 l2) (hpq : ∀ x y, R x y → p x = q y) :
    l1.countP p = l2.countP q := by
  induction h with
  | nil => rfl
  | cons hxy htail ih => simp [List.countP_cons, ih, hpq _ _ hxy]

theorem all_congr_forall2 {R : α → α → Prop} {p q : α → Bool} {l1 l2 : List α}
    (h : List.Forall₂ R l1 l2) (hpq : ∀ x y, R x y → p x = q y) :
    l1.all p = l2.all q := by
  induction h with
  | nil => rfl
  | cons hxy htail ih => simp [List.all_cons, ih, hpq _ _ hxy]

theorem forall2_map_pair {R : α → α → Prop} {l1 l2 : List α} (e f : α)
    (hef : R e f) (h : List.Forall₂ R l1 l2) :
    List.Forall₂ (fun p q => R p.1 q.1 ∧ R p.2 q.2)
      (l1.map (fun x => (e, x))) (l2.map (fun x => (f, x))) := by
  induction h with
  | nil => exact .nil
  | cons hxy htail ih => exact .cons ⟨hef, hxy⟩ ih

theorem offDiagPairs_forall2 {R : α → α → Prop} {l1 l2 : List α}
    (h : List.Forall₂ R l1 l2) :
    List.Forall₂ (fun p q => R p.1 q.1 ∧ R p.2 q.2) (offDiagPairs l1) (offDiagPairs l2) := by
  induction h with
  | nil => exact .nil
  | cons hxy htail ih =>
      exact List.rel_append (forall2_map_pair _ _ hxy htail) ih

theorem swapRel_refl (e : α × α) : SwapRel e e := Or.inl rfl

theorem forall2_swapRel_set (edges : List (α × α)) (i : Nat) (u v : α)
    (h : edges[i]? = some (u, v)) :
    List.Forall₂ SwapRel (edges.set i (v, u)) edges := by
  induction edges generalizing i with
  | nil => simp at h
  | cons e es ih =>
      cases i with
      | zero =>
          simp only [List.getElem?_cons_zero, Option.some.injEq] at h
          subst h
          exact .cons (Or.inr rfl) (List.forall₂_same.mpr (fun x _ => swapRel_refl x))
      | succ n =>
          simp only [List.getElem?_cons_succ] at h
          exact .cons (swapRel_refl e) (ih n h)

theorem calculate_crossings_swapRel (layout : List NodeId)
    {E1 E2 : List (NodeId × NodeId)} (h : List.Forall₂ SwapRel E1 E2) :
    calculate_crossings layout E1 = calculate_crossings layout E2 := by
  unfold calculate_crossings
  exact countP_congr_forall2 (offDiagPairs_forall2 h)
    (fun x y hxy => crossPairH_congr _ _ _ _ _ hxy.1 hxy.2)

theorem count_crossings_fast_swapRel (layout : List NodeId)
    {E1 E2 : List (NodeId × NodeId)} (h : List.Forall₂ SwapRel E1 E2) :
    count_crossings_fast layout E1 = count_crossings_fast layout E2 := by
  unfold count_crossings_fast
  have hall : E1.all (fun e => ((dictPos layout) e.1).isSome && ((dictPos layout) e.2).isSome)
      = E2.all (fun e => ((dictPos layout) e.1).isSome && ((dictPos layout) e.2).isSome) := by
    refine all_congr_forall2 h (fun x y hxy => ?_)
    rcases hxy with hxy | hxy <;> subst hxy
    · rfl
    · simp [swapEdge, Bool.and_comm]
  rw [hall]
  split
  · exact congrArg some (countP_congr_forall2 (offDiagPairs_forall2 h)
      (fun x y hxy => crossPairF_congr _ _ _ _ _ hxy.1 hxy.2))
  · rfl

theorem insertLt_perm (lt : α → α → Bool) (x : α) (l : List α) :
    (insertLt lt x l).Perm (x :: l) := by
  induction l with
  | nil => rfl
  | cons y ys ih =>
      simp only [insertLt]
      split
      · exact ((ih.cons y).trans (List.Perm.swap x y ys))
      · rfl

theorem pySort_perm (lt : α → α → Bool) (l : List α) : (pySort lt l).Perm l := by
  induction l with
  | nil => rfl
  | cons x xs ih => exact (insertLt_perm lt x (pySort lt xs)).trans (ih.cons x)

theorem pySort_mem (lt : α → α → Bool) (l : List α) (x : α) :
    x ∈ pySort lt l ↔ x ∈ l :=
  (pySort_perm lt l).mem_iff

theorem pySort_nodup (lt : α → α → Bool) {l : List α} (h : l.Nodup) :
    (pySort lt l).Nodup :=
  (pySort_perm lt l).nodup_iff.mpr h

theorem topEdges_mem (g : HGraph) (p c : NodeId) :
    (p, c) ∈ topEdges g ↔ c ∈ g.nodes ∧ g.parentOf c = some p := by
  simp only [topEdges, List.mem_filterMap, Option.map_eq_some']
  constructor
  · rintro ⟨a, ha, q, hq, heq⟩
    cases heq
    exact ⟨ha, hq⟩
  · rintro ⟨hc, hp⟩
    exact ⟨c, hc, p, hp, rfl⟩

theorem childrenOf_eq_filter (g : HGraph) (p : NodeId) :
    childrenOf g p = g.nodes.filter (fun c => g.parentOf c == some p) := by
  simp only [childrenOf, topEdges, List.filterMap_filterMap]
  induction g.nodes with
  | nil => rfl
  | cons a l ih =>
      simp only [List.filterMap_cons, List.filter_cons]
      rcases ha : g.parentOf a with _ | q
      · simpa [ha] using ih
      · by_cases hq : q = p
        · subst hq
          simpa [ha] using congrArg (a :: ·) ih
        · have : (g.parentOf a == some p) = false := by
            simp [ha, hq]
          simpa [ha, hq, this] using ih

theorem childrenOf_mem (g : HGraph) (p c : NodeId) :
    c ∈ childrenOf g p ↔ c ∈ g.nodes ∧ g.parentOf c = some p := by
  rw [childrenOf_eq_filter]
  simp [List.mem_filter]

theorem childrenOf_nodup (g : HGraph) (h : g.nodes.Nodup) (p : NodeId) :
    (childrenOf g p).Nodup := by
  rw [childrenOf_eq_filter]
  exact h.filter _

theorem sortedChildren_mem (g : HGraph) (p c : NodeId) :
    c ∈ sortedChildren g p ↔ c ∈ g.nodes ∧ g.parentOf c = some p := by
  rw [sortedChildren, pySort_mem, childrenOf_mem]

theorem sortedChildren_nodup (g : HGraph) (h : g.nodes.Nodup) (p : NodeId) :
    (sortedChildren g p).Nodup :=
  pySort_nodup _ (childrenOf_nodup g h p)

theorem Desc.trans {g : HGraph} {v u w : NodeId} (h1 : Desc g v u) (h2 : Desc g u w) :
    Desc g v w := by
  induction h2 with
  | refl => exact h1
  | step _ hp ih => exact .step ih hp

theorem desc_cases_bottom {g : HGraph} {v c : NodeId} (h : Desc g v c) :
    v = c ∨ ∃ p, g.parentOf c = some p ∧ Desc g v p := by
  cases h with
  | refl => exact Or.inl rfl
  | step hd hp => exact Or.inr ⟨_, hp, hd⟩

theorem desc_mem_up {g : HGraph} (hg : ValidGraph g) {v u : NodeId}
    (h : Desc g v u) (hu : u ∈ g.nodes) : v ∈ g.nodes := by
  induction h with
  | refl => exact hu
  | step hd hp ih => exact ih (hg.parentMem _ hu _ hp)

theorem desc_depth_le {g : HGraph} (hg : ValidGraph g) {d : NodeId → Nat}
    (hd : ∀ c ∈ g.nodes, ∀ p, g.parentOf c = some p → d c = d p + 1)
    {v u : NodeId} (h : Desc g v u) (hu : u ∈ g.nodes) :
    d v ≤ d u ∧ (v ≠ u → d v < d u) := by
  induction h with
  | refl => exact ⟨le_rfl, fun h => absurd rfl h⟩
  | @step p c hdesc hp ih =>
      have hpmem : p ∈ g.nodes := hg.parentMem _ hu _ hp
      have hc := hd _ hu _ hp
      have := ih hpmem
      constructor
      · omega
      · intro _
        omega

theorem desc_irrefl_strict {g : HGraph} (hg : ValidGraph g) {d : NodeId → Nat}
    (hd : ∀ c ∈ g.nodes, ∀ p, g.parentOf c = some p → d c = d p + 1)
    {v u : NodeId} (h1 : Desc g v u) (h2 : Desc g u v) (hu : u ∈ g.nodes) : v = u := by
  by_contra hne
  have hv : v ∈ g.nodes := desc_mem_up hg h1 hu
  have a := (desc_depth_le hg hd h1 hu).2 hne
  have b := (desc_depth_le hg hd h2 hv).2 (Ne.symm hne)
  omega

theorem desc_comparable {g : HGraph} {a b u : NodeId}
    (h1 : Desc g a u) (h2 : Desc g b u) : Desc g a b ∨ Desc g b a := by
  induction h2 with
  | refl => exact Or.inl h1
  | @step p c hdesc hp ih =>
      rcases desc_cases_bottom h1 with rfl | ⟨p2, hp2, hdp2⟩
      · exact Or.inr (.step hdesc hp)
      · rw [hp] at hp2
        have hpp : p2 = p := (Option.some.inj hp2).symm
        subst hpp
        exact ih hdp2

theorem desc_siblings_disjoint {g : HGraph} (hg : ValidGraph g) {d : NodeId → Nat}
    (hd : ∀ c ∈ g.nodes, ∀ p, g.parentOf c = some p → d c = d p + 1)
    {p c1 c2 u : NodeId} (hc1 : g.parentOf c1 = some p) (hc2 : g.parentOf c2 = some p)
    (hne : c1 ≠ c2) (hu : u ∈ g.nodes) :
    ¬ (Desc g c1 u ∧ Desc g c2 u) := by
  rintro ⟨h1, h2⟩
  have hcmp := desc_comparable h1 h2
  have key : ∀ a b : NodeId, g.parentOf a = some p → g.parentOf b = some p →
      a ≠ b → b ∈ g.nodes → Desc g a b → False := by
    intro a b hpa hpb hab hbmem hdab
    rcases desc_cases_bottom hdab with rfl | ⟨q, hq, hdq⟩
    · exact hab rfl
    · rw [hpb] at hq
      cases hq
      have hpmem : p ∈ g.nodes := hg.parentMem _ hbmem _ hpb
      have hamem : a ∈ g.nodes := desc_mem_up hg hdq hpmem
      have hle := (desc_depth_le hg hd hdq hpmem).1
      have := hd _ hamem _ hpa
      omega
  have hc1mem : c1 ∈ g.nodes := desc_mem_up hg h1 hu
  have hc2mem : c2 ∈ g.nodes := desc_mem_up hg h2 hu
  rcases hcmp with hcmp | hcmp
  · exact key c1 c2 hc1 hc2 hne hc2mem hcmp
  · exact key c2 c1 hc2 hc1 (Ne.symm hne) hc1mem hcmp

theorem desc_child {g : HGraph} {p c : NodeId} (hp : g.parentOf c = some p) :
    Desc g p c := .step (.refl p) hp

theorem desc_decompose_top {g : HGraph} {v u : NodeId} (h : Desc g v u) (hne : v ≠ u) :
    ∃ c, g.parentOf c = some v ∧ Desc g c u := by
  induction h with
  | refl => exact absurd rfl hne
  | @step p c hdesc hp ih =>
      by_cases hvp : v = p
      · subst hvp
        exact ⟨c, hp, .refl c⟩
      · obtain ⟨c0, hc0, hdc0⟩ := ih hvp
        exact ⟨c0, hc0, .step hdc0 hp⟩

theorem flatMap_congr_mem {l : List α} {f f' : α → List β}
    (h : ∀ x ∈ l, f x = f' x) : l.flatMap f = l.flatMap f' := by
  induction l with
  | nil => rfl
  | cons a t ih =>
      simp only [List.flatMap_cons]
      rw [h a (by simp), ih (fun x hx => h x (by simp [hx]))]

theorem nodup_flatMap_disjoint {f : α → List β} {l : List α} (hl : l.Nodup)
    (hf : ∀ x ∈ l, (f x).Nodup)
    (hdisj : ∀ x ∈ l, ∀ y ∈ l, x ≠ y → ∀ b ∈ f x, b ∉ f y) :
    (l.flatMap f).Nodup := by
  induction l with
  | nil => exact List.nodup_nil
  | cons a t ih =>
      simp only [List.flatMap_cons]
      rw [List.nodup_append]
      refine ⟨hf a (by simp), ?_, ?_⟩
      · exact ih hl.of_cons (fun x hx => hf x (by simp [hx]))
          (fun x hx y hy hxy => hdisj x (by simp [hx]) y (by simp [hy]) hxy)
      · intro b hb hb'
        obtain ⟨x, hx, hbx⟩ := List.mem_flatMap.mp hb'
        have hax : a ≠ x := by
          rintro rfl
          exact (List.nodup_cons.mp hl).1 hx
        exact hdisj a (by simp) x (by simp [hx]) hax b hb hbx

theorem preAux_stable {g : HGraph} (hg : ValidGraph g) {d : NodeId → Nat}
    (hd : ∀ c ∈ g.nodes, ∀ p, g.parentOf c = some p → d c = d p + 1)
    (hb : ∀ v ∈ g.nodes, d v < g.nodes.length) :
    ∀ k v, v ∈ g.nodes → g.nodes.length - d v ≤ k →
      ∀ f1 f2, k ≤ f1 → k ≤ f2 → preAux g f1 v = preAux g f2 v := by
  intro k
  induction k with
  | zero =>
      intro v hv hk f1 f2 _ _
      have := hb v hv
      omega
  | succ k ih =>
      intro v hv hk f1 f2 h1 h2
      cases f1 with
      | zero => omega
      | succ f1 =>
        cases f2 with
        | zero => omega
        | succ f2 =>
          simp only [preAux]
          congr 1
          apply flatMap_congr_mem
          intro c hc
          rw [sortedChildren_mem] at hc
          have hdc := hd c hc.1 v hc.2
          have hbc := hb c hc.1
          exact ih c hc.1 (by omega) f1 f2 (by omega) (by omega)

theorem preList_unfold {g : HGraph} (hg : ValidGraph g) {v : NodeId} (hv : v ∈ g.nodes) :
    preList g v = v :: (sortedChildren g v).flatMap (preList g) := by
  obtain ⟨d, hd, hb⟩ := hg.depthEx
  simp only [preList, preAux]
  congr 1
  apply flatMap_congr_mem
  intro c hc
  rw [sortedChildren_mem] at hc
  have hdc := hd c hc.1 v hc.2
  have hbc := hb c hc.1
  exact preAux_stable hg hd hb (g.nodes.length - d c) c hc.1 le_rfl _ _
    (by omega) (by omega)

theorem preList_mem {g : HGraph} (hg : ValidGraph g) {v : NodeId} (hv : v ∈ g.nodes)
    (u : NodeId) : u ∈ preList g v ↔ Desc g v u ∧ u ∈ g.nodes := by
  obtain ⟨d, hd, hb⟩ := hg.depthEx
  have main : ∀ k v, v ∈ g.nodes → g.nodes.length - d v ≤ k →
      ∀ u, (u ∈ preList g v ↔ Desc g v u ∧ u ∈ g.nodes) := by
    intro k
    induction k with
    | zero =>
        intro v hv hk
        have := hb v hv
        omega
    | succ k ih =>
        intro v hv hk u
        rw [preList_unfold hg hv]
        simp only [List.mem_cons, List.mem_flatMap]
        constructor
        · rintro (rfl | ⟨c, hc, hu⟩)
          · exact ⟨.refl u, hv⟩
          · rw [sortedChildren_mem] at hc
            have hdc := hd c hc.1 v hc.2
            have hbc := hb c hc.1
            have := (ih c hc.1 (by omega) u).mp hu
            exact ⟨(desc_child hc.2).trans this.1, this.2⟩
        · rintro ⟨hdesc, humem⟩
          by_cases huv : v = u
          · exact Or.inl huv.symm
          · obtain ⟨c, hcp, hcu⟩ := desc_decompose_top hdesc huv
            have hcmem : c ∈ g.nodes := desc_mem_up hg hcu humem
            have hdc := hd c hcmem v hcp
            have hbc := hb c hcmem
            refine Or.inr ⟨c, ?_, ?_⟩
            · rw [sortedChildren_mem]
              exact ⟨hcmem, hcp⟩
            · exact (ih c hcmem (by omega) u).mpr ⟨hcu, humem⟩
  exact main (g.nodes.length - d v) v hv le_rfl u

theorem preList_nodup {g : HGraph} (hg : ValidGraph g) {v : NodeId} (hv : v ∈ g.nodes) :
    (preList g v).Nodup := by
  obtain ⟨d, hd, hb⟩ := hg.depthEx
  have main : ∀ k v, v ∈ g.nodes → g.nodes.length - d v ≤ k → (preList g v).Nodup := by
    intro k
    induction k with
    | zero =>
        intro v hv hk
        have := hb v hv
        omega
    | succ k ih =>
        intro v hv hk
        rw [preList_unfold hg hv]
        rw [List.nodup_cons]
        constructor
        · intro hvin
          obtain ⟨c, hc, hvc⟩ := List.mem_flatMap.mp hvin
          rw [sortedChildren_mem] at hc
          have hdesc := ((preList_mem hg hc.1 v).mp hvc).1
          have : c = v := desc_irrefl_strict hg hd hdesc (desc_child hc.2) hv
          subst this
          have := hd c hc.1 c hc.2
          omega
        · refine nodup_flatMap_disjoint (sortedChildren_nodup g hg.nodesNodup v) ?_ ?_
          · intro c hc
            rw [sortedChildren_mem] at hc
            have hdc := hd c hc.1 v hc.2
            have hbc := hb c hc.1
            exact ih c hc.1 (by omega)
          · intro c1 hc1 c2 hc2 hne b hb1 hb2
            rw [sortedChildren_mem] at hc1 hc2
            have m1 := (preList_mem hg hc1.1 b).mp hb1
            have m2 := (preList_mem hg hc2.1 b).mp hb2
            exact desc_siblings_disjoint hg hd hc1.2 hc2.2 hne m1.2 ⟨m1.1, m2.1⟩
  exact main (g.nodes.length - d v) v hv le_rfl

theorem preList_subtree_mem {g : HGraph} (hg : ValidGraph g) {v c u : NodeId}
    (hv : v ∈ g.nodes) (hc : c ∈ sortedChildren g v) (hu : u ∈ preList g c) :
    u ∈ preList g v := by
  rw [sortedChildren_mem] at hc
  have h := (preList_mem hg hc.1 u).mp hu
  exact (preList_mem hg hv u).mpr ⟨(desc_child hc.2).trans h.1, h.2⟩

theorem preList_child_not_self {g : HGraph} (hg : ValidGraph g) {v c : NodeId}
    (hv : v ∈ g.nodes) (hc : c ∈ sortedChildren g v) : v ∉ preList g c := by
  obtain ⟨d, hd, hb⟩ := hg.depthEx
  rw [sortedChildren_mem] at hc
  intro hmem
  have h := (preList_mem hg hc.1 v).mp hmem
  have : c = v := desc_irrefl_strict hg hd h.1 (desc_child hc.2) hv
  subst this
  have := hd c hc.1 c hc.2
  omega

theorem preList_sibling_disjoint {g : HGraph} (hg : ValidGraph g) {v c1 c2 u : NodeId}
    (hc1 : c1 ∈ sortedChildren g v) (hc2 : c2 ∈ sortedChildren g v) (hne : c1 ≠ c2)
    (h1 : u ∈ preList g c1) (h2 : u ∈ preList g c2) : False := by
  obtain ⟨d, hd, hb⟩ := hg.depthEx
  rw [sortedChildren_mem] at hc1 hc2
  have m1 := (preList_mem hg hc1.1 u).mp h1
  have m2 := (preList_mem hg hc2.1 u).mp h2
  exact desc_siblings_disjoint hg hd hc1.2 hc2.2 hne m1.2 ⟨m1.1, m2.1⟩

theorem dfsGo_spec {g : HGraph} (hg : ValidGraph g) {d : NodeId → Nat}
    (hd : ∀ c ∈ g.nodes, ∀ p, g.parentOf c = some p → d c = d p + 1)
    (hb : ∀ v ∈ g.nodes, d v < g.nodes.length) :
    ∀ k v, v ∈ g.nodes → g.nodes.length - d v ≤ k → ∀ fuel, k ≤ fuel →
      ∀ L V, (∀ u ∈ preList g v, u ∉ V) →
      dfsGo g fuel v (L, V) = (L ++ preList g v, V ++ preList g v) := by
  intro k
  induction k with
  | zero =>
      intro v hv hk
      have := hb v hv
      omega
  | succ k ih =>
      intro v hv hk fuel hfuel L V hdisj
      cases fuel with
      | zero => omega
      | succ f =>
        have hvV : v ∉ V := by
          refine hdisj v ?_
          rw [preList_unfold hg hv]
          simp
        simp only [dfsGo, hvV, if_false]
        have fold_spec : ∀ cs : List NodeId, cs.Nodup → (∀ c ∈ cs, c ∈ sortedChildren g v) →
            ∀ L' V', (∀ c ∈ cs, ∀ u ∈ preList g c, u ∉ V') →
            cs.foldl (fun st c => dfsGo g f c st) (L', V') =
              (L' ++ cs.flatMap (preList g), V' ++ cs.flatMap (preList g)) := by
          intro cs
          induction cs with
          | nil => simp
          | cons c cs' ihc =>
              intro hnd hsub L' V' hdis
              have hcmem : c ∈ g.nodes := by
                have := hsub c (by simp)
                rw [sortedChildren_mem] at this
                exact this.1
              have hcp : g.parentOf c = some v := by
                have := hsub c (by simp)
                rw [sortedChildren_mem] at this
                exact this.2
              have hdc := hd c hcmem v hcp
              have hbc := hb c hcmem
              simp only [List.foldl_cons]
              rw [ih c hcmem (by omega) f (by omega) L' V' (hdis c (by simp))]
              rw [ihc hnd.of_cons (fun x hx => hsub x (by simp [hx]))
                (L' ++ preList g c) (V' ++ preList g c) ?_]
              · simp [List.flatMap_cons, List.append_assoc]
              · intro c' hc' u hu
                simp only [List.mem_append]
                push_neg
                refine ⟨hdis c' (by simp [hc']) u hu, ?_⟩
                intro hupre
                exact preList_sibling_disjoint hg (hsub c (by simp))
                  (hsub c' (by simp [hc'])) (by rintro rfl; exact (List.nodup_cons.mp hnd).1 hc')
                  hupre hu
        rw [fold_spec (sortedChildren g v) (sortedChildren_nodup g hg.nodesNodup v)
          (fun c hc => hc) (L ++ [v]) (V ++ [v]) ?_]
        · rw [preList_unfold hg hv]
          simp [List.append_assoc]
        · intro c hc u hu
          simp only [List.mem_append, List.mem_singleton]
          push_neg
          constructor
          · exact hdisj u (preList_subtree_mem hg hv hc hu)
          · rintro rfl
            exact preList_child_not_self hg hv hc hu

theorem exists_root {g : HGraph} (hg : ValidGraph g) :
    ∀ v ∈ g.nodes, ∃ r, r ∈ g.nodes ∧ g.parentOf r = none ∧ Desc g r v := by
  obtain ⟨d, hd, hb⟩ := hg.depthEx
  have main : ∀ k v, v ∈ g.nodes → d v ≤ k →
      ∃ r, r ∈ g.nodes ∧ g.parentOf r = none ∧ Desc g r v := by
    intro k
    induction k with
    | zero =>
        intro v hv hk
        rcases hp : g.parentOf v with _ | p
        · exact ⟨v, hv, hp, .refl v⟩
        · have := hd v hv p hp
          omega
    | succ k ih =>
        intro v hv hk
        rcases hp : g.parentOf v with _ | p
        · exact ⟨v, hv, hp, .refl v⟩
        · have hpmem := hg.parentMem v hv p hp
          have := hd v hv p hp
          obtain ⟨r, hr1, hr2, hr3⟩ := ih p hpmem (by omega)
          exact ⟨r, hr1, hr2, .step hr3 hp⟩
  intro v hv
  exact main (d v) v hv le_rfl

theorem preList_root_disjoint {g : HGraph} (hg : ValidGraph g) {r1 r2 u : NodeId}
    (hr1 : r1 ∈ g.nodes) (hr2 : r2 ∈ g.nodes)
    (hp1 : g.parentOf r1 = none) (hp2 : g.parentOf r2 = none) (hne : r1 ≠ r2)
    (h1 : u ∈ preList g r1) (h2 : u ∈ preList g r2) : False := by
  have m1 := (preList_mem hg hr1 u).mp h1
  have m2 := (preList_mem hg hr2 u).mp h2
  rcases desc_comparable m1.1 m2.1 with hcmp | hcmp
  · rcases desc_cases_bottom hcmp with h | ⟨p, hp, _⟩
    · exact hne h
    · rw [hp2] at hp
      cases hp
  · rcases desc_cases_bottom hcmp with h | ⟨p, hp, _⟩
    · exact hne h.symm
    · rw [hp1] at hp
      cases hp

/-- The roots list of `build_initial_layout`, sorted as the code sorts it. -/
theorem build_initial_layout_eq {g : HGraph} (hg : ValidGraph g) :
    build_initial_layout g =
      (pySort strLtB (g.nodes.filter (fun n => (g.parentOf n).isNone))).flatMap
        (preList g) := by
  obtain ⟨d, hd, hb⟩ := hg.depthEx
  unfold build_initial_layout
  dsimp only
  have hroots_mem : ∀ r ∈ pySort strLtB (g.nodes.filter (fun n => (g.parentOf n).isNone)),
      r ∈ g.nodes ∧ g.parentOf r = none := by
    intro r hr
    rw [pySort_mem, List.mem_filter] at hr
    exact ⟨hr.1, by simpa [Option.isNone_iff_eq_none] using hr.2⟩
  have hroots_nodup : (pySort strLtB (g.nodes.filter (fun n => (g.parentOf n).isNone))).Nodup :=
    pySort_nodup _ (hg.nodesNodup.filter _)
  have fold_spec : ∀ rs : List NodeId, rs.Nodup →
      (∀ r ∈ rs, r ∈ g.nodes ∧ g.parentOf r = none) →
      ∀ L V, (∀ r ∈ rs, ∀ u ∈ preList g r, u ∉ V) →
      rs.foldl (fun st r => dfsGo g (g.nodes.length + 1) r st) (L, V) =
        (L ++ rs.flatMap (preList g), V ++ rs.flatMap (preList g)) := by
    intro rs
    induction rs with
    | nil => simp
    | cons r rs' ihr =>
        intro hnd hsub L V hdis
        have hrmem := (hsub r (by simp)).1
        have hbr := hb r hrmem
        simp only [List.foldl_cons]
        rw [dfsGo_spec hg hd hb (g.nodes.length - d r) r hrmem le_rfl _ (by omega)
          L V (hdis r (by simp))]
        rw [ihr hnd.of_cons (fun x hx => hsub x (by simp [hx]))
          (L ++ preList g r) (V ++ preList g r) ?_]
        · simp [List.flatMap_cons, List.append_assoc]
        · intro r' hr' u hu
          simp only [List.mem_append]
          push_neg
          refine ⟨hdis r' (by simp [hr']) u hu, ?_⟩
          intro hupre
          exact preList_root_disjoint hg (hsub r' (by simp [hr'])).1 (hsub r (by simp)).1
            (hsub r' (by simp [hr'])).2 (hsub r (by simp)).2
            (by rintro rfl; exact (List.nodup_cons.mp hnd).1 hr') hu hupre
  rw [fold_spec _ hroots_nodup hroots_mem [] [] (by simp)]
  simp only [List.nil_append]
  have hvisited : ∀ n ∈ g.nodes,
      n ∈ (pySort strLtB (g.nodes.filter (fun n => (g.parentOf n).isNone))).flatMap
        (preList g) := by
    intro n hn
    obtain ⟨r, hr1, hr2, hr3⟩ := exists_root hg n hn
    rw [List.mem_flatMap]
    refine ⟨r, ?_, (preList_mem hg hr1 n).mpr ⟨hr3, hn⟩⟩
    rw [pySort_mem, List.mem_filter]
    exact ⟨hr1, by simp [hr2]⟩
  have hfilter : (g.nodes.filter (fun n =>
      !(decide (n ∈ ((pySort strLtB (g.nodes.filter (fun n => (g.parentOf n).isNone))).flatMap
        (preList g), (pySort strLtB (g.nodes.filter (fun n => (g.parentOf n).isNone))).flatMap
        (preList g)).2)))) = [] := by
    rw [List.filter_eq_nil]
    intro a ha
    simp only [Bool.not_eq_true', decide_eq_false_iff_not, Decidable.not_not]
    exact hvisited a ha
  rw [hfilter]
  simp

theorem initial_layout_nodup {g : HGraph} (hg : ValidGraph g) :
    (build_initial_layout g).Nodup := by
  rw [build_initial_layout_eq hg]
  refine nodup_flatMap_disjoint ?_ ?_ ?_
  · exact pySort_nodup _ (hg.nodesNodup.filter _)
  · intro r hr
    rw [pySort_mem, List.mem_filter] at hr
    exact preList_nodup hg hr.1
  · intro r1 hr1 r2 hr2 hne u hu1 hu2
    rw [pySort_mem, List.mem_filter] at hr1 hr2
    exact preList_root_disjoint hg hr1.1 hr2.1
      (by simpa [Option.isNone_iff_eq_none] using hr1.2)
      (by simpa [Option.isNone_iff_eq_none] using hr2.2) hne hu1 hu2

theorem initial_layout_mem {g : HGraph} (hg : ValidGraph g) (u : NodeId) :
    u ∈ build_initial_layout g ↔ u ∈ g.nodes := by
  rw [build_initial_layout_eq hg]
  constructor
  · intro hu
    obtain ⟨r, hr, hur⟩ := List.mem_flatMap.mp hu
    rw [pySort_mem, List.mem_filter] at hr
    exact ((preList_mem hg hr.1 u).mp hur).2
  · intro hu
    obtain ⟨r, hr1, hr2, hr3⟩ := exists_root hg u hu
    rw [List.mem_flatMap]
    refine ⟨r, ?_, (preList_mem hg hr1 u).mpr ⟨hr3, hu⟩⟩
    rw [pySort_mem, List.mem_filter]
    exact ⟨hr1, by simp [hr2]⟩

theorem initial_layout_perm {g : HGraph} (hg : ValidGraph g) :
    (build_initial_layout g).Perm g.nodes := by
  refine List.Subperm.antisymm ?_ ?_
  · exact (initial_layout_nodup hg).subperm (fun u hu => (initial_layout_mem hg u).mp hu)
  · exact hg.nodesNodup.subperm (fun u hu => (initial_layout_mem hg u).mpr hu)

theorem dictPos_isSome_iff (l : List NodeId) (x : NodeId) :
    (dictPos l x).isSome = true ↔ x ∈ l := by
  induction l with
  | nil => simp [dictPos]
  | cons y ys ih =>
      simp only [dictPos]
      rcases h : dictPos ys x with _ | i
      · rw [h] at ih
        by_cases hyx : y = x <;> simp [hyx, List.mem_cons, ← ih]
        · tauto
      · rw [h] at ih
        simp only [Option.isSome_some, true_iff] at ih
        simp [List.mem_cons, ih]

theorem dictPos_eq_none_iff (l : List NodeId) (x : NodeId) :
    dictPos l x = none ↔ x ∉ l := by
  rw [← dictPos_isSome_iff]
  rcases dictPos l x with _ | i <;> simp

theorem dictPos_eq_indexOf {l : List NodeId} (h : l.Nodup) {x : NodeId} (hx : x ∈ l) :
    dictPos l x = some (l.indexOf x) := by
  induction l with
  | nil => cases hx
  | cons y ys ih =>
      rcases List.mem_cons.mp hx with rfl | hx'
      · have hxy : x ∉ ys := (List.nodup_cons.mp h).1
        have : dictPos ys x = none := (dictPos_eq_none_iff ys x).mpr hxy
        simp [dictPos, this, List.indexOf_cons_self]
      · have hyx : y ≠ x := by
          rintro rfl
          exact (List.nodup_cons.mp h).1 hx'
        rw [List.indexOf_cons_ne _ hyx]
        simp only [dictPos, ih (List.nodup_cons.mp h).2 hx']

theorem offDiagPairs_mem_sub {l : List α} {p : α × α} (h : p ∈ offDiagPairs l) :
    p.1 ∈ l ∧ p.2 ∈ l := by
  induction l with
  | nil => cases h
  | cons a t ih =>
      simp only [offDiagPairs, List.mem_append, List.mem_map] at h
      rcases h with ⟨f, hf, rfl⟩ | h
      · exact ⟨by simp, by simp [hf]⟩
      · have := ih h
        exact ⟨by simp [this.1], by simp [this.2]⟩

theorem flatMap_split {l1 l2 : List α} (x : α) (f : α → List β) :
    (l1 ++ x :: l2).flatMap f = l1.flatMap f ++ (f x ++ l2.flatMap f) := by
  simp

theorem preList_split {g : HGraph} (hg : ValidGraph g) :
    ∀ w ∈ g.nodes, ∀ v ∈ g.nodes, Desc g w v →
      ∃ A B, preList g w = A ++ (preList g v ++ B) := by
  obtain ⟨d, hd, hb⟩ := hg.depthEx
  have main : ∀ k w, w ∈ g.nodes → g.nodes.length - d w ≤ k →
      ∀ v ∈ g.nodes, Desc g w v → ∃ A B, preList g w = A ++ (preList g v ++ B) := by
    intro k
    induction k with
    | zero =>
        intro w hw hk
        have := hb w hw
        omega
    | succ k ih =>
        intro w hw hk v hv hdesc
        by_cases hwv : w = v
        · subst hwv
          exact ⟨[], [], by simp⟩
        · obtain ⟨c, hcp, hcv⟩ := desc_decompose_top hdesc hwv
          have hcmem : c ∈ g.nodes := desc_mem_up hg hcv hv
          have hcs : c ∈ sortedChildren g w := by
            rw [sortedChildren_mem]
            exact ⟨hcmem, hcp⟩
          obtain ⟨l1, l2, hsplit⟩ := List.append_of_mem hcs
          have hdc := hd c hcmem w hcp
          have hbc := hb c hcmem
          obtain ⟨A', B', hAB⟩ := ih c hcmem (by omega) v hv hcv
          refine ⟨w :: (l1.flatMap (preList g) ++ A'),
            B' ++ l2.flatMap (preList g), ?_⟩
          rw [preList_unfold hg hw, hsplit, flatMap_split, hAB]
          simp [List.append_assoc]
  intro w hw v hv hdesc
  obtain ⟨dd, hdd⟩ := hg.depthEx
  exact main (g.nodes.length - d w) w hw le_rfl v hv hdesc

theorem layout_split {g : HGraph} (hg : ValidGraph g) {v : NodeId} (hv : v ∈ g.nodes) :
    ∃ A B, build_initial_layout g = A ++ (preList g v ++ B) := by
  obtain ⟨r, hr1, hr2, hr3⟩ := exists_root hg v hv
  have hrs : r ∈ pySort strLtB (g.nodes.filter (fun n => (g.parentOf n).isNone)) := by
    rw [pySort_mem, List.mem_filter]
    exact ⟨hr1, by simp [hr2]⟩
  obtain ⟨l1, l2, hsplit⟩ := List.append_of_mem hrs
  obtain ⟨A', B', hAB⟩ := preList_split hg r hr1 v hv hr3
  refine ⟨l1.flatMap (preList g) ++ A', B' ++ l2.flatMap (preList g), ?_⟩
  rw [build_initial_layout_eq hg, hsplit, flatMap_split, hAB]
  simp [List.append_assoc]

theorem indexOf_window {L P A B : List NodeId} (hL : L = A ++ (P ++ B)) (hnd : L.Nodup)
    (u : NodeId) (hu : u ∈ L) :
    u ∈ P ↔ A.length ≤ L.indexOf u ∧ L.indexOf u < A.length + P.length := by
  subst hL
  rw [List.nodup_append] at hnd
  obtain ⟨hA, hPB, hdisj1⟩ := hnd
  rw [List.nodup_append] at hPB
  obtain ⟨hP, hB, hdisj2⟩ := hPB
  constructor
  · intro hup
    have huA : u ∉ A := fun huA => hdisj1 huA (by simp [hup])
    rw [List.indexOf_append_of_not_mem huA, List.indexOf_append_of_mem hup]
    have := List.indexOf_lt_length.mpr hup
    omega
  · intro hidx
    by_contra hup
    rcases List.mem_append.mp hu with huA | huPB
    · rw [List.indexOf_append_of_mem huA] at hidx
      have := List.indexOf_lt_length.mpr huA
      omega
    · rcases List.mem_append.mp huPB with huP | huB
      · exact hup huP
      · have huA : u ∉ A := fun huA => hdisj1 huA (by simp [huB])
        rw [List.indexOf_append_of_not_mem huA, List.indexOf_append_of_not_mem hup] at hidx
        omega

theorem layout_window {g : HGraph} (hg : ValidGraph g) {v : NodeId} (hv : v ∈ g.nodes) :
    ∃ a len, (build_initial_layout g).indexOf v = a ∧
      ∀ u ∈ g.nodes, (Desc g v u ↔
        a ≤ (build_initial_layout g).indexOf u ∧ (build_initial_layout g).indexOf u < a + len) := by
  obtain ⟨A, B, hAB⟩ := layout_split hg hv
  have hnd := initial_layout_nodup hg
  refine ⟨A.length, (preList g v).length, ?_, ?_⟩
  · have hvP : v ∈ preList g v := by
      rw [preList_unfold hg hv]
      simp
    have hvL : v ∈ build_initial_layout g := (initial_layout_mem hg v).mpr hv
    have := (indexOf_window hAB hnd v hvL).mp hvP
    have h2 : v ∈ A → False := by
      intro hvA
      rw [hAB] at hnd
      rw [List.nodup_append] at hnd
      exact hnd.2.2 hvA (by simp [hvP])
    rw [hAB, List.indexOf_append_of_not_mem h2, List.indexOf_append_of_mem hvP]
    rw [preList_unfold hg hv]
    simp [List.indexOf_cons_self]
  · intro u hu
    have huL : u ∈ build_initial_layout g := (initial_layout_mem hg u).mpr hu
    rw [← indexOf_window hAB hnd u huL, preList_mem hg hv u]
    tauto

theorem initial_layout_parent_lt {g : HGraph} (hg : ValidGraph g) {p c : NodeId}
    (hpc : (p, c) ∈ topEdges g) :
    (build_initial_layout g).indexOf p < (build_initial_layout g).indexOf c := by
  obtain ⟨d, hd, hb⟩ := hg.depthEx
  rw [topEdges_mem] at hpc
  obtain ⟨hcmem, hparent⟩ := hpc
  have hpmem : p ∈ g.nodes := hg.parentMem c hcmem p hparent
  obtain ⟨a, len, hpa, hwin⟩ := layout_window hg hpmem
  have hdc : Desc g p c := desc_child hparent
  have h1 := (hwin c hcmem).mp hdc
  have hne : (build_initial_layout g).indexOf p ≠ (build_initial_layout g).indexOf c := by
    intro heq
    have := List.indexOf_inj ((initial_layout_mem hg p).mpr hpmem)
      ((initial_layout_mem hg c).mpr hcmem) |>.mp heq
    subst this
    have := hd p hcmem p hparent
    omega
  omega

theorem top_edges_no_interleave {g : HGraph} (hg : ValidGraph g) {p c p' c' : NodeId}
    (h1 : (p, c) ∈ topEdges g) (h2 : (p', c') ∈ topEdges g)
    (hab : (build_initial_layout g).indexOf p < (build_initial_layout g).indexOf p')
    (hbc : (build_initial_layout g).indexOf p' < (build_initial_layout g).indexOf c)
    (hcd : (build_initial_layout g).indexOf c < (build_initial_layout g).indexOf c') :
    False := by
  obtain ⟨d, hd, hb⟩ := hg.depthEx
  rw [topEdges_mem] at h1 h2
  obtain ⟨hcmem, hcp⟩ := h1
  obtain ⟨hcmem', hcp'⟩ := h2
  have hpmem : p ∈ g.nodes := hg.parentMem c hcmem p hcp
  have hpmem' : p' ∈ g.nodes := hg.parentMem c' hcmem' p' hcp'
  obtain ⟨a, len, ha, hwin⟩ := layout_window hg hpmem
  have hwc := (hwin c hcmem).mp (desc_child hcp)
  have hdp' : Desc g p p' := by
    refine (hwin p' hpmem').mpr ?_
    omega
  have hppne : p ≠ p' := by
    rintro rfl
    omega
  obtain ⟨q, hqp, hqp'⟩ := desc_decompose_top hdp' hppne
  have hqmem : q ∈ g.nodes := desc_mem_up hg hqp' hpmem'
  by_cases hqc : q = c
  · subst hqc
    obtain ⟨ac, lenc, hac, hwinc⟩ := layout_window hg hqmem
    have := (hwinc p' hpmem').mp hqp'
    omega
  · have hqc' : Desc g q c' := hqp'.trans (desc_child hcp')
    obtain ⟨aq, lq, haq, hwinq⟩ := layout_window hg hqmem
    have hin1 := (hwinq p' hpmem').mp hqp'
    have hin2 := (hwinq c' hcmem').mp hqc'
    have hnotc : ¬ Desc g q c := by
      intro hqdc
      exact desc_siblings_disjoint hg hd hqp hcp hqc hcmem ⟨hqdc, .refl c⟩
    have := (hwinq c hcmem).not.mp hnotc
    omega

theorem initial_layout_top_planar {g : HGraph} (hg : ValidGraph g) :
    count_crossings_fast (build_initial_layout g) (topEdges g) = some 0 := by
  have hnodup := initial_layout_nodup hg
  have hmem : ∀ e ∈ topEdges g, e.1 ∈ build_initial_layout g ∧ e.2 ∈ build_initial_layout g := by
    intro e he
    obtain ⟨p, c⟩ := e
    rw [topEdges_mem] at he
    exact ⟨(initial_layout_mem hg p).mpr (hg.parentMem c he.1 p he.2),
      (initial_layout_mem hg c).mpr he.1⟩
  unfold count_crossings_fast
  rw [if_pos]
  · rw [Option.some_inj, List.countP_eq_zero]
    intro pr hpr
    obtain ⟨hpr1, hpr2⟩ := offDiagPairs_mem_sub hpr
    obtain ⟨⟨p, c⟩, ⟨p', c'⟩⟩ := pr
    have h1 := hpr1
    have h2 := hpr2
    simp only at h1 h2
    have hm1 := hmem _ h1
    have hm2 := hmem _ h2
    simp only at hm1 hm2
    simp only [crossPairF,
      dictPos_eq_indexOf hnodup hm1.1, dictPos_eq_indexOf hnodup hm1.2,
      dictPos_eq_indexOf hnodup hm2.1, dictPos_eq_indexOf hnodup hm2.2]
    rw [crossPattern_iff_interleave]
    have ho1 := initial_layout_parent_lt hg h1
    have ho2 := initial_layout_parent_lt hg h2
    rw [Nat.min_eq_left ho1.le, Nat.max_eq_right ho1.le,
      Nat.min_eq_left ho2.le, Nat.max_eq_right ho2.le]
    rintro (⟨hx, hy, hz⟩ | ⟨hx, hy, hz⟩)
    · exact top_edges_no_interleave hg h1 h2 hx hy hz
    · exact top_edges_no_interleave hg h2 h1 hx hy hz
  · rw [List.all_eq_true]
    intro e he
    have := hmem e he
    simp only [← dictPos_isSome_iff] at this
    simp [this.1, this.2]

theorem threadOrder_length {s : List NodeId} :
    ∀ {w ord nb : List NodeId}, threadOrder s w ord = some nb → nb.length = w.length := by
  intro w
  induction w with
  | nil =>
      intro ord nb h
      simp only [threadOrder, Option.some_inj] at h
      simp [← h]
  | cons n rest ih =>
      intro ord nb h
      by_cases hns : n ∈ s
      · rcases ord with _ | ⟨o, os⟩
        · simp [threadOrder, hns] at h
        · simp only [threadOrder, if_pos hns] at h
          rcases hmap : threadOrder s rest os with _ | nb'
          · rw [hmap] at h
            cases h
          · rw [hmap] at h
            simp only [Option.map_some', Option.some_inj] at h
            simp [← h, ih hmap]
      · simp only [threadOrder, if_neg hns] at h
        rcases hmap : threadOrder s rest ord with _ | nb'
        · rw [hmap] at h
          cases h
        · rw [hmap] at h
          simp only [Option.map_some', Option.some_inj] at h
          simp [← h, ih hmap]

theorem threadOrder_mem_preserve {s : List NodeId} :
    ∀ {w ord nb : List NodeId} {x : NodeId}, threadOrder s w ord = some nb →
      x ∈ w → x ∉ s → x ∈ nb := by
  intro w
  induction w with
  | nil =>
      intro ord nb x h hx
      cases hx
  | cons n rest ih =>
      intro ord nb x h hx hxs
      by_cases hns : n ∈ s
      · have hx' : x ∈ rest := by
          rcases List.mem_cons.mp hx with rfl | hx'
          · exact absurd hns hxs
          · exact hx'
        rcases ord with _ | ⟨o, os⟩
        · simp [threadOrder, hns] at h
        · simp only [threadOrder, if_pos hns] at h
          rcases hmap : threadOrder s rest os with _ | nb'
          · rw [hmap] at h
            cases h
          · rw [hmap] at h
            simp only [Option.map_some', Option.some_inj] at h
            rw [← h]
            exact List.mem_cons_of_mem o (ih hmap hx' hxs)
      · simp only [threadOrder, if_neg hns] at h
        rcases hmap : threadOrder s rest ord with _ | nb'
        · rw [hmap] at h
          cases h
        · rw [hmap] at h
          simp only [Option.map_some', Option.some_inj] at h
          rw [← h]
          rcases List.mem_cons.mp hx with rfl | hx'
          · simp
          · exact List.mem_cons_of_mem n (ih hmap hx' hxs)

theorem threadOrder_perm_decomp {s : List NodeId} :
    ∀ {w ord nb : List NodeId}, threadOrder s w ord = some nb →
      nb.Perm (ord.take (w.filter (fun x => decide (x ∈ s))).length ++
        w.filter (fun x => !(decide (x ∈ s)))) := by
  intro w
  induction w with
  | nil =>
      intro ord nb h
      simp only [threadOrder, Option.some_inj] at h
      simp [← h]
  | cons n rest ih =>
      intro ord nb h
      by_cases hns : n ∈ s
      · rcases ord with _ | ⟨o, os⟩
        · simp [threadOrder, hns] at h
        · simp only [threadOrder, if_pos hns] at h
          rcases hmap : threadOrder s rest os with _ | nb'
          · rw [hmap] at h
            cases h
          · rw [hmap] at h
            simp only [Option.map_some', Option.some_inj] at h
            rw [← h]
            simp only [List.filter_cons]
            rw [if_pos (by simpa using hns)]
            simp only [List.length_cons, List.take_succ_cons]
            have hnot : (!decide (n ∈ s)) = false := by simpa using hns
            simp only [hnot, Bool.false_eq_true, if_false]
            simpa using (ih hmap).cons o
      · simp only [threadOrder, if_neg hns] at h
        rcases hmap : threadOrder s rest ord with _ | nb'
        · rw [hmap] at h
          cases h
        · rw [hmap] at h
          simp only [Option.map_some', Option.some_inj] at h
          rw [← h]
          simp only [List.filter_cons]
          rw [if_neg (by simpa using hns)]
          have hnot : (!decide (n ∈ s)) = true := by simpa using hns
          simp only [hnot, if_pos]
          refine ((ih hmap).cons n).trans ?_
          simpa using List.perm_middle.symm

theorem threadOrder_all_members {s : List NodeId} :
    ∀ {w ord : List NodeId}, (∀ y ∈ w, y ∈ s) → w.length ≤ ord.length →
      threadOrder s w ord = some (ord.take w.length) := by
  intro w
  induction w with
  | nil => intro ord _ _; simp [threadOrder]
  | cons n rest ih =>
      intro ord hall hlen
      rcases ord with _ | ⟨o, os⟩
      · simp at hlen
      · simp only [threadOrder, if_pos (hall n (by simp))]
        have hlen2 : rest.length ≤ os.length := by
          simpa using hlen
        rw [ih (fun y hy => hall y (by simp [hy])) hlen2]
        simp [List.take_succ_cons]

theorem pyIndex_lt_length {l : List NodeId} {x : NodeId} {i : Nat}
    (h : pyIndex l x = some i) : i < l.length := by
  induction l generalizing i with
  | nil => simp [pyIndex] at h
  | cons a t ih =>
      simp only [pyIndex] at h
      split at h
      · cases h
        simp
      · rcases hfi : pyIndex t x with _ | j
        · rw [hfi] at h
          cases h
        · rw [hfi] at h
          simp only [Option.map_some', Option.some_inj] at h
          have := ih hfi
          simp only [List.length_cons]
          omega

theorem pyIndex_getElem {l : List NodeId} {x : NodeId} {i : Nat}
    (h : pyIndex l x = some i) : l[i]? = some x := by
  induction l generalizing i with
  | nil => simp [pyIndex] at h
  | cons a t ih =>
      simp only [pyIndex] at h
      split at h
      · cases h
        next heq => simp [heq]
      · rcases hfi : pyIndex t x with _ | j
        · rw [hfi] at h
          cases h
        · rw [hfi] at h
          simp only [Option.map_some', Option.some_inj] at h
          rw [← h]
          simpa using ih hfi

theorem pyIndex_of_getElem {l : List NodeId} (hnd : l.Nodup) {x : NodeId} {i : Nat}
    (h : l[i]? = some x) : pyIndex l x = some i := by
  induction l generalizing i with
  | nil => simp at h
  | cons a t ih =>
      cases i with
      | zero =>
          simp only [List.getElem?_cons_zero, Option.some_inj] at h
          subst h
          simp [pyIndex]
      | succ j =>
          simp only [List.getElem?_cons_succ] at h
          have hx : x ∈ t := by
            obtain ⟨hj, hget⟩ := List.getElem?_eq_some_iff.mp h
            exact hget ▸ List.getElem_mem hj
          have hax : ¬(a = x) := by
            rintro rfl
            exact (List.nodup_cons.mp hnd).1 hx
          simp only [pyIndex, if_neg hax]
          rw [ih (List.nodup_cons.mp hnd).2 h]
          rfl

theorem foldl_min_le_init (i : Nat) (l : List Nat) : l.foldl Nat.min i ≤ i := by
  induction l generalizing i with
  | nil => simp
  | cons a t ih => exact le_trans (ih (min i a)) (by omega)

theorem init_le_foldl_max (i : Nat) (l : List Nat) : i ≤ l.foldl Nat.max i := by
  induction l generalizing i with
  | nil => simp
  | cons a t ih => exact le_trans (by omega) (ih (max i a))

theorem foldl_max_lt {n : Nat} {i : Nat} {l : List Nat} (hi : i < n)
    (hl : ∀ x ∈ l, x < n) : l.foldl Nat.max i < n := by
  induction l generalizing i with
  | nil => simpa
  | cons a t ih =>
      have ha := hl a (by simp)
      exact ih (Nat.max_lt.mpr ⟨hi, ha⟩) (fun x hx => hl x (by simp [hx]))

theorem mapM_option_forall2 {f : α → Option β} :
    ∀ {l : List α} {l' : List β}, l.mapM f = some l' →
      List.Forall₂ (fun a b => f a = some b) l l' := by
  intro l
  induction l with
  | nil =>
      intro l' h
      simp only [List.mapM_nil, pure, Option.some_inj] at h
      rw [← h]
      exact .nil
  | cons a t ih =>
      intro l' h
      rw [List.mapM_cons] at h
      rcases hfa : f a with _ | b
      · rw [hfa] at h
        cases h
      · rw [hfa] at h
        rcases hmt : t.mapM f with _ | tb
        · rw [hmt] at h
          cases h
        · rw [hmt] at h
          simp only [Option.bind_eq_bind, Option.some_bind, Option.pure_def,
            Option.some_inj] at h
          rw [← h]
          exact .cons hfa (ih hmt)

theorem splice_decomp (cur : List NodeId) (mn mx : Nat) (h : mn ≤ mx + 1) :
    cur.take mn ++ ((cur.take (mx + 1)).drop mn ++ cur.drop (mx + 1)) = cur := by
  have h1 : cur.take mn = (cur.take (mx + 1)).take mn := by
    rw [List.take_take, Nat.min_eq_left h]
  rw [h1, ← List.append_assoc, List.take_append_drop, List.take_append_drop]

theorem forall2_mem_right {α β : Type} {R : α → β → Prop} :
    ∀ {l1 : List α} {l2 : List β}, List.Forall₂ R l1 l2 → ∀ b ∈ l2, ∃ a ∈ l1, R a b := by
  intro l1 l2 h
  induction h with
  | nil => intro b hb; cases hb
  | cons hxy htail ih =>
      intro b hb
      rcases List.mem_cons.mp hb with rfl | hb'
      · exact ⟨_, by simp, hxy⟩
      · obtain ⟨a, ha1, ha2⟩ := ih b hb'
        exact ⟨a, by simp [ha1], ha2⟩

theorem count_crossings_fast_some_mem {L : List NodeId} {E : List (NodeId × NodeId)}
    {k : Nat} (h : count_crossings_fast L E = some k) :
    ∀ e ∈ E, e.1 ∈ L ∧ e.2 ∈ L := by
  unfold count_crossings_fast at h
  split at h
  · next hall =>
      rw [List.all_eq_true] at hall
      intro e he
      have := hall e he
      rw [Bool.and_eq_true] at this
      exact ⟨(dictPos_isSome_iff L e.1).mp this.1, (dictPos_isSome_iff L e.2).mp this.2⟩
  · cases h

theorem apply_sibling_order_some {cur s : List NodeId} {mn mx : Nat} {ord nl : List NodeId}
    (h : apply_sibling_order_fast cur s mn mx ord = some nl) :
    ∃ nb, threadOrder s ((cur.take (mx + 1)).drop mn) ord = some nb ∧
      nl = cur.take mn ++ (nb ++ cur.drop (mx + 1)) := by
  unfold apply_sibling_order_fast at h
  rcases hmap : threadOrder s ((cur.take (mx + 1)).drop mn) ord with _ | nb
  · rw [hmap] at h
    cases h
  · rw [hmap] at h
    simp only [Option.map_some', Option.some_inj] at h
    exact ⟨nb, rfl, by rw [← h]; simp [List.append_assoc]⟩

theorem apply_sibling_order_length {cur s : List NodeId} {mn mx : Nat} {ord nl : List NodeId}
    (hmn : mn ≤ mx) (hmx : mx < cur.length)
    (h : apply_sibling_order_fast cur s mn mx ord = some nl) :
    nl.length = cur.length := by
  obtain ⟨nb, hmap, rfl⟩ := apply_sibling_order_some h
  have hlen := threadOrder_length hmap
  simp only [List.length_append, List.length_take, List.length_drop] at hlen ⊢
  omega

theorem apply_sibling_order_mem {cur s : List NodeId} {mn mx : Nat} {ord nl : List NodeId}
    (hmn : mn ≤ mx) (h : apply_sibling_order_fast cur s mn mx ord = some nl)
    {x : NodeId} (hx : x ∈ cur) (hxs : x ∉ s) : x ∈ nl := by
  obtain ⟨nb, hmap, rfl⟩ := apply_sibling_order_some h
  have hsp := splice_decomp cur mn mx (by omega)
  rw [← hsp] at hx
  simp only [List.mem_append] at hx ⊢
  rcases hx with hx | hx | hx
  · exact Or.inl hx
  · exact Or.inr (Or.inl (threadOrder_mem_preserve hmap hx hxs))
  · exact Or.inr (Or.inr hx)

theorem apply_candidate_perm {g : HGraph} (hg : ValidGraph g) {cur s : List NodeId}
    {mn mx : Nat} {ord nl : List NodeId} {k : Nat}
    (hperm : cur.Perm g.nodes)
    (hS : ∀ y ∈ s, y ∈ g.nodes ∧ ∃ q, g.parentOf y = some q)
    (hmn : mn ≤ mx) (hmx : mx < cur.length)
    (happ : apply_sibling_order_fast cur s mn mx ord = some nl)
    (hcnt : count_crossings_fast nl (topEdges g) = some k) :
    nl.Perm g.nodes := by
  have hsub : ∀ y ∈ g.nodes, y ∈ nl := by
    intro y hy
    by_cases hys : y ∈ s
    · obtain ⟨hmem, q, hq⟩ := hS y hys
      have htop : (q, y) ∈ topEdges g := (topEdges_mem g q y).mpr ⟨hmem, hq⟩
      exact (count_crossings_fast_some_mem hcnt _ htop).2
    · exact apply_sibling_order_mem hmn happ (hperm.mem_iff.mpr hy) hys
  have hlen : nl.length = g.nodes.length := by
    rw [apply_sibling_order_length hmn hmx happ, hperm.length_eq]
  exact ((hg.nodesNodup.subperm hsub).perm_of_length_le (le_of_eq hlen)).symm

theorem find_cluster_block_spec {cur s block : List NodeId} (hnd : cur.Nodup)
    (h : find_cluster_block cur s = some block) :
    ∃ mi ma, mi ≤ ma ∧ ma < cur.length ∧
      block = (cur.take (ma + 1)).drop mi ∧
      pyIndex cur (cur.getD mi "") = some mi ∧
      evalStrat cur s 0 0 (.scluster block block.reverse) =
        some (cur.take mi ++ (block.reverse ++ cur.drop (ma + 1))) := by
  unfold find_cluster_block at h
  rcases hmapM : s.mapM (pyIndex cur) with _ | idxs
  · rw [hmapM] at h
    cases h
  · rw [hmapM] at h
    simp only [Option.bind_eq_bind, Option.some_bind] at h
    rcases idxs with _ | ⟨i, is2⟩
    · cases h
    · simp only [Option.some_inj] at h
      have hall := mapM_option_forall2 hmapM
      have hbound : ∀ j ∈ i :: is2, j < cur.length := by
        intro j hj
        obtain ⟨y, _, hy⟩ := forall2_mem_right hall j hj
        exact pyIndex_lt_length hy
      set mi := is2.foldl Nat.min i with hmi
      set ma := is2.foldl Nat.max i with hma
      have h1 : mi ≤ i := foldl_min_le_init i is2
      have h2 : i ≤ ma := init_le_foldl_max i is2
      have h3 : ma < cur.length :=
        foldl_max_lt (hbound i (by simp)) (fun x hx => hbound x (by simp [hx]))
      refine ⟨mi, ma, by omega, h3, h.symm, ?_, ?_⟩
      · have hget : cur[mi]? = some (cur.getD mi "") := by
          rw [List.getD_eq_getElem?_getD]
          rcases hg : cur[mi]? with _ | y
          · rw [List.getElem?_eq_none_iff] at hg
            omega
          · simp
        exact pyIndex_of_getElem hnd hget
      · have hbne : mi < ma + 1 := by omega
        have hblock_len : block.length = ma + 1 - mi := by
          rw [← h]
          simp only [List.length_drop, List.length_take]
          omega
        have hb0 : block[0]? = cur[mi]? := by
          rw [← h, List.getElem?_drop]
          rw [List.getElem?_take_of_lt (by omega)]
          simp
        have hblast : block[block.length - 1]? = cur[ma]? := by
          rw [← h]
          rw [List.getElem?_drop]
          rw [List.getElem?_take_of_lt]
          · congr 1
            rw [h, hblock_len]
            omega
          · rw [h, hblock_len]
            omega
        rcases hblk : block with _ | ⟨b0, bs⟩
        · rw [hblk] at hblock_len
          simp at hblock_len
          omega
        · rw [← hblk]
          have hcurmi : cur[mi]? = some b0 := by
            rw [← hb0, hblk]
            simp
          have hcurma : cur[ma]? = some (block.getLast (by simp [hblk])) := by
            rw [← hblast, ← List.getLast?_eq_getElem?]
            exact List.getLast?_eq_getLast block (by simp [hblk])
          have hpy0 : pyIndex cur b0 = some mi := pyIndex_of_getElem hnd hcurmi
          obtain ⟨lb, hlb⟩ : ∃ lb, block.getLast? = some lb := by
            rw [hblk]
            exact ⟨_, List.getLast?_eq_getLast _ (by simp)⟩
          have hcurma2 : cur[ma]? = some lb := by
            rw [← hblast, ← List.getLast?_eq_getElem?, hlb]
          have hpyl : pyIndex cur lb = some ma := pyIndex_of_getElem hnd hcurma2
          simp only [evalStrat, hblk]
          rw [← hblk]
          simp only [Option.bind_eq_bind, hpy0, Option.some_bind, hlb, hpyl]
          have hwindow : (cur.take (ma + 1)).drop mi = block := h.symm ▸ rfl
          have hthread : threadOrder block ((cur.take (ma + 1)).drop mi) block.reverse =
              some block.reverse := by
            rw [hwindow]
            have := @threadOrder_all_members block block block.reverse
              (fun y hy => hy) (by simp)
            rw [this]
            congr 1
            exact List.take_of_length_le (by simp)
          unfold apply_sibling_order_fast
          rw [hthread]
          simp [List.append_assoc]

theorem scluster_perm {cur s block nl : List NodeId} {mn mx : Nat} (hnd : cur.Nodup)
    (hfind : find_cluster_block cur s = some block)
    (heval : evalStrat cur s mn mx (.scluster block block.reverse) = some nl) :
    nl.Perm cur := by
  obtain ⟨mi, ma, hmima, hma, hblock, hpymi, heval0⟩ := find_cluster_block_spec hnd hfind
  have : evalStrat cur s mn mx (.scluster block block.reverse) =
      evalStrat cur s 0 0 (.scluster block block.reverse) := by
    rcases block with _ | ⟨b0, bs⟩ <;> simp [evalStrat]
  rw [this, heval0] at heval
  rcases heval
  have hp1 : (cur.take mi ++ (block.reverse ++ cur.drop (ma + 1))).Perm
      (cur.take mi ++ (block ++ cur.drop (ma + 1))) :=
    List.Perm.append_left _ (List.Perm.append_right _ (List.reverse_perm block))
  have hp2 : cur.take mi ++ (block ++ cur.drop (ma + 1)) = cur := by
    rw [hblock]
    exact splice_decomp cur mi ma (by omega)
  have hp3 : (cur.take mi ++ (block ++ cur.drop (ma + 1))).Perm cur := by
    rw [hp2]
  exact hp1.trans hp3

theorem get_leaf_descendants_succ (g : HGraph) (fuel : Nat) (node : NodeId) :
    get_leaf_descendants g (fuel + 1) node =
      (childrenOf g node).foldl (gldStep g fuel) (some []) := rfl

theorem evalStrategies_eq_foldl (top bottom : List (NodeId × NodeId))
    (cur siblings : List NodeId) (mn mx : Nat) (strats : List Strat) (baseCross : Nat) :
    evalStrategies top bottom cur siblings mn mx strats baseCross =
      strats.foldl (esStep top bottom cur siblings mn mx baseCross) (some none) := rfl

theorem foldl_gldStep_none (g : HGraph) (fuel : Nat) :
    ∀ cs : List NodeId, cs.foldl (gldStep g fuel) none = none := by
  intro cs
  induction cs with
  | nil => rfl
  | cons c rest ih => simpa [List.foldl_cons, gldStep] using ih

theorem foldl_esStep_none (top bottom : List (NodeId × NodeId)) (cur siblings : List NodeId)
    (mn mx baseCross : Nat) :
    ∀ strats : List Strat,
      strats.foldl (esStep top bottom cur siblings mn mx baseCross) none = none := by
  intro strats
  induction strats with
  | nil => rfl
  | cons st rest ih => simpa [List.foldl_cons, esStep] using ih

theorem gldStep_mem {g : HGraph} {fuel : Nat}
    (IH : ∀ node ld, get_leaf_descendants g fuel node = some ld →
      ∀ y ∈ ld, y ∈ g.nodes ∧ ∃ q, g.parentOf y = some q) :
    ∀ (cs : List NodeId), (∀ c ∈ cs, c ∈ g.nodes ∧ ∃ q, g.parentOf c = some q) →
      ∀ (acc : List NodeId), (∀ z ∈ acc, z ∈ g.nodes ∧ ∃ q, g.parentOf z = some q) →
      ∀ {ld : List NodeId}, cs.foldl (gldStep g fuel) (some acc) = some ld →
      ∀ y ∈ ld, y ∈ g.nodes ∧ ∃ q, g.parentOf y = some q := by
  intro cs
  induction cs with
  | nil =>
      intro _ acc hacc ld h
      rw [List.foldl_nil, Option.some_inj] at h
      exact h ▸ hacc
  | cons c rest ih =>
      intro hcs acc hacc ld h
      rw [List.foldl_cons] at h
      by_cases hleaf : childrenOf g c = []
      · rw [show gldStep g fuel (some acc) c = some (acc ++ [c]) by
          simp [gldStep, hleaf]] at h
        refine ih (fun x hx => hcs x (by simp [hx])) (acc ++ [c]) ?_ h
        intro z hz
        rcases List.mem_append.mp hz with hz | hz
        · exact hacc z hz
        · rw [List.mem_singleton] at hz
          exact hz ▸ hcs c (by simp)
      · rcases hrec : get_leaf_descendants g fuel c with _ | l
        · rw [show gldStep g fuel (some acc) c = none by simp [gldStep, hleaf, hrec]] at h
          rw [foldl_gldStep_none] at h
          cases h
        · rw [show gldStep g fuel (some acc) c = some (acc ++ l) by
            simp [gldStep, hleaf, hrec]] at h
          refine ih (fun x hx => hcs x (by simp [hx])) (acc ++ l) ?_ h
          intro z hz
          rcases List.mem_append.mp hz with hz | hz
          · exact hacc z hz
          · exact IH c l hrec z hz

theorem get_leaf_descendants_mem {g : HGraph} :
    ∀ (fuel : Nat) (node : NodeId) (ld : List NodeId),
      get_leaf_descendants g fuel node = some ld →
      ∀ y ∈ ld, y ∈ g.nodes ∧ ∃ q, g.parentOf y = some q := by
  intro fuel
  induction fuel with
  | zero => intro node ld h; cases h
  | succ fuel ih =>
      intro node ld h
      rw [get_leaf_descendants_succ] at h
      refine gldStep_mem ih (childrenOf g node) ?_ [] (by simp) h
      intro c hc
      have := (childrenOf_mem g node c).mp hc
      exact ⟨this.1, node, this.2⟩

theorem esFold_spec {top bottom : List (NodeId × NodeId)} {cur siblings : List NodeId}
    {mn mx baseCross : Nat} {bl : List NodeId} {nc : Nat} :
    ∀ {strats : List Strat} {acc : Option (List NodeId × Nat)},
      strats.foldl (esStep top bottom cur siblings mn mx baseCross) (some acc) =
        some (some (bl, nc)) →
      (∀ b : List NodeId × Nat, acc = some b → b.2 < baseCross) →
      acc = some (bl, nc) ∨
        ∃ strat ∈ strats,
          evalStrat cur siblings mn mx strat = some bl ∧
          verify_top_page_planarity_fast top bl = some true ∧
          count_crossings_fast bl bottom = some nc ∧ nc < baseCross := by
  intro strats
  induction strats with
  | nil =>
      intro acc h _
      rw [List.foldl_nil, Option.some_inj] at h
      exact Or.inl h
  | cons st rest ih =>
      intro acc h hP
      rw [List.foldl_cons] at h
      rcases hev : evalStrat cur siblings mn mx st with _ | newLayout
      · rw [show esStep top bottom cur siblings mn mx baseCross (some acc) st = none by
          simp [esStep, hev]] at h
        rw [foldl_esStep_none] at h
        cases h
      · rcases hver : verify_top_page_planarity_fast top newLayout with _ | b
        · rw [show esStep top bottom cur siblings mn mx baseCross (some acc) st = none by
            simp [esStep, hev, hver]] at h
          rw [foldl_esStep_none] at h
          cases h
        · rcases b with _ | _
          · rw [show esStep top bottom cur siblings mn mx baseCross (some acc) st =
                some acc by simp [esStep, hev, hver]] at h
            rcases ih h hP with h1 | ⟨strat, hmem, hrest⟩
            · exact Or.inl h1
            · exact Or.inr ⟨strat, by simp [hmem], hrest⟩
          · rcases hcnt : count_crossings_fast newLayout bottom with _ | k
            · rw [show esStep top bottom cur siblings mn mx baseCross (some acc) st =
                  none by simp [esStep, hev, hver, hcnt]] at h
              rw [foldl_esStep_none] at h
              cases h
            · rcases acc with _ | b0
              · by_cases hlt : k < baseCross
                · rw [show esStep top bottom cur siblings mn mx baseCross (some none) st =
                      some (some (newLayout, k)) by
                    simp only [esStep, hev, hver, hcnt]
                    rw [if_pos hlt]] at h
                  rcases ih h (fun b hb => by
                      rw [Option.some_inj] at hb
                      rw [← hb]
                      exact hlt) with h1 | ⟨strat, hmem, hrest⟩
                  · rw [Option.some_inj, Prod.mk.injEq] at h1
                    exact Or.inr ⟨st, by simp, h1.1 ▸ hev, h1.1 ▸ hver,
                      h1.1 ▸ h1.2 ▸ hcnt, h1.2 ▸ hlt⟩
                  · exact Or.inr ⟨strat, by simp [hmem], hrest⟩
                · rw [show esStep top bottom cur siblings mn mx baseCross (some none) st =
                      some none by
                    simp only [esStep, hev, hver, hcnt]
                    rw [if_neg hlt]] at h
                  rcases ih h (fun b hb => by cases hb) with h1 | ⟨strat, hmem, hrest⟩
                  · cases h1
                  · exact Or.inr ⟨strat, by simp [hmem], hrest⟩
              · by_cases hlt : k < b0.2
                · rw [show esStep top bottom cur siblings mn mx baseCross
                      (some (some b0)) st = some (some (newLayout, k)) by
                    simp only [esStep, hev, hver, hcnt]
                    rw [if_pos hlt]] at h
                  have hkb : k < baseCross := lt_trans hlt (hP b0 rfl)
                  rcases ih h (fun b hb => by
                      rw [Option.some_inj] at hb
                      rw [← hb]
                      exact hkb) with h1 | ⟨strat, hmem, hrest⟩
                  · rw [Option.some_inj, Prod.mk.injEq] at h1
                    exact Or.inr ⟨st, by simp, h1.1 ▸ hev, h1.1 ▸ hver,
                      h1.1 ▸ h1.2 ▸ hcnt, h1.2 ▸ hkb⟩
                  · exact Or.inr ⟨strat, by simp [hmem], hrest⟩
                · rw [show esStep top bottom cur siblings mn mx baseCross
                      (some (some b0)) st = some (some b0) by
                    simp only [esStep, hev, hver, hcnt]
                    rw [if_neg hlt]] at h
                  rcases ih h hP with h1 | ⟨strat, hmem, hrest⟩
                  · exact Or.inl h1
                  · exact Or.inr ⟨strat, by simp [hmem], hrest⟩

theorem evalStrategies_spec {top bottom : List (NodeId × NodeId)} {cur siblings : List NodeId}
    {mn mx baseCross : Nat} {strats : List Strat} {bl : List NodeId} {nc : Nat}
    (h : evalStrategies top bottom cur siblings mn mx strats baseCross =
      some (some (bl, nc))) :
    ∃ strat ∈ strats,
      evalStrat cur siblings mn mx strat = some bl ∧
      verify_top_page_planarity_fast top bl = some true ∧
      count_crossings_fast bl bottom = some nc ∧ nc < baseCross := by
  rw [evalStrategies_eq_foldl] at h
  rcases esFold_spec h (fun b hb => by cases hb) with h1 | h2
  · cases h1
  · exact h2

theorem verify_true_iff {top : List (NodeId × NodeId)} {L : List NodeId} :
    verify_top_page_planarity_fast top L = some true ↔
      count_crossings_fast L top = some 0 := by
  unfold verify_top_page_planarity_fast
  rcases h : count_crossings_fast L top with _ | c
  · simp
  · simp

theorem sleafdesc_perm {g : HGraph} (hg : ValidGraph g)
    {cur siblings ld ord nl : List NodeId} {mn mx k : Nat}
    (hperm : cur.Perm g.nodes)
    (hld : ∀ y ∈ ld, y ∈ g.nodes ∧ ∃ q, g.parentOf y = some q)
    (heval : evalStrat cur siblings mn mx (.sleafdesc ld ord) = some nl)
    (hcnt : count_crossings_fast nl (topEdges g) = some k) :
    nl.Perm g.nodes := by
  simp only [evalStrat, Option.bind_eq_bind] at heval
  rcases hmapM : ld.mapM (pyIndex cur) with _ | idxs
  · rw [hmapM] at heval
    cases heval
  · rw [hmapM, Option.some_bind] at heval
    rcases idxs with _ | ⟨i, is2⟩
    · cases heval
    · have hall := mapM_option_forall2 hmapM
      have hbound : ∀ j ∈ i :: is2, j < cur.length := by
        intro j hj
        obtain ⟨y, _, hy⟩ := forall2_mem_right hall j hj
        exact pyIndex_lt_length hy
      have h1 : is2.foldl Nat.min i ≤ i := foldl_min_le_init i is2
      have h2 : i ≤ is2.foldl Nat.max i := init_le_foldl_max i is2
      have h3 : is2.foldl Nat.max i < cur.length :=
        foldl_max_lt (hbound i (by simp)) (fun x hx => hbound x (by simp [hx]))
      exact apply_candidate_perm hg hperm hld (by omega) h3 heval hcnt

theorem groupIteration_accept_perm {g : HGraph} (hg : ValidGraph g)
    {bottom : List (NodeId × NodeId)} {rng : Nat → List NodeId → List NodeId}
    {parent : NodeId} {siblings : List NodeId} {mn mx : Nat} {cur : List NodeId}
    {ctr : Nat} {bl : List NodeId} {nc ctr2 : Nat}
    (hperm : cur.Perm g.nodes)
    (hsib : ∀ y ∈ siblings, y ∈ g.nodes ∧ ∃ q, g.parentOf y = some q)
    (hmn : mn ≤ mx) (hmx : mx < cur.length)
    (h : groupIteration g (topEdges g) bottom rng parent siblings mn mx cur ctr =
      some (some (bl, nc), ctr2)) :
    bl.Perm g.nodes ∧ count_crossings_fast bl (topEdges g) = some 0 ∧
      count_crossings_fast bl bottom = some nc ∧
      ∀ bc, count_crossings_fast cur bottom = some bc → nc < bc := by
  have hnd : cur.Nodup := hperm.nodup_iff.mpr hg.nodesNodup
  simp only [groupIteration, Option.bind_eq_bind] at h
  rcases hbc : count_crossings_fast cur bottom with _ | bc
  · rw [hbc] at h
    cases h
  · rw [hbc, Option.some_bind] at h
    rcases hfind : find_cluster_block cur siblings with _ | cblock
    · rw [hfind] at h
      cases h
    · rw [hfind, Option.some_bind] at h
      rcases hgld : get_leaf_descendants g (g.nodes.length + 1) parent with _ | ld
      · rw [hgld] at h
        cases h
      · rw [hgld, Option.some_bind] at h
        rcases hbary : barycenter_ordering siblings cur bottom with _ | bary
        · rw [hbary] at h
          cases h
        · rw [hbary, Option.some_bind] at h
          rcases hres : evalStrategies (topEdges g) bottom cur siblings mn mx
              ([Strat.sdefault (((cur.take (mx + 1)).drop mn).filter
                  (fun n => decide (n ∈ siblings))).reverse] ++
                (if siblings.length < cblock.length
                  then [Strat.scluster cblock cblock.reverse] else []) ++
                (if 1 < ld.length then [Strat.sleafdesc ld ld.reverse] else []) ++
                (localInversions siblings).map Strat.sdefault ++
                [Strat.sdefault bary] ++
                [Strat.sdefault (connectivity_ordering siblings bottom)] ++
                (if siblings.length ≤ 6 then
                  (List.range 5).map (fun k => Strat.sdefault
                    (rng (ctr + k) (((cur.take (mx + 1)).drop mn).filter
                      (fun n => decide (n ∈ siblings)))))
                  else [])) bc with _ | res
          · rw [hres] at h
            cases h
          · rw [hres, Option.some_bind, Option.some_inj, Prod.mk.injEq] at h
            rw [h.1] at hres
            obtain ⟨strat, hmem, heval, hver, hcntb, hlt⟩ := evalStrategies_spec hres
            have hcnt0 : count_crossings_fast bl (topEdges g) = some 0 :=
              verify_true_iff.mp hver
            refine ⟨?_, hcnt0, hcntb, fun bc2 hbc2 => by
              have h2 : bc = bc2 := Option.some_inj.mp hbc2
              exact h2 ▸ hlt⟩
            simp only [List.mem_append, List.mem_singleton, List.mem_map] at hmem
            rcases hmem with ((((((hmem | hmem) | hmem) | hmem) | hmem) | hmem) | hmem)
            · exact apply_candidate_perm hg hperm hsib hmn hmx (hmem ▸ heval) hcnt0
            · rcases Decidable.em (siblings.length < cblock.length) with hc | hc
              · rw [if_pos hc] at hmem
                rw [List.mem_singleton] at hmem
                exact (scluster_perm hnd hfind (hmem ▸ heval)).trans hperm
              · rw [if_neg hc] at hmem
                cases hmem
            · rcases Decidable.em (1 < ld.length) with hc | hc
              · rw [if_pos hc] at hmem
                rw [List.mem_singleton] at hmem
                exact sleafdesc_perm hg hperm
                  (get_leaf_descendants_mem _ _ _ hgld) (hmem ▸ heval) hcnt0
              · rw [if_neg hc] at hmem
                cases hmem
            · obtain ⟨ord, _, hstrat⟩ := hmem
              exact apply_candidate_perm hg hperm hsib hmn hmx (hstrat ▸ heval) hcnt0
            · exact apply_candidate_perm hg hperm hsib hmn hmx (hmem ▸ heval) hcnt0
            · exact apply_candidate_perm hg hperm hsib hmn hmx (hmem ▸ heval) hcnt0
            · rcases Decidable.em (siblings.length ≤ 6) with hc | hc
              · rw [if_pos hc] at hmem
                rw [List.mem_map] at hmem
                obtain ⟨j, _, hstrat⟩ := hmem
                exact apply_candidate_perm hg hperm hsib hmn hmx (hstrat ▸ heval) hcnt0
              · rw [if_neg hc] at hmem
                cases hmem

theorem groupIteration_accept_count {g : HGraph} {top bottom : List (NodeId × NodeId)}
    {rng : Nat → List NodeId → List NodeId} {parent : NodeId} {siblings : List NodeId}
    {mn mx : Nat} {cur : List NodeId} {ctr : Nat} {bl : List NodeId} {nc ctr2 : Nat}
    (h : groupIteration g top bottom rng parent siblings mn mx cur ctr =
      some (some (bl, nc), ctr2)) :
    count_crossings_fast bl bottom = some nc ∧
      ∀ bc, count_crossings_fast cur bottom = some bc → nc < bc := by
  simp only [groupIteration, Option.bind_eq_bind] at h
  rcases hbc : count_crossings_fast cur bottom with _ | bc
  · rw [hbc] at h
    cases h
  · rw [hbc, Option.some_bind] at h
    rcases hfind : find_cluster_block cur siblings with _ | cblock
    · rw [hfind] at h
      cases h
    · rw [hfind, Option.some_bind] at h
      rcases hgld : get_leaf_descendants g (g.nodes.length + 1) parent with _ | ld
      · rw [hgld] at h
        cases h
      · rw [hgld, Option.some_bind] at h
        rcases hbary : barycenter_ordering siblings cur bottom with _ | bary
        · rw [hbary] at h
          cases h
        · rw [hbary, Option.some_bind] at h
          rcases hres : evalStrategies top bottom cur siblings mn mx
              ([Strat.sdefault (((cur.take (mx + 1)).drop mn).filter
                  (fun n => decide (n ∈ siblings))).reverse] ++
                (if siblings.length < cblock.length
                  then [Strat.scluster cblock cblock.reverse] else []) ++
                (if 1 < ld.length then [Strat.sleafdesc ld ld.reverse] else []) ++
                (localInversions siblings).map Strat.sdefault ++
                [Strat.sdefault bary] ++
                [Strat.sdefault (connectivity_ordering siblings bottom)] ++
                (if siblings.length ≤ 6 then
                  (List.range 5).map (fun k => Strat.sdefault
                    (rng (ctr + k) (((cur.take (mx + 1)).drop mn).filter
                      (fun n => decide (n ∈ siblings)))))
                  else [])) bc with _ | res
          · rw [hres] at h
            cases h
          · rw [hres, Option.some_bind, Option.some_inj, Prod.mk.injEq] at h
            rw [h.1] at hres
            obtain ⟨strat, hmem, heval, hver, hcntb, hlt⟩ := evalStrategies_spec hres
            exact ⟨hcntb, fun bc2 hbc2 => (Option.some_inj.mp hbc2) ▸ hlt⟩

theorem groupLoop_perm {g : HGraph} (hg : ValidGraph g)
    {bottom : List (NodeId × NodeId)} {rng : Nat → List NodeId → List NodeId}
    {parent : NodeId} {siblings : List NodeId} {mn mx : Nat}
    (hsib : ∀ y ∈ siblings, y ∈ g.nodes ∧ ∃ q, g.parentOf y = some q)
    (hmn : mn ≤ mx) :
    ∀ (fuel : Nat) (cur : List NodeId) (ctr : Nat) (res : List NodeId × Nat),
      cur.Perm g.nodes → mx < cur.length →
      groupLoop g (topEdges g) bottom rng parent siblings mn mx fuel cur ctr = some res →
      res.1.Perm g.nodes ∧
        (count_crossings_fast cur (topEdges g) = some 0 →
          count_crossings_fast res.1 (topEdges g) = some 0) := by
  intro fuel
  induction fuel with
  | zero => intro cur ctr res _ _ h; cases h
  | succ fuel ih =>
      intro cur ctr res hperm hmx h
      rw [show groupLoop g (topEdges g) bottom rng parent siblings mn mx (fuel + 1) cur ctr =
          match groupIteration g (topEdges g) bottom rng parent siblings mn mx cur ctr with
          | none => none
          | some (none, ctr2) => some (cur, ctr2)
          | some (some (bl, _), ctr2) =>
            groupLoop g (topEdges g) bottom rng parent siblings mn mx fuel bl ctr2
        from rfl] at h
      rcases hit : groupIteration g (topEdges g) bottom rng parent siblings mn mx cur ctr
        with _ | ⟨_ | ⟨bl, nc⟩, ctr2⟩
      · rw [hit] at h
        cases h
      · rw [hit] at h
        rw [Option.some_inj] at h
        rw [← h]
        exact ⟨hperm, fun hpl => hpl⟩
      · rw [hit] at h
        obtain ⟨hblperm, hbl0, _, _⟩ := groupIteration_accept_perm hg hperm hsib hmn hmx hit
        have hmx2 : mx < bl.length := by
          rw [hblperm.length_eq, ← hperm.length_eq]
          exact hmx
        obtain ⟨hres, hpl⟩ := ih bl ctr2 res hblperm hmx2 h
        exact ⟨hres, fun _ => hpl hbl0⟩

theorem groupLoop_fuel_eq {g : HGraph} {top bottom : List (NodeId × NodeId)}
    {rng : Nat → List NodeId → List NodeId} {parent : NodeId} {siblings : List NodeId}
    {mn mx : Nat} :
    ∀ (bc : Nat) (cur : List NodeId) (ctr f1 f2 : Nat),
      count_crossings_fast cur bottom = some bc → bc < f1 → bc < f2 →
      groupLoop g top bottom rng parent siblings mn mx f1 cur ctr =
        groupLoop g top bottom rng parent siblings mn mx f2 cur ctr := by
  intro bc
  induction bc using Nat.strong_induction_on with
  | _ bc ih =>
      intro cur ctr f1 f2 hbc h1 h2
      rcases f1 with _ | f1
      · omega
      rcases f2 with _ | f2
      · omega
      rw [show groupLoop g top bottom rng parent siblings mn mx (f1 + 1) cur ctr =
          match groupIteration g top bottom rng parent siblings mn mx cur ctr with
          | none => none
          | some (none, ctr2) => some (cur, ctr2)
          | some (some (bl, _), ctr2) =>
            groupLoop g top bottom rng parent siblings mn mx f1 bl ctr2
        from rfl]
      rw [show groupLoop g top bottom rng parent siblings mn mx (f2 + 1) cur ctr =
          match groupIteration g top bottom rng parent siblings mn mx cur ctr with
          | none => none
          | some (none, ctr2) => some (cur, ctr2)
          | some (some (bl, _), ctr2) =>
            groupLoop g top bottom rng parent siblings mn mx f2 bl ctr2
        from rfl]
      rcases hit : groupIteration g top bottom rng parent siblings mn mx cur ctr
        with _ | ⟨_ | ⟨bl, nc⟩, ctr2⟩
      · rfl
      · rfl
      · obtain ⟨hcnt, hdec⟩ := groupIteration_accept_count hit
        have hnc : nc < bc := hdec bc hbc
        exact ih nc hnc bl ctr2 f1 f2 hcnt (by omega) (by omega)

theorem sibling_groups_mem {g : HGraph} {pr : NodeId × List NodeId}
    (h : pr ∈ sibling_groups g) :
    pr.1 ∈ g.nodes ∧ pr.2 = childrenOf g pr.1 ∧ 1 < pr.2.length := by
  unfold sibling_groups at h
  rw [List.mem_filterMap] at h
  obtain ⟨n, hn, hif⟩ := h
  by_cases hlen : 1 < (childrenOf g n).length
  · rw [if_pos hlen, Option.some_inj] at hif
    rw [← hif]
    exact ⟨hn, rfl, hlen⟩
  · rw [if_neg hlen] at hif
    cases hif

theorem find_problematic_sub {g : HGraph} {cur : List NodeId}
    {bottom : List (NodeId × NodeId)} {topN : Nat} {probl : List (NodeId × List NodeId)}
    (h : find_problematic_sibling_groups g cur bottom topN = some probl) :
    ∀ pr ∈ probl, pr ∈ sibling_groups g := by
  unfold find_problematic_sibling_groups at h
  rcases hmapM : (sibling_groups g).mapM
      (fun pr => (group_score (dictPos cur) bottom pr.2).map (fun s => (pr, s)))
    with _ | scored
  · rw [hmapM] at h
    cases h
  · rw [hmapM, Option.bind_eq_bind, Option.some_bind, Option.some_inj] at h
    intro pr hpr
    rw [← h, List.mem_filterMap] at hpr
    obtain ⟨q, hq, hif⟩ := hpr
    by_cases hpos : 0 < q.2
    · rw [if_pos hpos, Option.some_inj] at hif
      have hq2 : q ∈ scored :=
        (pySort_perm (fun a b => decide (b.2 < a.2)) scored).mem_iff.mp
          (List.mem_of_mem_take hq)
      have hall := mapM_option_forall2 hmapM
      obtain ⟨a, ha, hfa⟩ := forall2_mem_right hall q hq2
      rcases hsc : group_score (dictPos cur) bottom a.2 with _ | s
      · rw [hsc] at hfa
        cases hfa
      · rw [hsc, Option.map_some', Option.some_inj] at hfa
        have : q.1 = a := by rw [← hfa]
        rw [← hif, this]
        exact ha
    · rw [if_neg hpos] at hif
      cases hif

theorem processGroup_perm {g : HGraph} (hg : ValidGraph g)
    {bottom : List (NodeId × NodeId)} {rng : Nat → List NodeId → List NodeId}
    {st st' : List NodeId × Nat} {pr : NodeId × List NodeId}
    (hpr : pr ∈ sibling_groups g)
    (hperm : st.1.Perm g.nodes) (hpl : count_crossings_fast st.1 (topEdges g) = some 0)
    (h : processGroup g (topEdges g) bottom rng st pr = some st') :
    st'.1.Perm g.nodes ∧ count_crossings_fast st'.1 (topEdges g) = some 0 := by
  obtain ⟨hpr1, hpr2, hprlen⟩ := sibling_groups_mem hpr
  unfold processGroup at h
  split at h
  · rw [Option.some_inj] at h
    rw [← h]
    exact ⟨hperm, hpl⟩
  · split at h
    · rw [Option.some_inj] at h
      rw [← h]
      exact ⟨hperm, hpl⟩
    · simp only [Option.bind_eq_bind] at h
      rcases hmapM : pr.2.mapM (pyIndex st.1) with _ | idxs
      · rw [hmapM] at h
        cases h
      · rw [hmapM, Option.some_bind] at h
        rcases idxs with _ | ⟨i, is2⟩
        · cases h
        · dsimp only at h
          rcases hbc : count_crossings_fast st.1 bottom with _ | baseCross
          · rw [hbc] at h
            cases h
          · rw [hbc] at h
            simp only [Option.some_bind] at h
            have hall := mapM_option_forall2 hmapM
            have hbound : ∀ j ∈ i :: is2, j < st.1.length := by
              intro j hj
              obtain ⟨y, _, hy⟩ := forall2_mem_right hall j hj
              exact pyIndex_lt_length hy
            have h1 : is2.foldl Nat.min i ≤ i := foldl_min_le_init i is2
            have h2 : i ≤ is2.foldl Nat.max i := init_le_foldl_max i is2
            have h3 : is2.foldl Nat.max i < st.1.length :=
              foldl_max_lt (hbound i (by simp)) (fun x hx => hbound x (by simp [hx]))
            have hsib : ∀ y ∈ pr.2, y ∈ g.nodes ∧ ∃ q, g.parentOf y = some q := by
              intro y hy
              rw [hpr2] at hy
              have := (childrenOf_mem g pr.1 y).mp hy
              exact ⟨this.1, pr.1, this.2⟩
            obtain ⟨hres, hplres⟩ := groupLoop_perm hg hsib (by omega)
              (baseCross + 1) st.1 st.2 st' hperm h3 h
            exact ⟨hres, hplres hpl⟩

theorem foldlM_option_invariant {α β : Type} {f : β → α → Option β} {P : β → Prop} :
    ∀ {l : List α} {b b' : β},
      l.foldlM f b = some b' →
      (∀ x ∈ l, ∀ c c', P c → f c x = some c' → P c') →
      P b → P b' := by
  intro l
  induction l with
  | nil =>
      intro b b' h _ hb
      rw [List.foldlM_nil] at h
      rw [show (pure b : Option β) = some b from rfl, Option.some_inj] at h
      exact h ▸ hb
  | cons x rest ih =>
      intro b b' h hstep hb
      rw [List.foldlM_cons] at h
      rcases hfb : f b x with _ | b2
      · rw [hfb] at h
        cases h
      · rw [hfb] at h
        rw [show ((some b2 : Option β) >>= fun b2 => rest.foldlM f b2) =
            rest.foldlM f b2 from rfl] at h
        exact ih h (fun y hy => hstep y (by simp [hy])) (hstep x (by simp) b b2 hb hfb)

theorem optimize_multi_strategy_perm {g : HGraph} (hg : ValidGraph g)
    {rng : Nat → List NodeId → List NodeId} {bottom : List (NodeId × NodeId)}
    {layout L : List NodeId}
    (hperm : layout.Perm g.nodes)
    (hpl : count_crossings_fast layout (topEdges g) = some 0)
    (h : optimize_multi_strategy g rng (topEdges g) bottom layout = some L) :
    L.Perm g.nodes ∧ count_crossings_fast L (topEdges g) = some 0 := by
  unfold optimize_multi_strategy at h
  simp only [Option.bind_eq_bind] at h
  rcases hc0 : count_crossings_fast layout bottom with _ | c0
  · rw [hc0] at h
    cases h
  · rw [hc0, Option.some_bind] at h
    rcases hprobl : find_problematic_sibling_groups g layout bottom
        (min 10 (sibling_groups g).length) with _ | probl
    · rw [hprobl] at h
      cases h
    · rw [hprobl, Option.some_bind] at h
      rcases hfold : (probl ++ (sibling_groups g).filter
          (fun pr => !(probl.any (fun q => q.1 == pr.1)))).foldlM
          (processGroup g (topEdges g) bottom rng) (layout, 0) with _ | res
      · rw [hfold] at h
        cases h
      · rw [hfold, Option.some_bind, Option.some_inj] at h
        have hinv : res.1.Perm g.nodes ∧
            count_crossings_fast res.1 (topEdges g) = some 0 := by
          refine foldlM_option_invariant (P := fun st =>
            st.1.Perm g.nodes ∧ count_crossings_fast st.1 (topEdges g) = some 0)
            hfold ?_ ⟨hperm, hpl⟩
          intro pr hprmem c c' hc hstep
          have hprsib : pr ∈ sibling_groups g := by
            rcases List.mem_append.mp hprmem with hmem | hmem
            · exact find_problematic_sub hprobl pr hmem
            · exact List.mem_of_mem_filter hmem
          exact processGroup_perm hg hprsib hc.1 hc.2 hstep
        rw [← h]
        exact hinv

theorem heuristic_perm_planar {g : HGraph} (hg : ValidGraph g)
    {rng : Nat → List NodeId → List NodeId} {L : List NodeId}
    (h : solve_layout_for_graph_heuristic g rng = some L) :
    L.Perm g.nodes ∧ count_crossings_fast L (topEdges g) = some 0 := by
  unfold solve_layout_for_graph_heuristic at h
  by_cases hemp : build_initial_layout g = []
  · rw [if_pos hemp, Option.some_inj] at h
    have hperm := initial_layout_perm hg
    rw [hemp] at hperm
    have hnil : g.nodes = [] := hperm.symm.eq_nil
    have htop : topEdges g = [] := by
      unfold topEdges
      rw [hnil]
      rfl
    rw [← h, htop]
    exact ⟨by simp [hnil], rfl⟩
  · rw [if_neg hemp] at h
    simp only [Option.bind_eq_bind] at h
    rcases h1 : count_crossings_fast (build_initial_layout g) (topEdges g) with _ | c1
    · rw [h1] at h
      cases h
    · rw [h1, Option.some_bind] at h
      rcases h2 : count_crossings_fast (build_initial_layout g) g.bottomEdges with _ | c2
      · rw [h2] at h
        cases h
      · rw [h2, Option.some_bind] at h
        rcases h3 : optimize_multi_strategy g rng (topEdges g) g.bottomEdges
            (build_initial_layout g) with _ | final
        · rw [h3] at h
          cases h
        · rw [h3, Option.some_bind] at h
          rcases h4 : count_crossings_fast final (topEdges g) with _ | c4
          · rw [h4] at h
            cases h
          · rw [h4, Option.some_bind] at h
            rcases h5 : count_crossings_fast final g.bottomEdges with _ | c5
            · rw [h5] at h
              cases h
            · rw [h5, Option.some_bind, Option.some_inj] at h
              rw [← h]
              exact optimize_multi_strategy_perm hg (initial_layout_perm hg)
                (initial_layout_top_planar hg) h3

theorem forall2_mem_left {α β : Type} {R : α → β → Prop} :
    ∀ {l1 : List α} {l2 : List β}, List.Forall₂ R l1 l2 → ∀ a ∈ l1, ∃ b ∈ l2, R a b := by
  intro l1 l2 h
  induction h with
  | nil => intro a ha; cases ha
  | cons hxy htail ih =>
      intro a ha
      rcases List.mem_cons.mp ha with rfl | ha'
      · exact ⟨_, by simp, hxy⟩
      · obtain ⟨b, hb1, hb2⟩ := ih a ha'
        exact ⟨b, by simp [hb1], hb2⟩

theorem foldl_min_le_mem : ∀ (l : List Nat) (i : Nat), ∀ j ∈ l, l.foldl Nat.min i ≤ j := by
  intro l
  induction l with
  | nil => intro i j hj; cases hj
  | cons a rest ih =>
      intro i j hj
      rw [List.foldl_cons]
      rcases List.mem_cons.mp hj with rfl | hj'
      · exact le_trans (foldl_min_le_init (Nat.min i j) rest) (Nat.min_le_right i j)
      · exact ih (Nat.min i a) j hj'

theorem le_foldl_max_mem : ∀ (l : List Nat) (i : Nat), ∀ j ∈ l, j ≤ l.foldl Nat.max i := by
  intro l
  induction l with
  | nil => intro i j hj; cases hj
  | cons a rest ih =>
      intro i j hj
      rw [List.foldl_cons]
      rcases List.mem_cons.mp hj with rfl | hj'
      · exact le_trans (Nat.le_max_right i j) (init_le_foldl_max (Nat.max i j) rest)
      · exact ih (Nat.max i a) j hj'

theorem dictPos_getElem : ∀ {l : List NodeId} {x : NodeId} {i : Nat},
    dictPos l x = some i → l[i]? = some x := by
  intro l
  induction l with
  | nil => intro x i h; cases h
  | cons y ys ih =>
      intro x i h
      simp only [dictPos] at h
      rcases hh : dictPos ys x with _ | i0
      · rw [hh] at h
        by_cases hyx : y = x
        · rw [if_pos hyx] at h
          rw [Option.some_inj] at h
          subst h
          simp [hyx]
        · rw [if_neg hyx] at h
          cases h
      · rw [hh] at h
        rw [Option.some_inj] at h
        subst h
        simpa using ih hh

theorem dictPos_lt_length {l : List NodeId} {x : NodeId} {i : Nat}
    (h : dictPos l x = some i) : i < l.length := by
  have hg := dictPos_getElem h
  by_contra hcon
  rw [List.getElem?_eq_none_iff.mpr (by omega)] at hg
  cases hg

theorem mem_slice_of_dictPos {L : List NodeId} {y : NodeId} {j s e : Nat}
    (hj : dictPos L y = some j) (hs : s ≤ j) (he : j ≤ e) :
    y ∈ (L.take (e + 1)).drop s := by
  have hg := dictPos_getElem hj
  have hjl : j < L.length := dictPos_lt_length hj
  have hmem : ((L.take (e + 1)).drop s)[j - s]? = some y := by
    rw [List.getElem?_drop, List.getElem?_take_of_lt (by omega),
      show s + (j - s) = j by omega]
    exact hg
  exact List.getElem?_mem hmem

theorem olsg_cases {top bottom : List (NodeId × NodeId)} {score? : Option (NodeId → Nat)}
    {positions : NodeId → Option Nat} {layout leafSiblings L : List NodeId}
    (h : optimize_leaf_sibling_group top bottom score? layout positions leafSiblings =
      some L) :
    L = layout ∨
    ∃ (i : Nat) (is2 : List Nat) (score : NodeId → Nat) (newBlock : List NodeId),
      leafSiblings.mapM positions = some (i :: is2) ∧ score? = some score ∧
      threadOrder leafSiblings
        ((layout.take (is2.foldl Nat.max i + 1)).drop (is2.foldl Nat.min i))
        (pySort (fun a b => decide (score b < score a)) leafSiblings) = some newBlock ∧
      L = layout.take (is2.foldl Nat.min i) ++ newBlock ++
        layout.drop (is2.foldl Nat.max i + 1) ∧
      calculate_crossings L top = 0 := by
  simp only [optimize_leaf_sibling_group, Option.bind_eq_bind] at h
  rcases hmapM : leafSiblings.mapM positions with _ | sibPos
  · rw [hmapM] at h
    cases h
  · rw [hmapM, Option.some_bind] at h
    rcases sibPos with _ | ⟨i, is2⟩
    · cases h
    · dsimp only at h
      split at h
      · exact Or.inl (Option.some_inj.mp h).symm
      · rcases hsc : score? with _ | score
        · rw [hsc] at h
          exact Or.inl (Option.some_inj.mp h).symm
        · rw [hsc] at h
          dsimp only at h
          split at h
          · exact Or.inl (Option.some_inj.mp h).symm
          · split at h
            · exact Or.inl (Option.some_inj.mp h).symm
            · rcases hth : threadOrder leafSiblings
                  ((layout.take (is2.foldl Nat.max i + 1)).drop (is2.foldl Nat.min i))
                  (pySort (fun a b => decide (score b < score a)) leafSiblings)
                with _ | newBlock
              · rw [hth] at h
                exact Or.inl (Option.some_inj.mp h).symm
              · rw [hth] at h
                dsimp only at h
                split at h
                · split at h
                  · refine Or.inr ⟨i, is2, score, newBlock, rfl, rfl, hth,
                      (Option.some_inj.mp h).symm, ?_⟩
                    rw [← Option.some_inj.mp h]
                    assumption
                  · exact Or.inl (Option.some_inj.mp h).symm
                · exact Or.inl (Option.some_inj.mp h).symm

theorem olsg_perm {top bottom : List (NodeId × NodeId)} {score? : Option (NodeId → Nat)}
    {layout leafSiblings L : List NodeId}
    (hnd : layout.Nodup) (hlsnd : leafSiblings.Nodup)
    (h : optimize_leaf_sibling_group top bottom score? layout (dictPos layout)
      leafSiblings = some L) :
    L.Perm layout := by
  rcases olsg_cases h with rfl | ⟨i, is2, score, newBlock, hmapM, hsc, hth, hL, hpl⟩
  · exact List.Perm.refl _
  · have hall := mapM_option_forall2 hmapM
    have hbound : ∀ j ∈ i :: is2, j < layout.length := by
      intro j hj
      obtain ⟨y, _, hy⟩ := forall2_mem_right hall j hj
      exact dictPos_lt_length hy
    have hse : is2.foldl Nat.min i ≤ is2.foldl Nat.max i :=
      le_trans (foldl_min_le_init i is2) (init_le_foldl_max i is2)
    have hmemw : ∀ y ∈ leafSiblings,
        y ∈ (layout.take (is2.foldl Nat.max i + 1)).drop (is2.foldl Nat.min i) := by
      intro y hy
      obtain ⟨j, hjmem, hjpos⟩ := forall2_mem_left hall y hy
      have hsj : is2.foldl Nat.min i ≤ j := by
        rcases List.mem_cons.mp hjmem with rfl | hj2
        · exact foldl_min_le_init j is2
        · exact foldl_min_le_mem is2 i j hj2
      have hje : j ≤ is2.foldl Nat.max i := by
        rcases List.mem_cons.mp hjmem with rfl | hj2
        · exact init_le_foldl_max j is2
        · exact le_foldl_max_mem is2 i j hj2
      exact mem_slice_of_dictPos hjpos hsj hje
    have hwsub : ((layout.take (is2.foldl Nat.max i + 1)).drop
        (is2.foldl Nat.min i)).Sublist layout :=
      (List.drop_sublist _ _).trans (List.take_sublist _ _)
    have hwnd := hwsub.nodup hnd
    have hmembers : (((layout.take (is2.foldl Nat.max i + 1)).drop
        (is2.foldl Nat.min i)).filter
          (fun x => decide (x ∈ leafSiblings))).Perm leafSiblings := by
      refine List.Subperm.antisymm ?_ ?_
      · refine (List.Nodup.filter _ hwnd).subperm ?_
        intro x hx
        simpa using (List.of_mem_filter hx)
      · refine hlsnd.subperm ?_
        intro y hy
        exact List.mem_filter.mpr ⟨hmemw y hy, by simpa using hy⟩
    have hord := pySort_perm (fun a b => decide (score b < score a)) leafSiblings
    have hlen : (pySort (fun a b => decide (score b < score a)) leafSiblings).length =
        (((layout.take (is2.foldl Nat.max i + 1)).drop (is2.foldl Nat.min i)).filter
          (fun x => decide (x ∈ leafSiblings))).length := by
      rw [hord.length_eq, hmembers.length_eq]
    have hdecomp := threadOrder_perm_decomp hth
    rw [← hlen, List.take_length] at hdecomp
    have hperm1 : newBlock.Perm
        ((layout.take (is2.foldl Nat.max i + 1)).drop (is2.foldl Nat.min i)) := by
      refine hdecomp.trans ?_
      refine List.Perm.trans (List.Perm.append_right _ (hord.trans hmembers.symm)) ?_
      exact List.filter_append_perm _ _
    rw [hL, List.append_assoc]
    have hp2 : (layout.take (is2.foldl Nat.min i) ++
        (newBlock ++ layout.drop (is2.foldl Nat.max i + 1))).Perm
        (layout.take (is2.foldl Nat.min i) ++
          (((layout.take (is2.foldl Nat.max i + 1)).drop (is2.foldl Nat.min i)) ++
            layout.drop (is2.foldl Nat.max i + 1))) :=
      List.Perm.append_left _ (List.Perm.append_right _ hperm1)
    have hsplice := splice_decomp layout (is2.foldl Nat.min i) (is2.foldl Nat.max i)
      (by omega)
    rw [hsplice] at hp2
    exact hp2

theorem olsg_planar {top bottom : List (NodeId × NodeId)} {score? : Option (NodeId → Nat)}
    {positions : NodeId → Option Nat} {layout leafSiblings L : List NodeId}
    (h : optimize_leaf_sibling_group top bottom score? layout positions leafSiblings =
      some L)
    (hpl : calculate_crossings layout top = 0) :
    calculate_crossings L top = 0 := by
  rcases olsg_cases h with rfl | ⟨_, _, _, _, _, _, _, _, hpl2⟩
  · exact hpl
  · exact hpl2

theorem sublist_dictPos_lt {S L : List NodeId} (hsub : S.Sublist L) (hnd : L.Nodup) :
    ∀ {x y : NodeId} {i j a b : Nat},
      dictPos S x = some i → dictPos S y = some j →
      dictPos L x = some a → dictPos L y = some b → (i < j ↔ a < b) := by
  induction hsub with
  | slnil =>
      intro x y i j a b hx _ _ _
      cases hx
  | cons c hsub ih =>
      intro x y i j a b hx hy hxa hyb
      have hnd' := (List.nodup_cons.mp hnd).2
      have hxS : x ∈ _ := (dictPos_isSome_iff _ x).mp (by rw [hx]; rfl)
      have hyS : y ∈ _ := (dictPos_isSome_iff _ y).mp (by rw [hy]; rfl)
      have hxL := hsub.subset hxS
      have hyL := hsub.subset hyS
      obtain ⟨a0, ha0⟩ := Option.isSome_iff_exists.mp ((dictPos_isSome_iff _ x).mpr hxL)
      obtain ⟨b0, hb0⟩ := Option.isSome_iff_exists.mp ((dictPos_isSome_iff _ y).mpr hyL)
      simp only [dictPos, ha0, hb0] at hxa hyb
      rw [Option.some_inj] at hxa hyb
      have := ih hnd' hx hy ha0 hb0
      omega
  | cons₂ c hsub ih =>
      intro x y i j a b hx hy hxa hyb
      have hcl2 := (List.nodup_cons.mp hnd).1
      have hnd' := (List.nodup_cons.mp hnd).2
      simp only [dictPos] at hx hy hxa hyb
      rcases h1 : dictPos _ x with _ | i0 <;> rw [h1] at hx
      · have hxc : c = x := by
          by_contra hne
          rw [if_neg hne] at hx
          cases hx
        rw [if_pos hxc, Option.some_inj] at hx
        have hxl2 : dictPos _ x = none :=
          (dictPos_eq_none_iff _ x).mpr (fun hmem => hcl2 (hxc ▸ hmem))
        rw [hxl2, if_pos hxc, Option.some_inj] at hxa
        rcases h2 : dictPos _ y with _ | j0 <;> rw [h2] at hy
        · have hyc : c = y := by
            by_contra hne
            rw [if_neg hne] at hy
            cases hy
          rw [if_pos hyc, Option.some_inj] at hy
          have hyl2 : dictPos _ y = none :=
            (dictPos_eq_none_iff _ y).mpr (fun hmem => hcl2 (hyc ▸ hmem))
          rw [hyl2, if_pos hyc, Option.some_inj] at hyb
          omega
        · rw [Option.some_inj] at hy
          have hyS : y ∈ _ := (dictPos_isSome_iff _ y).mp (by rw [h2]; rfl)
          obtain ⟨b0, hb0⟩ := Option.isSome_iff_exists.mp
            ((dictPos_isSome_iff _ y).mpr (hsub.subset hyS))
          rw [hb0, Option.some_inj] at hyb
          omega
      · rw [Option.some_inj] at hx
        have hxS : x ∈ _ := (dictPos_isSome_iff _ x).mp (by rw [h1]; rfl)
        obtain ⟨a0, ha0⟩ := Option.isSome_iff_exists.mp
          ((dictPos_isSome_iff _ x).mpr (hsub.subset hxS))
        rw [ha0, Option.some_inj] at hxa
        rcases h2 : dictPos _ y with _ | j0 <;> rw [h2] at hy
        · have hyc : c = y := by
            by_contra hne
            rw [if_neg hne] at hy
            cases hy
          rw [if_pos hyc, Option.some_inj] at hy
          have hyl2 : dictPos _ y = none :=
            (dictPos_eq_none_iff _ y).mpr (fun hmem => hcl2 (hyc ▸ hmem))
          rw [hyl2, if_pos hyc, Option.some_inj] at hyb
          omega
        · rw [Option.some_inj] at hy
          have hyS : y ∈ _ := (dictPos_isSome_iff _ y).mp (by rw [h2]; rfl)
          obtain ⟨b0, hb0⟩ := Option.isSome_iff_exists.mp
            ((dictPos_isSome_iff _ y).mpr (hsub.subset hyS))
          rw [hb0, Option.some_inj] at hyb
          have := ih hnd' h1 h2 ha0 hb0
          omega

theorem crossPairH_eq_true_iff (pos : NodeId → Option Nat) (e1 e2 : NodeId × NodeId) :
    crossPairH pos e1 e2 = true ↔ ∃ a b c d, pos e1.1 = some a ∧ pos e1.2 = some b ∧
      pos e2.1 = some c ∧ pos e2.2 = some d ∧ crossPatternH a b c d = true := by
  unfold crossPairH
  rcases ha : pos e1.1 with _ | a
  · simp [ha]
  rcases hb : pos e1.2 with _ | b
  · simp [hb]
  rcases hc : pos e2.1 with _ | c
  · simp [hc]
  rcases hd : pos e2.2 with _ | d
  · simp [hd]
  simp [ha, hb, hc, hd]

set_option maxHeartbeats 1000000 in
theorem crossPairH_sublist_imp {S L : List NodeId} (hsub : S.Sublist L) (hnd : L.Nodup)
    (e1 e2 : NodeId × NodeId)
    (h : crossPairH (dictPos S) e1 e2 = true) : crossPairH (dictPos L) e1 e2 = true := by
  rw [crossPairH_eq_true_iff] at h
  obtain ⟨p1, p2, p3, p4, h1, h2, h3, h4, hpat⟩ := h
  have hm1 := hsub.subset ((dictPos_isSome_iff _ _).mp (by rw [h1]; rfl))
  have hm2 := hsub.subset ((dictPos_isSome_iff _ _).mp (by rw [h2]; rfl))
  have hm3 := hsub.subset ((dictPos_isSome_iff _ _).mp (by rw [h3]; rfl))
  have hm4 := hsub.subset ((dictPos_isSome_iff _ _).mp (by rw [h4]; rfl))
  obtain ⟨q1, hq1⟩ := Option.isSome_iff_exists.mp ((dictPos_isSome_iff _ _).mpr hm1)
  obtain ⟨q2, hq2⟩ := Option.isSome_iff_exists.mp ((dictPos_isSome_iff _ _).mpr hm2)
  obtain ⟨q3, hq3⟩ := Option.isSome_iff_exists.mp ((dictPos_isSome_iff _ _).mpr hm3)
  obtain ⟨q4, hq4⟩ := Option.isSome_iff_exists.mp ((dictPos_isSome_iff _ _).mpr hm4)
  rw [crossPairH_eq_true_iff]
  refine ⟨q1, q2, q3, q4, hq1, hq2, hq3, hq4, ?_⟩
  have i12 := sublist_dictPos_lt hsub hnd h1 h2 hq1 hq2
  have i13 := sublist_dictPos_lt hsub hnd h1 h3 hq1 hq3
  have i14 := sublist_dictPos_lt hsub hnd h1 h4 hq1 hq4
  have i21 := sublist_dictPos_lt hsub hnd h2 h1 hq2 hq1
  have i23 := sublist_dictPos_lt hsub hnd h2 h3 hq2 hq3
  have i24 := sublist_dictPos_lt hsub hnd h2 h4 hq2 hq4
  have i31 := sublist_dictPos_lt hsub hnd h3 h1 hq3 hq1
  have i32 := sublist_dictPos_lt hsub hnd h3 h2 hq3 hq2
  have i34 := sublist_dictPos_lt hsub hnd h3 h4 hq3 hq4
  have i41 := sublist_dictPos_lt hsub hnd h4 h1 hq4 hq1
  have i42 := sublist_dictPos_lt hsub hnd h4 h2 hq4 hq2
  have i43 := sublist_dictPos_lt hsub hnd h4 h3 hq4 hq3
  simp only [crossPatternH, Bool.or_eq_true, Bool.and_eq_true, decide_eq_true_eq] at hpat ⊢
  rcases hpat with ((((((⟨⟨c1, c2⟩, c3⟩ | ⟨⟨c1, c2⟩, c3⟩) | ⟨⟨c1, c2⟩, c3⟩) | ⟨⟨c1, c2⟩, c3⟩) | ⟨⟨c1, c2⟩, c3⟩) | ⟨⟨c1, c2⟩, c3⟩) | ⟨⟨c1, c2⟩, c3⟩) | ⟨⟨c1, c2⟩, c3⟩
  · exact Or.inl (Or.inl (Or.inl (Or.inl (Or.inl (Or.inl (Or.inl ⟨⟨i13.mp c1, i32.mp c2⟩, i24.mp c3⟩))))))
  · exact Or.inl (Or.inl (Or.inl (Or.inl (Or.inl (Or.inl (Or.inr ⟨⟨i14.mp c1, i42.mp c2⟩, i23.mp c3⟩))))))
  · exact Or.inl (Or.inl (Or.inl (Or.inl (Or.inl (Or.inr ⟨⟨i31.mp c1, i14.mp c2⟩, i42.mp c3⟩)))))
  · exact Or.inl (Or.inl (Or.inl (Or.inl (Or.inr ⟨⟨i32.mp c1, i24.mp c2⟩, i41.mp c3⟩))))
  · exact Or.inl (Or.inl (Or.inl (Or.inr ⟨⟨i23.mp c1, i31.mp c2⟩, i14.mp c3⟩)))
  · exact Or.inl (Or.inl (Or.inr ⟨⟨i24.mp c1, i41.mp c2⟩, i13.mp c3⟩))
  · exact Or.inl (Or.inr ⟨⟨i41.mp c1, i13.mp c2⟩, i32.mp c3⟩)
  · exact Or.inr ⟨⟨i42.mp c1, i23.mp c2⟩, i31.mp c3⟩

theorem calculate_crossings_sublist_le {S L : List NodeId} (hsub : S.Sublist L)
    (hnd : L.Nodup) (E : List (NodeId × NodeId)) :
    calculate_crossings S E ≤ calculate_crossings L E := by
  unfold calculate_crossings
  apply List.countP_mono_left
  intro p _ hp
  exact crossPairH_sublist_imp hsub hnd p.1 p.2 hp

theorem calculate_crossings_nil (E : List (NodeId × NodeId)) :
    calculate_crossings [] E = 0 := by
  unfold calculate_crossings
  rw [List.countP_eq_zero]
  intro p _
  simp [crossPairH, dictPos]

theorem leaf_sibling_groups_mem {g : HGraph} {rawEdges : List (NodeId × NodeId)}
    {pr : NodeId × List NodeId}
    (h : pr ∈ leaf_sibling_groups g rawEdges) :
    pr.1 ∈ g.nodes ∧ pr.2 = (childrenOf g pr.1).filter (isLeafStaleB g rawEdges) ∧
      1 < pr.2.length := by
  unfold leaf_sibling_groups at h
  rw [List.mem_filterMap] at h
  obtain ⟨n, hn, hif⟩ := h
  dsimp only at hif
  by_cases hlen : 1 < ((childrenOf g n).filter (isLeafStaleB g rawEdges)).length
  · rw [if_pos hlen, Option.some_inj] at hif
    rw [← hif]
    exact ⟨hn, rfl, hlen⟩
  · rw [if_neg hlen] at hif
    cases hif

theorem hybrid_fold_perm {g : HGraph} (hg : ValidGraph g)
    {top bottom rawEdges : List (NodeId × NodeId)} {oracle : Nat → Option (NodeId → Nat)}
    {init optimized : List NodeId}
    (hinit : init.Perm g.nodes)
    (hfold : (leaf_sibling_groups g rawEdges).enum.foldlM
      (fun cur pr => optimize_leaf_sibling_group top bottom (oracle pr.1) cur
        (dictPos cur) pr.2.2) init = some optimized) :
    optimized.Perm g.nodes := by
  refine foldlM_option_invariant (P := fun cur => cur.Perm g.nodes) hfold ?_ hinit
  intro pr hpr c c' hc hstep
  have hm : pr.2 ∈ leaf_sibling_groups g rawEdges :=
    List.getElem?_mem (List.mem_enum_iff_getElem?.mp hpr)
  obtain ⟨_, h22, _⟩ := leaf_sibling_groups_mem hm
  have hnd2 : pr.2.2.Nodup := by
    rw [h22]
    exact (childrenOf_nodup g hg.nodesNodup _).filter _
  exact (olsg_perm (hc.nodup_iff.mpr hg.nodesNodup) hnd2 hstep).trans hc

theorem hybrid_cases {g : HGraph} {rawEdges : List (NodeId × NodeId)}
    {rng : Nat → List NodeId → List NodeId}
    {oracle : Nat → Option (NodeId → Nat)} {x : NodeId} {xs : List NodeId}
    (hheu : solve_layout_for_graph_heuristic g rng = some (x :: xs)) :
    solve_layout_for_graph_hybrid g rawEdges rng oracle =
      staleLeafFilter g rawEdges (x :: xs) ∨
    solve_layout_for_graph_hybrid g rawEdges rng oracle = [] ∨
    ∃ optimized, (leaf_sibling_groups g rawEdges).enum.foldlM
        (fun cur pr => optimize_leaf_sibling_group (topEdges g) g.bottomEdges
          (oracle pr.1) cur (dictPos cur) pr.2.2) (x :: xs) = some optimized ∧
      calculate_crossings optimized (topEdges g) = 0 ∧
      calculate_crossings optimized g.bottomEdges <
        calculate_crossings (x :: xs) g.bottomEdges ∧
      solve_layout_for_graph_hybrid g rawEdges rng oracle =
        staleLeafFilter g rawEdges optimized := by
  unfold solve_layout_for_graph_hybrid
  rw [hheu]
  dsimp only
  split
  · exact Or.inl rfl
  · split
    · exact Or.inl rfl
    · split
      · exact Or.inr (Or.inl rfl)
      · next optimized hfold =>
          split
          · next hguard =>
              exact Or.inr (Or.inr ⟨optimized, hfold, hguard.1, hguard.2, rfl⟩)
          · exact Or.inl rfl

theorem hybrid_le_heuristic_aux {g : HGraph} (hg : ValidGraph g)
    {rawEdges : List (NodeId × NodeId)}
    {rng : Nat → List NodeId → List NodeId} {oracle : Nat → Option (NodeId → Nat)}
    {hl : List NodeId}
    (hheu : solve_layout_for_graph_heuristic g rng = some hl) :
    calculate_crossings (solve_layout_for_graph_hybrid g rawEdges rng oracle)
        g.bottomEdges ≤
      calculate_crossings hl g.bottomEdges := by
  have hperm := (heuristic_perm_planar hg hheu).1
  have hnd : hl.Nodup := hperm.nodup_iff.mpr hg.nodesNodup
  rcases hl with _ | ⟨x, xs⟩
  · unfold solve_layout_for_graph_hybrid
    rw [hheu]
  · rcases @hybrid_cases g rawEdges rng oracle x xs hheu with hres | hres | ⟨optimized, hfold, _, hlt, hres⟩
    · rw [hres]
      exact calculate_crossings_sublist_le (List.filter_sublist _) hnd _
    · rw [hres, calculate_crossings_nil]
      exact Nat.zero_le _
    · rw [hres]
      have hoptperm := hybrid_fold_perm hg hperm hfold
      have hoptnd : optimized.Nodup := hoptperm.nodup_iff.mpr hg.nodesNodup
      exact le_of_lt (lt_of_le_of_lt
        (calculate_crossings_sublist_le (List.filter_sublist _) hoptnd _) hlt)

theorem hybrid_leaf_perm {g : HGraph} (hg : ValidGraph g)
    (rawEdges : List (NodeId × NodeId))
    (rng : Nat → List NodeId → List NodeId) (oracle : Nat → Option (NodeId → Nat)) :
    solve_layout_for_graph_hybrid g rawEdges rng oracle = [] ∨
    (solve_layout_for_graph_hybrid g rawEdges rng oracle).Perm
      (g.nodes.filter (isLeafStaleB g rawEdges)) := by
  rcases hheu : solve_layout_for_graph_heuristic g rng with _ | hl
  · unfold solve_layout_for_graph_hybrid
    rw [hheu]
    exact Or.inl rfl
  · have hperm := (heuristic_perm_planar hg hheu).1
    rcases hl with _ | ⟨x, xs⟩
    · unfold solve_layout_for_graph_hybrid
      rw [hheu]
      exact Or.inl rfl
    · rcases @hybrid_cases g rawEdges rng oracle x xs hheu with hres | hres | ⟨optimized, hfold, _, _, hres⟩
      · rw [hres]
        exact Or.inr (hperm.filter _)
      · exact Or.inl hres
      · rw [hres]
        exact Or.inr ((hybrid_fold_perm hg hperm hfold).filter _)

theorem offDiagPairs_cover {α : Type} [DecidableEq α] :
    ∀ {l : List α} {a b : α}, a ∈ l → b ∈ l → a ≠ b →
      (a, b) ∈ offDiagPairs l ∨ (b, a) ∈ offDiagPairs l := by
  intro l
  induction l with
  | nil => intro a b ha; cases ha
  | cons e es ih =>
      intro a b ha hb hne
      simp only [offDiagPairs, List.mem_append, List.mem_map]
      rcases List.mem_cons.mp ha with rfl | ha'
      · have hb' : b ∈ es := by
          rcases List.mem_cons.mp hb with rfl | hb'
          · exact absurd rfl hne
          · exact hb'
        exact Or.inl (Or.inl ⟨b, hb', rfl⟩)
      · rcases List.mem_cons.mp hb with rfl | hb'
        · exact Or.inr (Or.inl ⟨a, ha', rfl⟩)
        · rcases ih ha' hb' hne with h | h
          · exact Or.inl (Or.inr h)
          · exact Or.inr (Or.inr h)

theorem offDiagTriples_cover {α : Type} [DecidableEq α] :
    ∀ {l : List α} {a b c : α}, a ∈ l → b ∈ l → c ∈ l → a ≠ b → a ≠ c → b ≠ c →
      ∃ tr ∈ offDiagTriples l, tr = (a, b, c) ∨ tr = (a, c, b) ∨ tr = (b, a, c) ∨
        tr = (b, c, a) ∨ tr = (c, a, b) ∨ tr = (c, b, a) := by
  intro l
  induction l with
  | nil => intro a b c ha; cases ha
  | cons e es ih =>
      intro a b c ha hb hc hab hac hbc
      simp only [offDiagTriples, List.mem_append, List.mem_map]
      rcases List.mem_cons.mp ha with rfl | ha'
      · have hb' : b ∈ es := by
          rcases List.mem_cons.mp hb with rfl | h
          · exact absurd rfl hab
          · exact h
        have hc' : c ∈ es := by
          rcases List.mem_cons.mp hc with rfl | h
          · exact absurd rfl hac
          · exact h
        rcases offDiagPairs_cover hb' hc' hbc with h | h
        · exact ⟨(a, b, c), Or.inl ⟨(b, c), h, rfl⟩, Or.inl rfl⟩
        · exact ⟨(a, c, b), Or.inl ⟨(c, b), h, rfl⟩, Or.inr (Or.inl rfl)⟩
      · rcases List.mem_cons.mp hb with rfl | hb'
        · have hc' : c ∈ es := by
            rcases List.mem_cons.mp hc with rfl | h
            · exact absurd rfl hbc
            · exact h
          rcases offDiagPairs_cover ha' hc' hac with h | h
          · exact ⟨(b, a, c), Or.inl ⟨(a, c), h, rfl⟩, Or.inr (Or.inr (Or.inl rfl))⟩
          · exact ⟨(b, c, a), Or.inl ⟨(c, a), h, rfl⟩,
              Or.inr (Or.inr (Or.inr (Or.inl rfl)))⟩
        · rcases List.mem_cons.mp hc with rfl | hc'
          · rcases offDiagPairs_cover ha' hb' hab with h | h
            · exact ⟨(c, a, b), Or.inl ⟨(a, b), h, rfl⟩,
                Or.inr (Or.inr (Or.inr (Or.inr (Or.inl rfl))))⟩
            · exact ⟨(c, b, a), Or.inl ⟨(b, a), h, rfl⟩,
                Or.inr (Or.inr (Or.inr (Or.inr (Or.inr rfl))))⟩
          · obtain ⟨tr, htr, hor⟩ := ih ha' hb' hc' hab hac hbc
            exact ⟨tr, Or.inr htr, hor⟩

theorem offDiagTriples_pairs_sub {α : Type} :
    ∀ {l : List α} {tr : α × α × α}, tr ∈ offDiagTriples l →
      (tr.1, tr.2.1) ∈ offDiagPairs l ∧ (tr.1, tr.2.2) ∈ offDiagPairs l ∧
        (tr.2.1, tr.2.2) ∈ offDiagPairs l := by
  intro l
  induction l with
  | nil => intro tr h; cases h
  | cons e es ih =>
      intro tr h
      simp only [offDiagTriples, List.mem_append, List.mem_map] at h
      rcases h with ⟨p, hp, rfl⟩ | h
      · have hsub := offDiagPairs_mem_sub hp
        simp only [offDiagPairs, List.mem_append, List.mem_map]
        exact ⟨Or.inl ⟨p.1, hsub.1, rfl⟩, Or.inl ⟨p.2, hsub.2, rfl⟩, Or.inr hp⟩
      · obtain ⟨h1, h2, h3⟩ := ih h
        simp only [offDiagPairs, List.mem_append]
        exact ⟨Or.inr h1, Or.inr h2, Or.inr h3⟩

theorem hybrid_trans_iff_exact (x : NodeId → NodeId → Bool) (u v w : NodeId)
    (huv : x u v = !(x v u)) (huw : x u w = !(x w u)) (hvw : x v w = !(x w v)) :
    hybridTransTriple x u v w = true ↔ exactTransTriple x u v w = true := by
  have h1 : x v u = !(x u v) := by rw [huv, Bool.not_not]
  have h2 : x w u = !(x u w) := by rw [huw, Bool.not_not]
  have h3 : x w v = !(x v w) := by rw [hvw, Bool.not_not]
  cases hab : x u v <;> cases hbc : x v w <;> cases hac : x u w <;>
    simp [hybridTransTriple, exactTransTriple, transOk, hab, hbc, hac, h1, h2, h3]

theorem hybrid_feasible_iff_exact (leaves : List NodeId) (x : NodeId → NodeId → Bool) :
    hybridOrderFeasible leaves x ↔ exactOrderFeasible leaves x := by
  unfold hybridOrderFeasible exactOrderFeasible
  constructor
  · rintro ⟨hanti, htr⟩
    refine ⟨hanti, fun tr hmem => ?_⟩
    obtain ⟨hp1, hp2, hp3⟩ := offDiagTriples_pairs_sub hmem
    exact (hybrid_trans_iff_exact x tr.1 tr.2.1 tr.2.2
      (hanti _ hp1) (hanti _ hp2) (hanti _ hp3)).mp (htr tr hmem)
  · rintro ⟨hanti, htr⟩
    refine ⟨hanti, fun tr hmem => ?_⟩
    obtain ⟨hp1, hp2, hp3⟩ := offDiagTriples_pairs_sub hmem
    exact (hybrid_trans_iff_exact x tr.1 tr.2.1 tr.2.2
      (hanti _ hp1) (hanti _ hp2) (hanti _ hp3)).mpr (htr tr hmem)

theorem feasible_antisym {inst : ILPInstance} {σ : ILPAssign} (hf : Feasible inst σ)
    {u v : NodeId} (hu : u ∈ inst.nodes) (hv : v ∈ inst.nodes) (hne : u ≠ v) :
    σ.x u v = !(σ.x v u) := by
  rcases offDiagPairs_cover hu hv hne with h | h
  · exact hf.1 (u, v) h
  · rw [hf.1 (v, u) h, Bool.not_not]

theorem feasible_trans {inst : ILPInstance} {σ : ILPAssign} (hf : Feasible inst σ)
    {a b c : NodeId} (ha : a ∈ inst.nodes) (hb : b ∈ inst.nodes) (hc : c ∈ inst.nodes)
    (hab : a ≠ b) (hac : a ≠ c) (hbc : b ≠ c)
    (h1 : σ.x a b = true) (h2 : σ.x b c = true) : σ.x a c = true := by
  obtain ⟨tr, htr, hor⟩ := offDiagTriples_cover ha hb hc hab hac hbc
  have hall := hf.2.2.1 tr htr
  simp only [exactTransTriple, Bool.and_eq_true] at hall
  obtain ⟨t1, t2, t3, t4, t5, t6⟩ := hall
  have hgoal : transOk σ.x a b c = true := by
    rcases hor with h | h | h | h | h | h <;> rw [h] at t1 t2 t3 t4 t5 t6 <;>
      simp only at t1 t2 t3 t4 t5 t6 <;> assumption
  simp only [transOk, h1, h2, Bool.not_eq_eq_eq_not, Bool.not_true, Bool.and_eq_true,
    Bool.not_eq_false] at hgoal
  by_contra hcon
  rw [Bool.not_eq_true] at hcon
  simp [transOk, h1, h2, hcon] at hgoal

theorem insertLt_pairwise {lt : NodeId → NodeId → Bool} {x : NodeId} :
    ∀ {L : List NodeId}, L.Pairwise (fun u v => lt u v = true) →
      x ∉ L →
      (∀ y ∈ L, lt y x = false → lt x y = true) →
      (∀ y ∈ L, ∀ z ∈ L, y ≠ z → lt x y = true → lt y z = true → lt x z = true) →
      (insertLt lt x L).Pairwise (fun u v => lt u v = true) := by
  intro L
  induction L with
  | nil =>
      intro _ _ _ _
      simp [insertLt]
  | cons y ys ih =>
      intro hpw hxmem htot htrans
      rw [List.pairwise_cons] at hpw
      obtain ⟨hyall, hysall⟩ := hpw
      unfold insertLt
      by_cases hyx : lt y x = true
      · rw [if_pos hyx]
        rw [List.pairwise_cons]
        constructor
        · intro z hz
          have := (insertLt_perm lt x ys).mem_iff.mp hz
          rcases List.mem_cons.mp this with rfl | hz'
          · exact hyx
          · exact hyall z hz'
        · exact ih hysall (fun h => hxmem (by simp [h]))
            (fun z hz h => htot z (by simp [hz]) h)
            (fun z hz w hw hne h1 h2 =>
              htrans z (by simp [hz]) w (by simp [hw]) hne h1 h2)
      · rw [if_neg hyx]
        have hxy : lt x y = true := htot y (by simp) (by simpa using hyx)
        rw [List.pairwise_cons]
        constructor
        · intro z hz
          rcases List.mem_cons.mp hz with rfl | hz'
          · exact hxy
          · have hyz : lt y z = true := hyall z hz'
            by_cases hne : y = z
            · exact hne ▸ hxy
            · exact htrans y (by simp) z (by simp [hz']) hne hxy hyz
        · rw [List.pairwise_cons]
          exact ⟨hyall, hysall⟩

theorem pySort_pairwise {lt : NodeId → NodeId → Bool} :
    ∀ {l : List NodeId}, l.Nodup →
      (∀ a ∈ l, ∀ b ∈ l, a ≠ b → lt b a = false → lt a b = true) →
      (∀ a ∈ l, ∀ b ∈ l, ∀ c ∈ l, a ≠ b → b ≠ c → a ≠ c →
        lt a b = true → lt b c = true → lt a c = true) →
      (pySort lt l).Pairwise (fun u v => lt u v = true) := by
  intro l
  induction l with
  | nil =>
      intro _ _ _
      simp [pySort]
  | cons x xs ih =>
      intro hnd htot htrans
      obtain ⟨hxmem, hndxs⟩ := List.nodup_cons.mp hnd
      unfold pySort
      refine insertLt_pairwise
        (ih hndxs (fun a ha b hb => htot a (by simp [ha]) b (by simp [hb]))
          (fun a ha b hb c hc => htrans a (by simp [ha]) b (by simp [hb]) c (by simp [hc])))
        (fun h => hxmem ((pySort_mem lt xs x).mp h)) ?_ ?_
      · intro y hy hlt
        have hyxs := (pySort_mem lt xs y).mp hy
        have hne : x ≠ y := fun h => hxmem (h ▸ hyxs)
        exact htot x (by simp) y (by simp [hyxs]) hne hlt
      · intro y hy z hz hne h1 h2
        have hyxs := (pySort_mem lt xs y).mp hy
        have hzxs := (pySort_mem lt xs z).mp hz
        have hxy : x ≠ y := fun h => hxmem (h ▸ hyxs)
        have hxz : x ≠ z := fun h => hxmem (h ▸ hzxs)
        exact htrans x (by simp) y (by simp [hyxs]) z (by simp [hzxs]) hxy hne hxz h1 h2

theorem pairwise_indexOf_lt {lt : NodeId → NodeId → Bool} {L : List NodeId}
    (hpw : L.Pairwise (fun u v => lt u v = true))
    {u v : NodeId} (hu : u ∈ L) (hv : v ∈ L)
    (hlt : L.indexOf u < L.indexOf v) : lt u v = true := by
  rw [List.pairwise_iff_getElem] at hpw
  have hul : L.indexOf u < L.length := List.indexOf_lt_length.mpr hu
  have hvl : L.indexOf v < L.length := List.indexOf_lt_length.mpr hv
  have := hpw (L.indexOf u) (L.indexOf v) hul hvl hlt
  rw [List.getElem_indexOf hul, List.getElem_indexOf hvl] at this
  exact this

theorem decide_lt_antisym {a b : Nat} (h : a ≠ b) :
    decide (a < b) = !decide (b < a) := by
  by_cases hab : a < b
  · simp [hab, Nat.lt_asymm hab]
  · have hba : b < a := by omega
    simp [hab, hba]

theorem crossPattern_false_of_eq {a b c d : Nat}
    (h : a = c ∨ a = d ∨ b = c ∨ b = d) : crossPattern a b c d = false := by
  by_contra hcon
  rw [Bool.not_eq_false] at hcon
  simp only [crossPattern, Bool.or_eq_true, Bool.and_eq_true, decide_eq_true_eq] at hcon
  omega

theorem decode_x_iff {inst : ILPInstance} {σ : ILPAssign} (hnd : inst.nodes.Nodup)
    (hf : Feasible inst σ) {u v : NodeId} (hu : u ∈ inst.nodes) (hv : v ∈ inst.nodes)
    (hne : u ≠ v) :
    σ.x u v = true ↔
      (decode_order inst σ).indexOf u < (decode_order inst σ).indexOf v := by
  have htot : ∀ a ∈ inst.nodes, ∀ b ∈ inst.nodes, a ≠ b →
      σ.x b a = false → σ.x a b = true := by
    intro a ha b hb hab hba
    rw [feasible_antisym hf ha hb hab, hba]
    rfl
  have hpw := pySort_pairwise hnd htot
    (fun a ha b hb c hc hab hbc hac hxab hxbc => feasible_trans hf ha hb hc hab hac hbc hxab hxbc)
  have hperm := pySort_perm (fun u v => σ.x u v) inst.nodes
  have hLnd : (decode_order inst σ).Nodup := hperm.nodup_iff.mpr hnd
  have huL : u ∈ decode_order inst σ := hperm.mem_iff.mpr hu
  have hvL : v ∈ decode_order inst σ := hperm.mem_iff.mpr hv
  constructor
  · intro hx
    have hneidx : (decode_order inst σ).indexOf u ≠ (decode_order inst σ).indexOf v :=
      fun h => hne ((List.indexOf_inj huL hvL).mp h)
    by_contra hcon
    have hlt : (decode_order inst σ).indexOf v < (decode_order inst σ).indexOf u := by
      omega
    have hvu : σ.x v u = true := pairwise_indexOf_lt hpw hvL huL hlt
    rw [feasible_antisym hf hu hv hne, hvu] at hx
    cases hx
  · intro hlt
    exact pairwise_indexOf_lt hpw huL hvL hlt

theorem feasible_cross_pattern_cvar {inst : ILPInstance} {σ : ILPAssign}
    (hnd : inst.nodes.Nodup) (hf : Feasible inst σ) {e1 e2 : NodeId × NodeId}
    (hwf1 : e1.1 ∈ inst.nodes ∧ e1.2 ∈ inst.nodes ∧ e1.1 ≠ e1.2)
    (hwf2 : e2.1 ∈ inst.nodes ∧ e2.2 ∈ inst.nodes ∧ e2.1 ≠ e2.2)
    (hconstr : crossConstr σ.x e1 e2 (σ.cvar e1 e2) = true)
    (hpat : crossPattern ((decode_order inst σ).indexOf e1.1)
      ((decode_order inst σ).indexOf e1.2) ((decode_order inst σ).indexOf e2.1)
      ((decode_order inst σ).indexOf e2.2) = true) :
    σ.cvar e1 e2 = true := by
  by_cases hcv : σ.cvar e1 e2 = true
  · exact hcv
  rw [Bool.not_eq_true] at hcv
  exfalso
  by_cases hsh : sharesEndpoint e1 e2 = true
  · simp only [sharesEndpoint, Bool.or_eq_true, decide_eq_true_eq] at hsh
    have : crossPattern ((decode_order inst σ).indexOf e1.1)
        ((decode_order inst σ).indexOf e1.2) ((decode_order inst σ).indexOf e2.1)
        ((decode_order inst σ).indexOf e2.2) = false := by
      apply crossPattern_false_of_eq
      rcases hsh with ((h | h) | h) | h
      · exact Or.inl (by rw [h])
      · exact Or.inr (Or.inl (by rw [h]))
      · exact Or.inr (Or.inr (Or.inl (by rw [h])))
      · exact Or.inr (Or.inr (Or.inr (by rw [h])))
    rw [this] at hpat
    cases hpat
  · have hne : e1.1 ≠ e2.1 ∧ e1.1 ≠ e2.2 ∧ e1.2 ≠ e2.1 ∧ e1.2 ≠ e2.2 := by
      simp only [sharesEndpoint, Bool.or_eq_true, decide_eq_true_eq] at hsh
      push_neg at hsh
      exact ⟨hsh.1.1.1, hsh.1.1.2, hsh.1.2, hsh.2⟩
    obtain ⟨hA, hB, hAB⟩ := hwf1
    obtain ⟨hC, hD, hCD⟩ := hwf2
    obtain ⟨hAC, hAD, hBC, hBD⟩ := hne
    have hX : ∀ {p q : NodeId}, p ∈ inst.nodes → q ∈ inst.nodes → p ≠ q →
        (decode_order inst σ).indexOf p < (decode_order inst σ).indexOf q →
        σ.x p q = true :=
      fun hp hq hpq hlt => (decode_x_iff hnd hf hp hq hpq).mpr hlt
    rw [show crossConstr σ.x e1 e2 (σ.cvar e1 e2) =
        (!(σ.x e1.1 e2.1 && σ.x e2.1 e1.2 && σ.x e1.2 e2.2 && !(σ.cvar e1 e2)) &&
        (!(σ.x e1.2 e2.1 && σ.x e2.1 e1.1 && σ.x e1.1 e2.2 && !(σ.cvar e1 e2)) &&
        (!(σ.x e1.1 e2.2 && σ.x e2.2 e1.2 && σ.x e1.2 e2.1 && !(σ.cvar e1 e2)) &&
        (!(σ.x e1.2 e2.2 && σ.x e2.2 e1.1 && σ.x e1.1 e2.1 && !(σ.cvar e1 e2)) &&
        (!(σ.x e2.1 e1.1 && σ.x e1.1 e2.2 && σ.x e2.2 e1.2 && !(σ.cvar e1 e2)) &&
        (!(σ.x e2.1 e1.2 && σ.x e1.2 e2.2 && σ.x e2.2 e1.1 && !(σ.cvar e1 e2)) &&
        (!(σ.x e2.2 e1.1 && σ.x e1.1 e2.1 && σ.x e2.1 e1.2 && !(σ.cvar e1 e2)) &&
        (!(σ.x e2.2 e1.2 && σ.x e1.2 e2.1 && σ.x e2.1 e1.1 && !(σ.cvar e1 e2))))))))))
      from by rw [crossConstr, if_neg hsh]] at hconstr
    simp only [crossPattern, Bool.or_eq_true, Bool.and_eq_true, decide_eq_true_eq] at hpat
    rcases hpat with ((((((⟨⟨c1, c2⟩, c3⟩ | ⟨⟨c1, c2⟩, c3⟩) | ⟨⟨c1, c2⟩, c3⟩) |
      ⟨⟨c1, c2⟩, c3⟩) | ⟨⟨c1, c2⟩, c3⟩) | ⟨⟨c1, c2⟩, c3⟩) | ⟨⟨c1, c2⟩, c3⟩) |
      ⟨⟨c1, c2⟩, c3⟩
    · rw [hX hA hC hAC c1, hX hC hB (Ne.symm hBC) c2, hX hB hD hBD c3, hcv] at hconstr
      simp at hconstr
    · rw [hX hA hD hAD c1, hX hD hB (Ne.symm hBD) c2, hX hB hC hBC c3, hcv] at hconstr
      simp at hconstr
    · rw [hX hB hC hBC c1, hX hC hA (Ne.symm hAC) c2, hX hA hD hAD c3, hcv] at hconstr
      simp at hconstr
    · rw [hX hB hD hBD c1, hX hD hA (Ne.symm hAD) c2, hX hA hC hAC c3, hcv] at hconstr
      simp at hconstr
    · rw [hX hC hA (Ne.symm hAC) c1, hX hA hD hAD c2, hX hD hB (Ne.symm hBD) c3,
        hcv] at hconstr
      simp at hconstr
    · rw [hX hC hB (Ne.symm hBC) c1, hX hB hD hBD c2, hX hD hA (Ne.symm hAD) c3,
        hcv] at hconstr
      simp at hconstr
    · rw [hX hD hA (Ne.symm hAD) c1, hX hA hC hAC c2, hX hC hB (Ne.symm hBC) c3,
        hcv] at hconstr
      simp at hconstr
    · rw [hX hD hB (Ne.symm hBD) c1, hX hB hC hBC c2, hX hC hA (Ne.symm hAC) c3,
        hcv] at hconstr
      simp at hconstr

theorem decode_in_class {inst : ILPInstance} {σ : ILPAssign} (hnd : inst.nodes.Nodup)
    (htopwf : ∀ e ∈ inst.topPairs, e.1 ∈ inst.nodes ∧ e.2 ∈ inst.nodes ∧ e.1 ≠ e.2)
    (hf : Feasible inst σ) :
    OrderInClass inst (decode_order inst σ) := by
  refine ⟨pySort_perm _ _, ?_, ?_⟩
  · intro e he
    obtain ⟨h1, h2, h3⟩ := htopwf e he
    exact (decode_x_iff hnd hf h1 h2 h3).mp (hf.2.1 e he)
  · unfold orderCross
    rw [List.countP_eq_zero]
    intro pr hpr
    have hsub := offDiagPairs_mem_sub hpr
    have hwf1 := htopwf pr.1 hsub.1
    have hwf2 := htopwf pr.2 hsub.2
    rw [Bool.not_eq_true]
    by_contra hcon
    rw [Bool.not_eq_false] at hcon
    have := feasible_cross_pattern_cvar hnd hf hwf1 hwf2 (hf.2.2.2.1 pr hpr) hcon
    rw [hf.2.2.2.2.2 pr hpr] at this
    cases this

theorem orderCross_le_objVal {inst : ILPInstance} {σ : ILPAssign} (hnd : inst.nodes.Nodup)
    (hbotwf : ∀ e ∈ inst.bottomPairs, e.1 ∈ inst.nodes ∧ e.2 ∈ inst.nodes ∧ e.1 ≠ e.2)
    (hf : Feasible inst σ) :
    orderCross (decode_order inst σ) inst.bottomPairs ≤ objVal inst σ := by
  unfold orderCross objVal
  apply List.countP_mono_left
  intro pr hpr hpat
  have hsub := offDiagPairs_mem_sub hpr
  exact feasible_cross_pattern_cvar hnd hf (hbotwf pr.1 hsub.1) (hbotwf pr.2 hsub.2)
    (hf.2.2.2.2.1 pr hpr) hpat

theorem offDiagPairs_ne {α : Type} [DecidableEq α] :
    ∀ {l : List α}, l.Nodup → ∀ {pr : α × α}, pr ∈ offDiagPairs l → pr.1 ≠ pr.2 := by
  intro l
  induction l with
  | nil => intro _ pr h; cases h
  | cons e es ih =>
      intro hnd pr h
      obtain ⟨hmem, hnd'⟩ := List.nodup_cons.mp hnd
      simp only [offDiagPairs, List.mem_append, List.mem_map] at h
      rcases h with ⟨f, hf, rfl⟩ | h
      · exact fun hq => hmem (by simpa using (by simpa using hq : e = f) ▸ hf)
      · exact ih hnd' h

theorem assignOfOrder_feasible {inst : ILPInstance} {M : List NodeId}
    (hnd : inst.nodes.Nodup) (hM : OrderInClass inst M) :
    Feasible inst (assignOfOrder M) := by
  obtain ⟨hperm, hI1, htop0⟩ := hM
  refine ⟨?_, ?_, ?_, ?_, ?_, ?_⟩
  · intro pr hpr
    have hne := offDiagPairs_ne hnd hpr
    have hsub := offDiagPairs_mem_sub hpr
    have h1 : pr.1 ∈ M := hperm.mem_iff.mpr hsub.1
    have h2 : pr.2 ∈ M := hperm.mem_iff.mpr hsub.2
    have hneidx : M.indexOf pr.1 ≠ M.indexOf pr.2 :=
      fun h => hne ((List.indexOf_inj h1 h2).mp h)
    exact decide_lt_antisym hneidx
  · intro e he
    simp only [assignOfOrder, decide_eq_true_eq]
    exact hI1 e he
  · intro tr _
    simp only [exactTransTriple, transOk, assignOfOrder, Bool.and_eq_true,
      Bool.not_eq_true', Bool.and_eq_false_iff, Bool.not_eq_false', decide_eq_true_eq,
      decide_eq_false_iff_not]
    omega
  · intro pr hpr
    by_cases hsh : sharesEndpoint pr.1 pr.2 = true
    · rw [crossConstr, if_pos hsh]
    · rw [crossConstr, if_neg hsh]
      simp only [assignOfOrder, crossPattern, Bool.and_eq_true, Bool.not_eq_true',
        Bool.and_eq_false_iff, Bool.not_eq_false', decide_eq_true_eq,
        decide_eq_false_iff_not, Bool.or_eq_true, Bool.not_eq_false]
      omega
  · intro pr hpr
    by_cases hsh : sharesEndpoint pr.1 pr.2 = true
    · rw [crossConstr, if_pos hsh]
    · rw [crossConstr, if_neg hsh]
      simp only [assignOfOrder, crossPattern, Bool.and_eq_true, Bool.not_eq_true',
        Bool.and_eq_false_iff, Bool.not_eq_false', decide_eq_true_eq,
        decide_eq_false_iff_not, Bool.or_eq_true, Bool.not_eq_false]
      omega
  · intro pr hpr
    have := List.countP_eq_zero.mp htop0 pr hpr
    rw [Bool.not_eq_true] at this
    exact this

theorem objVal_assignOfOrder (inst : ILPInstance) (M : List NodeId) :
    objVal inst (assignOfOrder M) = orderCross M inst.bottomPairs := rfl

theorem ilp_decode_optimal {inst : ILPInstance} {σ : ILPAssign}
    (hnd : inst.nodes.Nodup)
    (htopwf : ∀ e ∈ inst.topPairs, e.1 ∈ inst.nodes ∧ e.2 ∈ inst.nodes ∧ e.1 ≠ e.2)
    (hbotwf : ∀ e ∈ inst.bottomPairs, e.1 ∈ inst.nodes ∧ e.2 ∈ inst.nodes ∧ e.1 ≠ e.2)
    (hf : Feasible inst σ)
    (hopt : ∀ τ, Feasible inst τ → objVal inst σ ≤ objVal inst τ) :
    OrderInClass inst (decode_order inst σ) ∧
    ∀ M, OrderInClass inst M →
      orderCross (decode_order inst σ) inst.bottomPairs ≤
        orderCross M inst.bottomPairs := by
  refine ⟨decode_in_class hnd htopwf hf, fun M hM => ?_⟩
  calc orderCross (decode_order inst σ) inst.bottomPairs
      ≤ objVal inst σ := orderCross_le_objVal hnd hbotwf hf
    _ ≤ objVal inst (assignOfOrder M) := hopt _ (assignOfOrder_feasible hnd hM)
    _ = orderCross M inst.bottomPairs := objVal_assignOfOrder inst M

theorem docParent_some_sub {doc : InputDoc} {x p : NodeId}
    (h : docParent doc x = some p) :
    ∃ n ∈ doc.nodes, n.id = x ∧ n.parent = some p := by
  unfold docParent at h
  rcases hl : (doc.nodes.filter (fun n => n.id == x)).getLast? with _ | n
  · rw [hl] at h
    cases h
  · rw [hl] at h
    have hmem := List.mem_of_getLast?_eq_some hl
    rw [List.mem_filter] at hmem
    exact ⟨n, hmem.1, by simpa using hmem.2, h⟩

theorem parentIter_add (doc : InputDoc) :
    ∀ (a b : Nat) (v : NodeId), parentIter doc (a + b) v =
      (parentIter doc a v).bind (parentIter doc b) := by
  intro a
  induction a with
  | zero =>
      intro b v
      simp [parentIter]
  | succ a ih =>
      intro b v
      rw [show a + 1 + b = (a + b) + 1 by omega]
      simp only [parentIter]
      rcases docParent doc v with _ | p
      · rfl
      · exact ih b p

theorem nodup_sub_length_le {l ids : List NodeId} (hnd : l.Nodup)
    (hsub : ∀ x ∈ l, x ∈ ids) : l.length ≤ ids.dedup.length := by
  have hsub2 : ∀ x ∈ l, x ∈ ids.dedup := fun x hx => List.mem_dedup.mpr (hsub x hx)
  exact (hnd.subperm hsub2).length_le

theorem has_cycle_walk_true {doc : InputDoc}
    (hpar : ∀ nid ∈ doc.nodes.map (·.id), ∀ p, docParent doc nid = some p →
      p ∈ doc.nodes.map (·.id)) :
    ∀ (fuel : Nat) (nid : NodeId) (visited : List NodeId),
      nid ∈ doc.nodes.map (·.id) → visited.Nodup →
      (∀ x ∈ visited, x ∈ doc.nodes.map (·.id)) →
      (∃ m, parentIter doc (m + 1) nid = some nid) →
      (doc.nodes.map (·.id)).dedup.length < fuel + visited.length →
      has_cycle_aux (docParent doc) fuel nid visited = true := by
  intro fuel
  induction fuel with
  | zero =>
      intro nid visited _ hvnd hvsub _ hlen
      exact absurd (nodup_sub_length_le hvnd hvsub) (by omega)
  | succ fuel ih =>
      intro nid visited hnid hvnd hvsub hcyc hlen
      obtain ⟨m, hm⟩ := hcyc
      have hp : ∃ p, docParent doc nid = some p ∧ parentIter doc m p = some nid := by
        rw [show m + 1 = 1 + m by omega, parentIter_add] at hm
        rcases hq : docParent doc nid with _ | p
        · rw [show parentIter doc 1 nid = none by simp [parentIter, hq]] at hm
          cases hm
        · rw [show parentIter doc 1 nid = some p by simp [parentIter, hq],
            Option.some_bind] at hm
          exact ⟨p, rfl, hm⟩
      obtain ⟨p, hq, hrest⟩ := hp
      rw [show has_cycle_aux (docParent doc) (fuel + 1) nid visited =
          (if p ∈ visited then true
            else has_cycle_aux (docParent doc) fuel p (p :: visited)) by
        simp [has_cycle_aux, hq]]
      by_cases hpv : p ∈ visited
      · rw [if_pos hpv]
      · rw [if_neg hpv]
        have hpm : p ∈ doc.nodes.map (·.id) := hpar nid hnid p hq
        have hcyc' : ∃ m', parentIter doc (m' + 1) p = some p := by
          refine ⟨m, ?_⟩
          rw [show m + 1 = m + 1 by rfl, parentIter_add doc m 1 p, hrest,
            Option.some_bind]
          simp [parentIter, hq]
        exact ih p (p :: visited) hpm (List.nodup_cons.mpr ⟨hpv, hvnd⟩)
          (fun x hx => by
            rcases List.mem_cons.mp hx with rfl | hx'
            · exact hpm
            · exact hvsub x hx')
          hcyc' (by simp; omega)

theorem validate_rejects_cycle {doc : InputDoc} {v : NodeId} {k : Nat}
    (hv : v ∈ doc.nodes.map (·.id))
    (hcyc : parentIter doc (k + 1) v = some v) :
    validate_graph_structure doc = false := by
  unfold validate_graph_structure
  dsimp only
  by_cases hc1 : doc.nodes.all (fun n =>
      match n.parent with | none => true | some p => decide (p ∈ doc.nodes.map (·.id))) = true
  · have hpar : ∀ nid ∈ doc.nodes.map (·.id), ∀ p, docParent doc nid = some p →
        p ∈ doc.nodes.map (·.id) := by
      intro nid _ p hp
      obtain ⟨n, hn, _, hnp⟩ := docParent_some_sub hp
      have := List.all_eq_true.mp hc1 n hn
      rw [hnp] at this
      simpa using this
    have hwalk : has_cycle_aux (docParent doc) ((doc.nodes.map (·.id)).length + 1) v
        [v] = true := by
      apply has_cycle_walk_true hpar _ v [v] hv (by simp) (by simpa using hv)
        ⟨k, hcyc⟩
      have := List.Sublist.length_le (List.dedup_sublist (doc.nodes.map (·.id)))
      simp only [List.length_cons, List.length_nil]
      omega
    have hc2 : (doc.nodes.map (·.id)).all (fun nid =>
        !(has_cycle_aux (docParent doc) ((doc.nodes.map (·.id)).length + 1) nid
          [nid])) = false := by
      rw [Bool.eq_false_iff]
      intro hall
      have := List.all_eq_true.mp hall v hv
      rw [hwalk] at this
      cases this
    rw [hc1, hc2]
    rfl
  · rw [Bool.not_eq_true] at hc1
    rw [hc1]
    rfl

theorem input_order_declared (doc : InputDoc)
    (hne : (doc.nodes.filter (fun n => n.type == "leaf")) ≠ []) :
    input_order doc = some ((doc.nodes.filter (fun n => n.type == "leaf")).map (·.id)) := by
  unfold input_order
  rw [if_neg (by simpa using hne)]

theorem input_order_of_accurate_types {doc : InputDoc}
    (hacc : ∀ n ∈ doc.nodes, (n.type == "leaf") = isLeafB (graphOfDoc doc) n.id)
    (hne : (doc.nodes.filter (fun n => n.type == "leaf")) ≠ []) :
    input_order doc =
      some ((doc.nodes.filter (fun n => isLeafB (graphOfDoc doc) n.id)).map (·.id)) := by
  rw [input_order_declared doc hne]
  congr 1
  congr 1
  exact List.filter_congr hacc

theorem mem_insertsEverywhere {α : Type} (x : α) :
    ∀ (A B : List α), A ++ x :: B ∈ insertsEverywhere x (A ++ B) := by
  intro A
  induction A with
  | nil =>
      intro B
      rcases B with _ | ⟨b, bs⟩ <;> simp [insertsEverywhere]
  | cons a A' ih =>
      intro B
      show a :: (A' ++ x :: B) ∈ insertsEverywhere x (a :: (A' ++ B))
      simp only [insertsEverywhere, List.mem_cons, List.mem_map]
      right
      exact ⟨A' ++ x :: B, ih B, rfl⟩

theorem allPerms_complete {α : Type} :
    ∀ (l M : List α), M.Perm l → M ∈ allPerms l := by
  intro l
  induction l with
  | nil =>
      intro M hM
      rw [hM.eq_nil]
      simp [allPerms]
  | cons x xs ih =>
      intro M hM
      have hx : x ∈ M := hM.mem_iff.mpr (by simp)
      obtain ⟨A, B, rfl⟩ := List.append_of_mem hx
      have hmid : (A ++ x :: B).Perm (x :: (A ++ B)) := List.perm_middle
      have hAB : (A ++ B).Perm xs := (hmid.symm.trans hM).cons_inv
      simp only [allPerms, List.mem_flatMap]
      exact ⟨A ++ B, ih _ hAB, mem_insertsEverywhere x A B⟩

theorem gW_valid : ValidGraph gW := by
  refine ⟨by decide, ?_, ⟨fun v => if v = "A" then 0 else 1, ?_, by decide⟩, by decide⟩
  · intro c hc p hp
    by_cases hcA : c = "A"
    · rw [show gW.parentOf c = none by simp [gW, hcA]] at hp
      cases hp
    · rw [show gW.parentOf c = some "A" by simp [gW, hcA]] at hp
      rw [← Option.some_inj.mp hp]
      decide
  · intro c hc p hp
    by_cases hcA : c = "A"
    · rw [show gW.parentOf c = none by simp [gW, hcA]] at hp
      cases hp
    · rw [show gW.parentOf c = some "A" by simp [gW, hcA]] at hp
      rw [← Option.some_inj.mp hp]
      simp [hcA]

theorem eof_antisym {leaves : List NodeId} {x : NodeId → NodeId → Bool}
    (hf : exactOrderFeasible leaves x) {u v : NodeId}
    (hu : u ∈ leaves) (hv : v ∈ leaves) (hne : u ≠ v) : x u v = !(x v u) := by
  rcases offDiagPairs_cover hu hv hne with h | h
  · exact hf.1 (u, v) h
  · rw [hf.1 (v, u) h, Bool.not_not]

theorem eof_trans {leaves : List NodeId} {x : NodeId → NodeId → Bool}
    (hf : exactOrderFeasible leaves x) {a b c : NodeId}
    (ha : a ∈ leaves) (hb : b ∈ leaves) (hc : c ∈ leaves)
    (hab : a ≠ b) (hac : a ≠ c) (hbc : b ≠ c)
    (h1 : x a b = true) (h2 : x b c = true) : x a c = true := by
  obtain ⟨tr, htr, hor⟩ := offDiagTriples_cover ha hb hc hab hac hbc
  have hall := hf.2 tr htr
  simp only [exactTransTriple, Bool.and_eq_true] at hall
  obtain ⟨t1, t2, t3, t4, t5, t6⟩ := hall
  have hgoal : transOk x a b c = true := by
    rcases hor with h | h | h | h | h | h <;> rw [h] at t1 t2 t3 t4 t5 t6 <;>
      simp only at t1 t2 t3 t4 t5 t6 <;> assumption
  by_contra hcon
  rw [Bool.not_eq_true] at hcon
  simp [transOk, h1, h2, hcon] at hgoal

theorem eof_linear_order {leaves : List NodeId} {x : NodeId → NodeId → Bool}
    (hnd : leaves.Nodup) (hf : exactOrderFeasible leaves x) :
    ∃ L : List NodeId, L.Perm leaves ∧ ∀ u ∈ leaves, ∀ v ∈ leaves, u ≠ v →
      (x u v = true ↔ L.indexOf u < L.indexOf v) := by
  have htot : ∀ a ∈ leaves, ∀ b ∈ leaves, a ≠ b → x b a = false → x a b = true := by
    intro a ha b hb hab hba
    rw [eof_antisym hf ha hb hab, hba]
    rfl
  have hpw := pySort_pairwise hnd htot
    (fun a ha b hb c hc hab hbc hac h1 h2 => eof_trans hf ha hb hc hab hac hbc h1 h2)
  have hperm := pySort_perm (fun u v => x u v) leaves
  refine ⟨pySort (fun u v => x u v) leaves, hperm, ?_⟩
  intro u hu v hv hne
  have huL := hperm.mem_iff.mpr hu
  have hvL := hperm.mem_iff.mpr hv
  constructor
  · intro hx
    have hneidx : (pySort (fun u v => x u v) leaves).indexOf u ≠
        (pySort (fun u v => x u v) leaves).indexOf v :=
      fun h => hne ((List.indexOf_inj huL hvL).mp h)
    by_contra hcon
    have hlt : (pySort (fun u v => x u v) leaves).indexOf v <
        (pySort (fun u v => x u v) leaves).indexOf u := by omega
    have hvu : x v u = true := pairwise_indexOf_lt hpw hvL huL hlt
    rw [eof_antisym hf hu hv hne, hvu] at hx
    cases hx
  · intro hlt
    exact pairwise_indexOf_lt hpw huL hvL hlt

/-- When no raw input edge `(p, c)` duplicates a parent link `p → c`, the
hybrid's stale leaf set agrees with the computed leaf set pointwise. -/
theorem isLeafStaleB_eq_isLeafB {g : HGraph} {rawEdges : List (NodeId × NodeId)}
    (h : ∀ e ∈ rawEdges, g.parentOf e.2 ≠ some e.1) (n : NodeId) :
    isLeafStaleB g rawEdges n = isLeafB g n := by
  have key : staleHasChildren g rawEdges n = true ↔ childrenOf g n ≠ [] := by
    unfold staleHasChildren
    rw [List.any_eq_true]
    constructor
    · rintro ⟨c, hc, hpred⟩
      rw [Bool.and_eq_true, decide_eq_true_eq] at hpred
      intro hnil
      have hm : c ∈ childrenOf g n := (childrenOf_mem g n c).mpr ⟨hc, hpred.1⟩
      rw [hnil] at hm
      exact absurd hm (List.not_mem_nil c)
    · intro hne
      obtain ⟨c, hc⟩ := List.exists_mem_of_ne_nil _ hne
      have hm := (childrenOf_mem g n c).mp hc
      refine ⟨c, hm.1, ?_⟩
      rw [Bool.and_eq_true, decide_eq_true_eq]
      refine ⟨hm.2, ?_⟩
      rw [Bool.not_eq_true', decide_eq_false_iff_not]
      intro hmem
      exact h (n, c) hmem hm.2
  unfold isLeafStaleB isLeafB
  congr 1
  by_cases hc : childrenOf g n = []
  · have hs : staleHasChildren g rawEdges n = false := by
      rw [← Bool.not_eq_true, key]
      simp [hc]
    rw [hs]
    simp [hc]
  · have hs : staleHasChildren g rawEdges n = true := key.mpr hc
    rw [hs]
    simp [hc]

/-- C1: on every valid graph where both solvers produce a non-empty result,
the bottom-edge crossing count of the hybrid solver's returned order is at
most that of the heuristic solver's returned order, over the same bottom-edge
set (the hybrid's leaf filter only removes edges' endpoints, so filtering
cannot add crossings, whatever leaf set it uses). -/
theorem claim_C1 {g : HGraph} (hg : ValidGraph g)
    (rawEdges : List (NodeId × NodeId))
    (rng : Nat → List NodeId → List NodeId) (oracle : Nat → Option (NodeId → Nat))
    {hl : List NodeId}
    (hheu : solve_layout_for_graph_heuristic g rng = some hl) (hne : hl ≠ [])
    (hyne : solve_layout_for_graph_hybrid g rawEdges rng oracle ≠ []) :
    calculate_crossings (solve_layout_for_graph_hybrid g rawEdges rng oracle)
        g.bottomEdges ≤
      calculate_crossings hl g.bottomEdges :=
  hybrid_le_heuristic_aux hg hheu

theorem claim_C1_witness :
    calculate_crossings
        (solve_layout_for_graph_hybrid gW gW.bottomEdges (fun _ l => l) (fun _ => none))
        gW.bottomEdges ≤
      calculate_crossings ["A", "c", "b", "d", "e"] gW.bottomEdges := by
  set_option maxHeartbeats 2000000 in
  exact claim_C1 gW_valid gW.bottomEdges (fun _ l => l) (fun _ => none)
    (by decide : solve_layout_for_graph_heuristic gW (fun _ l => l) =
      some ["A", "c", "b", "d", "e"]) (by decide) (by decide)

/-- C2 (amended): a non-empty heuristic result is a permutation of ALL node
ids (the Python function returns the full layout, not the leaf subsequence);
the hybrid's non-empty result is a permutation of its STALE leaf set —
`leaf_nodes` is computed from the loader's edge types before the heuristic
flips parent-duplicating bottom edges back to top — which equals the computed
leaf set exactly when no raw edge duplicates a parent link; the ILP's
decoded-and-filtered result is a permutation of the computed leaf set. -/
theorem claim_C2 {g : HGraph} (hg : ValidGraph g)
    (rng : Nat → List NodeId → List NodeId) (oracle : Nat → Option (NodeId → Nat))
    (rawEdges : List (NodeId × NodeId))
    {L : List NodeId} (hh : solve_layout_for_graph_heuristic g rng = some L) :
    L.Perm g.nodes ∧
    (solve_layout_for_graph_hybrid g rawEdges rng oracle = [] ∨
      (solve_layout_for_graph_hybrid g rawEdges rng oracle).Perm
        (g.nodes.filter (isLeafStaleB g rawEdges))) ∧
    ((∀ e ∈ rawEdges, g.parentOf e.2 ≠ some e.1) →
      g.nodes.filter (isLeafStaleB g rawEdges) = g.nodes.filter (isLeafB g)) ∧
    ∀ (inst : ILPInstance) (σ : ILPAssign),
      (ilpLeafFilter inst (decode_order inst σ)).Perm (ilpLeafFilter inst inst.nodes) :=
  ⟨(heuristic_perm_planar hg hh).1, hybrid_leaf_perm hg rawEdges rng oracle,
    fun hnd => List.filter_congr (fun n _ => isLeafStaleB_eq_isLeafB hnd n),
    fun inst σ => (pySort_perm _ _).filter _⟩

/-- Two failures of the original claim.  The heuristic returns its full
layout: on the two-node graph with root `a` and leaf `b`, the returned order
contains the internal node `a`.  And the hybrid's leaf set is stale: on
`gdup`, whose raw edge `(r, a)` duplicates the parent link, the hybrid
returns the internal node `r`, which is not a computed leaf. -/
theorem claim_C2_counterexample :
    solve_layout_for_graph_heuristic g2c (fun _ l => l) = some ["a", "b"] ∧
    isLeafB g2c "a" = false ∧
    g2c.nodes.filter (isLeafB g2c) = ["b"] ∧
    ¬ (["a", "b"] : List NodeId).Perm ["b"] ∧
    solve_layout_for_graph_hybrid gdup [("r", "a")] (fun _ l => l) (fun _ => none) =
      ["r", "a"] ∧
    isLeafB gdup "r" = false ∧
    gdup.nodes.filter (isLeafB gdup) = ["a"] ∧
    ¬ (["r", "a"] : List NodeId).Perm ["a"] := by
  refine ⟨by decide, by decide, by decide, by decide, ?_, by decide, by decide, by decide⟩
  set_option maxHeartbeats 1000000 in
  decide

theorem claim_C2_witness :
    solve_layout_for_graph_hybrid gW gW.bottomEdges (fun _ l => l) (fun _ => none) = [] ∨
    (solve_layout_for_graph_hybrid gW gW.bottomEdges (fun _ l => l)
        (fun _ => none)).Perm
      (gW.nodes.filter (isLeafStaleB gW gW.bottomEdges)) := by
  set_option maxHeartbeats 2000000 in
  exact (claim_C2 gW_valid (fun _ l => l) (fun _ => none) gW.bottomEdges
    (by decide : solve_layout_for_graph_heuristic gW (fun _ l => l) =
      some ["A", "c", "b", "d", "e"])).2.1

/-- C3: the heuristic's full layout has zero top-edge crossings; the initial
DFS pre-order puts every parent before its children (I1) and keeps each
node's descendants in a contiguous window (I2), it is itself top-planar, and
every accepted refinement move yields a layout the planarity check counted
zero top crossings on. -/
theorem claim_C3 {g : HGraph} (hg : ValidGraph g)
    (rng : Nat → List NodeId → List NodeId) {L : List NodeId}
    (hsolve : solve_layout_for_graph_heuristic g rng = some L) :
    count_crossings_fast L (topEdges g) = some 0 ∧
    (∀ e ∈ topEdges g, (build_initial_layout g).indexOf e.1 <
      (build_initial_layout g).indexOf e.2) ∧
    (∀ v ∈ g.nodes, ∃ a len, (build_initial_layout g).indexOf v = a ∧
      ∀ u ∈ g.nodes, (Desc g v u ↔
        a ≤ (build_initial_layout g).indexOf u ∧
        (build_initial_layout g).indexOf u < a + len)) ∧
    count_crossings_fast (build_initial_layout g) (topEdges g) = some 0 ∧
    ∀ (top bottom cur siblings : List _) (mn mx : Nat) (strats : List Strat)
      (baseCross : Nat) (bl : List NodeId) (nc : Nat),
      evalStrategies top bottom cur siblings mn mx strats baseCross =
        some (some (bl, nc)) →
      count_crossings_fast bl top = some 0 := by
  refine ⟨(heuristic_perm_planar hg hsolve).2,
    fun e he => initial_layout_parent_lt hg he,
    fun v hv => layout_window hg hv,
    initial_layout_top_planar hg,
    fun top bottom cur siblings mn mx strats baseCross bl nc hacc => ?_⟩
  obtain ⟨strat, _, _, hver, _, _⟩ := evalStrategies_spec hacc
  exact verify_true_iff.mp hver

theorem claim_C3_witness :
    count_crossings_fast ["A", "c", "b", "d", "e"] (topEdges gW) = some 0 := by
  set_option maxHeartbeats 2000000 in
  exact (claim_C3 gW_valid (fun _ l => l)
    (by decide : solve_layout_for_graph_heuristic gW (fun _ l => l) =
      some ["A", "c", "b", "d", "e"])).1

/-- C4 (amended): when the exact formulation has an optimal feasible
assignment, the DECODED FULL ORDER is in the class of orders satisfying I1
and top-page planarity, and its bottom crossing count is the minimum over
that class.  (The value the original claim attaches to the solver's returned
order fails: the function returns the leaf subsequence, whose crossing count
can undercut the class minimum; see the counterexample.) -/
theorem claim_C4 {inst : ILPInstance} {σ : ILPAssign}
    (hnd : inst.nodes.Nodup)
    (htopwf : ∀ e ∈ inst.topPairs, e.1 ∈ inst.nodes ∧ e.2 ∈ inst.nodes ∧ e.1 ≠ e.2)
    (hbotwf : ∀ e ∈ inst.bottomPairs, e.1 ∈ inst.nodes ∧ e.2 ∈ inst.nodes ∧ e.1 ≠ e.2)
    (hf : Feasible inst σ)
    (hopt : ∀ τ, Feasible inst τ → objVal inst σ ≤ objVal inst τ) :
    OrderInClass inst (decode_order inst σ) ∧
    ∀ M, OrderInClass inst M →
      orderCross (decode_order inst σ) inst.bottomPairs ≤
        orderCross M inst.bottomPairs :=
  ilp_decode_optimal hnd htopwf hbotwf hf hopt

/-- On `inst4` the optimal value over the I1-planar class is 1, but the leaf
subsequence the solver returns has bottom crossing count 0: the returned
order's count does not equal the class minimum. -/
theorem claim_C4_counterexample :
    Feasible inst4 (assignOfOrder ["r", "a", "x", "b", "y"]) ∧
    (∀ τ, Feasible inst4 τ →
      objVal inst4 (assignOfOrder ["r", "a", "x", "b", "y"]) ≤ objVal inst4 τ) ∧
    ilpLeafFilter inst4 (decode_order inst4 (assignOfOrder ["r", "a", "x", "b", "y"])) =
      ["x", "y"] ∧
    calculate_crossings ["x", "y"] inst4.bottomPairs = 0 ∧
    ∀ M, OrderInClass inst4 M → 1 ≤ orderCross M inst4.bottomPairs := by
  have hperm_min : ∀ M, OrderInClass inst4 M → 1 ≤ orderCross M inst4.bottomPairs := by
    intro M hM
    have hmem := allPerms_complete inst4.nodes M hM.1
    have H : ∀ M' ∈ allPerms inst4.nodes,
        ((∀ e ∈ inst4.topPairs, M'.indexOf e.1 < M'.indexOf e.2) ∧
          orderCross M' inst4.topPairs = 0) →
        1 ≤ orderCross M' inst4.bottomPairs := by
      set_option maxRecDepth 10000 in
      set_option maxHeartbeats 4000000 in
      decide
    exact H M hmem ⟨hM.2.1, hM.2.2⟩
  refine ⟨⟨by decide, by decide, by decide, by decide, by decide, by decide⟩,
    ?_, by decide, by decide, hperm_min⟩
  intro τ hfτ
  have h1 : objVal inst4 (assignOfOrder ["r", "a", "x", "b", "y"]) = 1 := by decide
  have hin := decode_in_class (by decide) (by decide) hfτ
  have hle := orderCross_le_objVal (by decide) (by decide) hfτ
  have hmin := hperm_min _ hin
  omega

theorem claim_C4_witness :
    OrderInClass inst4
      (decode_order inst4 (assignOfOrder ["r", "a", "x", "b", "y"])) := by
  have hfeas : Feasible inst4 (assignOfOrder ["r", "a", "x", "b", "y"]) :=
    ⟨by decide, by decide, by decide, by decide, by decide, by decide⟩
  have hopt : ∀ τ, Feasible inst4 τ →
      objVal inst4 (assignOfOrder ["r", "a", "x", "b", "y"]) ≤ objVal inst4 τ := by
    intro τ hfτ
    have h1 : objVal inst4 (assignOfOrder ["r", "a", "x", "b", "y"]) = 1 := by decide
    have hin := decode_in_class (by decide) (by decide) hfτ
    have hle := orderCross_le_objVal (by decide) (by decide) hfτ
    have hmem := allPerms_complete inst4.nodes _ hin.1
    have H : ∀ M' ∈ allPerms inst4.nodes,
        ((∀ e ∈ inst4.topPairs, M'.indexOf e.1 < M'.indexOf e.2) ∧
          orderCross M' inst4.topPairs = 0) →
        1 ≤ orderCross M' inst4.bottomPairs := by
      set_option maxRecDepth 10000 in
      set_option maxHeartbeats 4000000 in
      decide
    have hmin := H _ hmem ⟨hin.2.1, hin.2.2⟩
    omega
  exact (claim_C4 (by decide) (by decide) (by decide) hfeas hopt).1

/-- C5: an accepted move of the per-group refinement loop strictly decreases
the bottom-edge crossing count of the current layout, and in consequence the
`while improved` loop stabilizes: any fuel beyond the initial crossing count
computes the same result, so the loop terminates. -/
theorem claim_C5 {g : HGraph} {top bottom : List (NodeId × NodeId)}
    {rng : Nat → List NodeId → List NodeId} {parent : NodeId}
    {siblings : List NodeId} {mn mx : Nat} {cur : List NodeId} {ctr : Nat}
    {bl : List NodeId} {nc ctr2 : Nat}
    (hacc : groupIteration g top bottom rng parent siblings mn mx cur ctr =
      some (some (bl, nc), ctr2)) :
    count_crossings_fast bl bottom = some nc ∧
    (∀ bc, count_crossings_fast cur bottom = some bc → nc < bc) ∧
    ∀ bc f1 f2, count_crossings_fast cur bottom = some bc → bc < f1 → bc < f2 →
      groupLoop g top bottom rng parent siblings mn mx f1 cur ctr =
        groupLoop g top bottom rng parent siblings mn mx f2 cur ctr :=
  ⟨(groupIteration_accept_count hacc).1, (groupIteration_accept_count hacc).2,
    fun bc f1 f2 h h1 h2 => groupLoop_fuel_eq bc cur ctr f1 f2 h h1 h2⟩

theorem claim_C5_witness :
    count_crossings_fast ["A", "c", "b", "d", "e"] gW.bottomEdges = some 0 := by
  have h := claim_C5 (by
    set_option maxHeartbeats 2000000 in
    decide : groupIteration gW (topEdges gW) gW.bottomEdges (fun _ l => l) "A"
      ["b", "c", "d", "e"] 1 4 ["A", "b", "c", "d", "e"] 0 =
      some (some (["A", "c", "b", "d", "e"], 0), 5))
  exact h.1

/-- C6: the crossing counters are direction-agnostic — replacing an edge
`(u,v)` by `(v,u)` changes neither `count_crossings_fast` nor
`calculate_crossings` — and the eight enumerated patterns hold exactly when
the sorted endpoint indices interleave. -/
theorem claim_C6 {edges : List (NodeId × NodeId)} {i : Nat} {u v : NodeId}
    (layout : List NodeId) (h : edges[i]? = some (u, v)) :
    count_crossings_fast layout (edges.set i (v, u)) =
      count_crossings_fast layout edges ∧
    calculate_crossings layout (edges.set i (v, u)) =
      calculate_crossings layout edges ∧
    ∀ a b c d : Nat, (crossPattern a b c d = true ∧ crossPatternH a b c d = true) ↔
      ((min a b < min c d ∧ min c d < max a b ∧ max a b < max c d) ∨
        (min c d < min a b ∧ min a b < max c d ∧ max c d < max a b)) := by
  refine ⟨count_crossings_fast_swapRel layout (forall2_swapRel_set edges i u v h),
    calculate_crossings_swapRel layout (forall2_swapRel_set edges i u v h),
    fun a b c d => ?_⟩
  rw [crossPatternH_eq, and_self]
  exact crossPattern_iff_interleave a b c d

theorem claim_C6_witness :
    count_crossings_fast ["p", "q", "r", "s"] ([("p", "r"), ("q", "s")].set 0 ("r", "p")) =
      count_crossings_fast ["p", "q", "r", "s"] [("p", "r"), ("q", "s")] :=
  (claim_C6 ["p", "q", "r", "s"] (by decide :
    ([("p", "r"), ("q", "s")] : List (NodeId × NodeId))[0]? = some ("p", "r"))).1

/-- C7 (amended): the `input` method returns the ids of the nodes DECLARED
`type == "leaf"`, in document order (falling back to all ids when none is
declared); when the declared types agree with computed leafness and at least
one leaf is declared, this is exactly the computed leaf set in document
order. -/
theorem claim_C7 {doc : InputDoc}
    (hacc : ∀ n ∈ doc.nodes, (n.type == "leaf") = isLeafB (graphOfDoc doc) n.id)
    (hne : doc.nodes.filter (fun n => n.type == "leaf") ≠ []) :
    input_order doc =
      some ((doc.nodes.filter (fun n => isLeafB (graphOfDoc doc) n.id)).map (·.id)) :=
  input_order_of_accurate_types hacc hne

/-- The `input` method trusts the declared `type`: on a document whose only
computed leaf is `b` but which declares no node `leaf`, it falls back to ALL
ids and returns the internal node `a` as well. -/
theorem claim_C7_counterexample :
    input_order doc7 = some ["a", "b"] ∧
    isLeafB (graphOfDoc doc7) "a" = false ∧
    (doc7.nodes.filter (fun n => isLeafB (graphOfDoc doc7) n.id)).map (·.id) = ["b"] ∧
    (some ["a", "b"] : Option (List NodeId)) ≠ some ["b"] := by
  refine ⟨by decide, by decide, by decide, by decide⟩

theorem claim_C7_witness :
    input_order doc7w =
      some ((doc7w.nodes.filter (fun n => isLeafB (graphOfDoc doc7w) n.id)).map (·.id)) :=
  claim_C7 (by decide) (by decide)

/-- C8 (amended): an upload whose parent mapping contains a cycle is rejected
by `validate_graph_structure` — but the cycle check runs only at upload; the
order endpoint itself never re-validates, so a cyclic document that reaches
`get_order` IS solved and cached (see the counterexample). -/
theorem claim_C8 {doc : InputDoc} {v : NodeId} {k : Nat}
    (hv : v ∈ doc.nodes.map (·.id)) (hcyc : parentIter doc (k + 1) v = some v) :
    validate_graph_structure doc = false :=
  validate_rejects_cycle hv hcyc

/-- On the 2-cycle document `a ↔ b`, the heuristic solve path of `get_order`
returns the non-empty order "a b" and writes it to the cache — the claimed
empty result and absent cache entry do not hold. -/
theorem claim_C8_counterexample :
    parentIter doc8 2 "a" = some "a" ∧
    get_order_heuristic doc8 none (fun _ l => l) = (some "a b", some "a b") := by
  refine ⟨by decide, by
    set_option maxHeartbeats 2000000 in
    decide⟩

theorem claim_C8_witness : validate_graph_structure doc8 = false :=
  claim_C8 (v := "a") (by decide) (by decide :
    parentIter doc8 (1 + 1) "a" = some "a")

/-- C9: the hybrid's restricted ordering constraints (antisymmetry plus its
three transitivity inequalities per 3-subset) admit exactly the assignments
the exact solver's six-per-3-subset formulation admits, and every such
assignment is the comparison relation of a linear order of the cluster's
leaves. -/
theorem claim_C9 {leaves : List NodeId} (hnd : leaves.Nodup)
    (x : NodeId → NodeId → Bool) :
    (hybridOrderFeasible leaves x ↔ exactOrderFeasible leaves x) ∧
    (hybridOrderFeasible leaves x →
      ∃ L : List NodeId, L.Perm leaves ∧ ∀ u ∈ leaves, ∀ v ∈ leaves, u ≠ v →
        (x u v = true ↔ L.indexOf u < L.indexOf v)) :=
  ⟨hybrid_feasible_iff_exact leaves x,
    fun hx => eof_linear_order hnd ((hybrid_feasible_iff_exact leaves x).mp hx)⟩

theorem claim_C9_witness :
    hybridOrderFeasible ["a", "b", "c"] (fun u v => strLtB u v) ↔
      exactOrderFeasible ["a", "b", "c"] (fun u v => strLtB u v) :=
  (claim_C9 (by decide) (fun u v => strLtB u v)).1

/-- C10 (amended): a non-empty heuristic result is a permutation of all node
ids, and a candidate rebuild whose new order is a permutation of the group
members currently inside the chosen window is a rearrangement of the window
(a permutation of the whole list).  The unconditional version is false: after
an accepted move has shifted members out of the window computed before the
loop, the rebuild can duplicate and drop nodes (see the counterexample) — the
run then crashes in the crossing counter, which is why returned layouts are
still permutations. -/
theorem claim_C10 {g : HGraph} (hg : ValidGraph g)
    (rng : Nat → List NodeId → List NodeId) {L : List NodeId}
    (hh : solve_layout_for_graph_heuristic g rng = some L) :
    L.Perm g.nodes ∧
    ∀ (cur s ord nl : List NodeId) (mn mx : Nat), mn ≤ mx + 1 →
      ord.Perm (((cur.take (mx + 1)).drop mn).filter (fun n => decide (n ∈ s))) →
      apply_sibling_order_fast cur s mn mx ord = some nl → nl.Perm cur := by
  refine ⟨(heuristic_perm_planar hg hh).1, ?_⟩
  intro cur s ord nl mn mx hmn hordperm happ
  obtain ⟨nb, hth, rfl⟩ := apply_sibling_order_some happ
  have hdecomp := threadOrder_perm_decomp hth
  have hlen : ord.length =
      (((cur.take (mx + 1)).drop mn).filter (fun n => decide (n ∈ s))).length :=
    hordperm.length_eq
  rw [← hlen, List.take_length] at hdecomp
  have hperm1 : nb.Perm ((cur.take (mx + 1)).drop mn) := by
    refine hdecomp.trans ?_
    refine List.Perm.trans (List.Perm.append_right _ hordperm) ?_
    exact List.filter_append_perm _ _
  have hp2 : (cur.take mn ++ (nb ++ cur.drop (mx + 1))).Perm
      (cur.take mn ++ (((cur.take (mx + 1)).drop mn) ++ cur.drop (mx + 1))) :=
    List.Perm.append_left _ (List.Perm.append_right _ hperm1)
  have hsplice := splice_decomp cur mn mx hmn
  rw [hsplice] at hp2
  exact hp2

/-- With the window `[2,3]` computed on the INITIAL layout but the group
`[a,c]` shifted by an accepted move, the rebuild duplicates `a` and drops
`c`: the result is not a rearrangement.  On the full instance the heuristic
run crashes (`none`). -/
theorem claim_C10_counterexample :
    build_initial_layout g10c = ["r", "p", "a", "c", "x", "y", "z"] ∧
    pyIndex ["r", "p", "a", "c", "x", "y", "z"] "a" = some 2 ∧
    pyIndex ["r", "p", "a", "c", "x", "y", "z"] "c" = some 3 ∧
    apply_sibling_order_fast ["r", "p", "y", "c", "x", "a", "z"] ["a", "c"] 2 3
      ["a", "c"] = some ["r", "p", "y", "a", "x", "a", "z"] ∧
    ¬ (["r", "p", "y", "a", "x", "a", "z"] : List NodeId).Perm
      ["r", "p", "y", "c", "x", "a", "z"] ∧
    solve_layout_for_graph_heuristic g10c (fun _ l => l) = none := by
  refine ⟨by decide, by decide, by decide, by decide, by decide, by
    set_option maxRecDepth 10000 in
    set_option maxHeartbeats 4000000 in
    decide⟩

theorem claim_C10_witness :
    (["A", "c", "b", "d", "e"] : List NodeId).Perm gW.nodes := by
  set_option maxHeartbeats 2000000 in
  exact (claim_C10 gW_valid (fun _ l => l)
    (by decide : solve_layout_for_graph_heuristic gW (fun _ l => l) =
      some ["A", "c", "b", "d", "e"])).1

end HTrix
